import Mathlib

/-!
# Verification of the voodooapp URL/UTM and link-report pipelines

This development embeds the two logic cores of the repository
(`src/tabs/utm_bitly.py` and `src/tabs/bitly_stats.py`) in Lean.

Python strings are modelled as byte sequences (`List Nat`, each entry a
byte value < 256; ASCII literals are injected with `bs`).  This is exact
for the functions involved: every operation they perform (searching for
ASCII delimiter bytes, percent-encoding, ASCII case mapping,
lexicographic comparison) acts identically on a Python `str` and on its
UTF-8 byte sequence.

The `urllib.parse` standard-library functions that `build_utm_url` and
`parse_utm_params` call are embedded from CPython 3.11 sources
(`urlsplit`, `urlunsplit`, `urlparse`, `urlunparse`, `parse_qsl`,
`parse_qs`, `quote_plus`, `unquote`, `urlencode`, plus `dict` built from
a key/value list).  Exceptions raised by this machinery (`ValueError`
for an authority with unbalanced square brackets) are modelled as
`Option`/`Except` failures.  CPython 3.11 additionally validates the
host inside *balanced* brackets; that check is not modelled, and every
universally quantified theorem below therefore restricts to URLs with
bracket-free authorities, where all CPython 3.x versions agree.
-/

namespace Voodoo

/-- Byte strings: the model of Python `str` (as its UTF-8 bytes). -/
abbrev Bytes := List Nat

/-- Inject an ASCII string literal as a byte string. -/
def bs (s : String) : Bytes := s.data.map Char.toNat

/-- ASCII upper-case letter. -/
def isUpperAlpha (b : Nat) : Bool := decide (65 ≤ b ∧ b ≤ 90)

/-- ASCII lower-case letter. -/
def isLowerAlpha (b : Nat) : Bool := decide (97 ≤ b ∧ b ≤ 122)

/-- ASCII letter: the `url[0].isascii() and url[0].isalpha()` test. -/
def isAlphaB (b : Nat) : Bool := isUpperAlpha b || isLowerAlpha b

/-- ASCII digit. -/
def isDigitB (b : Nat) : Bool := decide (48 ≤ b ∧ b ≤ 57)

/-- ASCII lower-casing of one byte (`str.lower` on the all-ASCII scheme). -/
def lowerB (b : Nat) : Nat := if isUpperAlpha b then b + 32 else b

/-- `urllib.parse.scheme_chars`: letters, digits, `+`, `-`, `.`. -/
def isSchemeChar (b : Nat) : Bool :=
  isAlphaB b || isDigitB b || b = 43 || b = 45 || b = 46

/-- Member of `_WHATWG_C0_CONTROL_OR_SPACE` (bytes 0x00..0x20). -/
def isC0OrSpace (b : Nat) : Bool := decide (b ≤ 32)

/-- Member of `_UNSAFE_URL_BYTES_TO_REMOVE` (tab, CR, LF). -/
def isUnsafeByte (b : Nat) : Bool := b = 9 || b = 13 || b = 10

/-- The sanitisation `urlsplit` applies first: left-strip C0 controls and
space, then remove every tab/CR/LF. -/
def sanitize (l : Bytes) : Bytes :=
  (l.dropWhile isC0OrSpace).filter (fun b => !isUnsafeByte b)

/-- Split at the first occurrence of byte `b` (Python `s.split(c, 1)` when
it finds a separator); `none` when `b` does not occur. -/
def splitFirst (b : Nat) : Bytes → Option (Bytes × Bytes)
  | [] => none
  | c :: r =>
    if c = b then some ([], r)
    else match splitFirst b r with
      | some (p, s) => some (c :: p, s)
      | none => none

/-- Split at the last occurrence of byte `b` (`s.rfind`). -/
def splitLast (b : Nat) (l : Bytes) : Option (Bytes × Bytes) :=
  match splitFirst b l.reverse with
  | some (p, s) => some (s.reverse, p.reverse)
  | none => none

/-- The test `i > 0 and url[0].isascii() and url[0].isalpha()` together
with the loop over `scheme_chars`, applied to the part before the first
colon. -/
def schemeDetect : Bytes → Bool
  | [] => false
  | b :: rest => isAlphaB b && (b :: rest).all isSchemeChar

/-- The scheme-detection step of `urlsplit`: an initial `name:` is a
scheme when `name` is nonempty, starts with an ASCII letter and consists
of scheme characters; the scheme is lower-cased. -/
def schemeSplit (url : Bytes) : Bytes × Bytes :=
  match splitFirst 58 url with
  | some (pre, post) =>
    if schemeDetect pre then (pre.map lowerB, post) else ([], url)
  | none => ([], url)

/-- Bytes ending the network-location part (`/`, `?`, `#`). -/
def isNetlocEnd (b : Nat) : Bool := b = 47 || b = 63 || b = 35

/-- The `Invalid IPv6 URL` condition: exactly one of `[`, `]` occurs. -/
def bracketBad (n : Bytes) : Bool :=
  (n.contains 91 && !n.contains 93) || (n.contains 93 && !n.contains 91)

/-- Result of `urlsplit`. -/
structure UrlSplit where
  scheme : Bytes
  netloc : Bytes
  path : Bytes
  query : Bytes
  fragment : Bytes
deriving Repr, DecidableEq

/-- Python `s.split(c, 1)`: the part before the first occurrence and
the part after it (the whole string and `""` when absent). -/
def splitTail (b : Nat) (u : Bytes) : Bytes × Bytes :=
  match splitFirst b u with
  | some pr => pr
  | none => (u, [])

/-- The part of `urlsplit` after sanitisation and scheme removal: the
optional `//netloc` (validated for brackets), then fragment and query
are split off the remainder. -/
def splitBody (scheme u2 : Bytes) : Option UrlSplit :=
  if u2.take 2 = [47, 47] then
    let nl := (u2.drop 2).takeWhile (fun b => !isNetlocEnd b)
    let u3 := (u2.drop 2).dropWhile (fun b => !isNetlocEnd b)
    if bracketBad nl then none
    else
      let fq := splitTail 35 u3
      let pq := splitTail 63 fq.1
      some ⟨scheme, nl, pq.1, pq.2, fq.2⟩
  else
    let fq := splitTail 35 u2
    let pq := splitTail 63 fq.1
    some ⟨scheme, [], pq.1, pq.2, fq.2⟩

/-- `urllib.parse.urlsplit` (CPython 3.11), on bytes; `none` models the
`ValueError` raised for an authority with unbalanced square brackets.
Two further `ValueError` sources of CPython are outside this embedding's
scope and are not modelled: `_checknetloc`, which rejects some
non-ASCII authorities under NFKC normalization (it returns immediately
on an ASCII netloc, so it can never fire on all-ASCII input), and
`_check_bracketed_host`, which validates a host between balanced
brackets (it only fires when both `[` and `]` occur in the authority).
Theorems about inputs the program rejects through those two checks —
non-ASCII authorities, or balanced-bracket authorities — must not rely
on this function returning `some`. -/
def urlsplitB (url0 : Bytes) : Option UrlSplit :=
  let sp := schemeSplit (sanitize url0)
  splitBody sp.1 sp.2

/-- `urllib.parse.uses_params`. -/
def usesParams : List Bytes :=
  [bs "", bs "ftp", bs "hdl", bs "prospero", bs "http", bs "imap",
   bs "https", bs "shttp", bs "rtsp", bs "rtsps", bs "rtspu", bs "sip",
   bs "sips", bs "mms", bs "sftp", bs "tel"]

/-- `urllib.parse.uses_netloc`. -/
def usesNetloc : List Bytes :=
  [bs "", bs "ftp", bs "http", bs "gopher", bs "nntp", bs "telnet",
   bs "imap", bs "wais", bs "file", bs "mms", bs "https", bs "shttp",
   bs "snews", bs "prospero", bs "rtsp", bs "rtsps", bs "rtspu",
   bs "rsync", bs "svn", bs "svn+ssh", bs "sftp", bs "nfs", bs "git",
   bs "git+ssh", bs "ws", bs "wss"]

/-- `urllib.parse._splitparams`: split `;params` off the last path
segment. -/
def splitparamsB (p : Bytes) : Bytes × Bytes :=
  if p.contains 47 then
    match splitLast 47 p with
    | some (a, b2) =>
      match splitFirst 59 b2 with
      | some (b1, rest) => (a ++ 47 :: b1, rest)
      | none => (p, [])
    | none => (p, [])
  else
    match splitFirst 59 p with
    | some (p1, p2) => (p1, p2)
    | none => (p, [])

/-- Result of `urlparse`. -/
structure UrlParsed where
  scheme : Bytes
  netloc : Bytes
  path : Bytes
  params : Bytes
  query : Bytes
  fragment : Bytes
deriving Repr, DecidableEq

/-- `urllib.parse.urlparse`: `urlsplit` plus the params split. -/
def urlparseB (url : Bytes) : Option UrlParsed :=
  match urlsplitB url with
  | none => none
  | some s =>
    if usesParams.contains s.scheme && s.path.contains 59 then
      let pr := splitparamsB s.path
      some ⟨s.scheme, s.netloc, pr.1, pr.2, s.query, s.fragment⟩
    else some ⟨s.scheme, s.netloc, s.path, [], s.query, s.fragment⟩

/-- The final two steps of `urlunsplit`: append `?query` when the query
is nonempty, then `#fragment` when the fragment is nonempty. -/
def appendQF (x q f : Bytes) : Bytes :=
  if f ≠ [] then (if q ≠ [] then x ++ 63 :: q else x) ++ 35 :: f
  else (if q ≠ [] then x ++ 63 :: q else x)

/-- The scheme-less, query-less part assembled by `urlunsplit`: the
`//netloc` block (with a slash guard on the path) or the bare path. -/
def unsplitU1 (scheme netloc path : Bytes) : Bytes :=
  if netloc ≠ [] ∨
     (scheme ≠ [] ∧ usesNetloc.contains scheme ∧ path.take 2 ≠ [47, 47])
  then 47 :: 47 :: (netloc ++
    (if path ≠ [] ∧ path.take 1 ≠ [47] then 47 :: path else path))
  else path

/-- `urllib.parse.urlunsplit` (CPython 3.11). -/
def urlunsplitB (scheme netloc path query fragment : Bytes) : Bytes :=
  appendQF
    (if scheme ≠ [] then scheme ++ 58 :: unsplitU1 scheme netloc path
     else unsplitU1 scheme netloc path) query fragment

/-- `urllib.parse.urlunparse`: re-join params, then `urlunsplit`. -/
def urlunparseB (p : UrlParsed) : Bytes :=
  let pp := if p.params ≠ [] then p.path ++ 59 :: p.params else p.path
  urlunsplitB p.scheme p.netloc pp p.query p.fragment

/-- Value of an ASCII hex digit (both cases), as in `_hextobyte`. -/
def hexDigitVal (b : Nat) : Option Nat :=
  if 48 ≤ b ∧ b ≤ 57 then some (b - 48)
  else if 65 ≤ b ∧ b ≤ 70 then some (b - 55)
  else if 97 ≤ b ∧ b ≤ 102 then some (b - 87)
  else none

/-- `urllib.parse.unquote` at byte level: `%XX` with two hex digits
becomes a byte; an unmatched `%` stays literal. -/
def unquoteB : Bytes → Bytes
  | [] => []
  | 37 :: h1 :: h2 :: rest2 =>
    match hexDigitVal h1, hexDigitVal h2 with
    | some a, some c => (16 * a + c) :: unquoteB rest2
    | _, _ => 37 :: unquoteB (h1 :: h2 :: rest2)
  | b :: rest => b :: unquoteB rest

/-- The `name.replace('+', ' ')` step of `parse_qsl`. -/
def plusToSpace (l : Bytes) : Bytes := l.map (fun b => if b = 43 then 32 else b)

/-- The full `parse_qsl` decoding of one token: `+` to space, then
percent-decoding. -/
def pyUnquotePlus (l : Bytes) : Bytes := unquoteB (plusToSpace l)

/-- Bytes `quote_plus` passes through unescaped: letters, digits and
`_`, `.`, `-`, `~`. -/
def isSafeByte (b : Nat) : Bool :=
  isAlphaB b || isDigitB b || b = 95 || b = 46 || b = 45 || b = 126

/-- Upper-case hex digit for a value < 16 (`%02X` formatting). -/
def hexDigitChar (n : Nat) : Nat := if n < 10 then n + 48 else n + 55

/-- `quote_plus` on one byte: safe bytes unchanged, space to `+`, the
rest percent-encoded. -/
def quoteByte (b : Nat) : Bytes :=
  if isSafeByte b then [b]
  else if b = 32 then [43]
  else [37, hexDigitChar (b / 16), hexDigitChar (b % 16)]

/-- `urllib.parse.quote_plus` with `safe=''`. -/
def quotePlus : Bytes → Bytes
  | [] => []
  | b :: r => quoteByte b ++ quotePlus r

/-- One decoded query parameter: key and value. -/
abbrev QPair := Bytes × Bytes

/-- One `k=v` token of `urlencode` output. -/
def encodePair (p : QPair) : Bytes := quotePlus p.1 ++ 61 :: quotePlus p.2

/-- `urllib.parse.urlencode` over string-valued pairs (with string
values, `doseq=True` behaves as the plain form). -/
def urlencodeB : List QPair → Bytes
  | [] => []
  | [p] => encodePair p
  | p :: ps => encodePair p ++ 38 :: urlencodeB ps

/-- Python `str.split(sep)` (no maxsplit): `""` gives `[""]`. -/
def splitSep (sep : Nat) : Bytes → List Bytes
  | [] => [[]]
  | b :: r =>
    if b = sep then [] :: splitSep sep r
    else match splitSep sep r with
      | [] => [[b]]
      | f :: fs => (b :: f) :: fs

/-- One field of `parse_qsl`: empty fields are skipped; without `=` the
field is kept (with blank value) only when `keep_blank_values`; with `=`
a blank value is kept only when `keep_blank_values`. -/
def qslField (keepBlank : Bool) (f : Bytes) : Option QPair :=
  if f = [] then none
  else match splitFirst 61 f with
    | some (n, v) =>
      if v ≠ [] || keepBlank then some (pyUnquotePlus n, pyUnquotePlus v)
      else none
    | none =>
      if keepBlank then some (pyUnquotePlus f, []) else none

/-- `urllib.parse.parse_qsl` with separator `&`. -/
def parseQsl (keepBlank : Bool) (qs : Bytes) : List QPair :=
  if qs = [] then [] else (splitSep 38 qs).filterMap (qslField keepBlank)

/-- Python `dict` update `d[k] = v`: replace in place, else append. -/
def dictInsert (k v : Bytes) : List QPair → List QPair
  | [] => [(k, v)]
  | p :: r => if p.1 = k then (k, v) :: r else p :: dictInsert k v r

/-- Python `dict(pairs)`: last value wins, first occurrence fixes the
position of a key. -/
def listToDict (l : List QPair) : List QPair :=
  l.foldl (fun d p => dictInsert p.1 p.2 d) []

/-- The `utm_params` overwrite loop of `build_utm_url`: each non-empty
tracking value is written into the query mapping, in the fixed order
source, medium, campaign, term. -/
def applyUtm (d : List QPair) (s m c t : Bytes) : List QPair :=
  let d1 := if s ≠ [] then dictInsert (bs "utm_source") s d else d
  let d2 := if m ≠ [] then dictInsert (bs "utm_medium") m d1 else d1
  let d3 := if c ≠ [] then dictInsert (bs "utm_campaign") c d2 else d2
  if t ≠ [] then dictInsert (bs "utm_term") t d3 else d3

/-- `build_utm_url` from `src/tabs/utm_bitly.py`: empty input returns
the empty string; otherwise parse, merge the tracking parameters into
the decoded query mapping, re-encode and reassemble.  `none` models the
`ValueError` escaping from `urlparse`. -/
def build_utm_url (base_url utm_source utm_medium utm_campaign utm_term : Bytes) :
    Option Bytes :=
  if base_url = [] then some [] else
  match urlparseB base_url with
  | none => none
  | some p =>
    let qp := applyUtm (listToDict (parseQsl true p.query))
      utm_source utm_medium utm_campaign utm_term
    some (urlunparseB ⟨p.scheme, p.netloc, p.path, p.params, urlencodeB qp, p.fragment⟩)

/-! Sanity checks: each equality below reproduces an observed CPython
3.11 evaluation of the embedded function. -/

theorem sanity_urlsplit_basic :
    urlsplitB (bs "http://h/p?a=1&a=2#f") =
      some ⟨bs "http", bs "h", bs "/p", bs "a=1&a=2", bs "f"⟩ := by decide

theorem sanity_parse_qsl :
    parseQsl true (bs "a=1&a=2&b&c=&=d&&x=%3D+z") =
      [(bs "a", bs "1"), (bs "a", bs "2"), (bs "b", bs ""), (bs "c", bs ""),
       (bs "", bs "d"), (bs "x", bs "= z")] := by decide

theorem sanity_urlencode_dict :
    urlencodeB (listToDict (parseQsl true (bs "a=1&a=2&b&c=&=d&&x=%3D+z"))) =
      bs "a=2&b=&c=&=d&x=%3D+z" := by decide

theorem sanity_roundtrip_relative_scheme :
    (urlparseB (bs "http:p?a=1")).map urlunparseB = some (bs "http:///p?a=1") := by
  decide

theorem sanity_roundtrip_many_slashes :
    (urlparseB (bs "////x")).map urlunparseB = some (bs "//x") := by decide

theorem sanity_roundtrip_mailto :
    (urlparseB (bs "mailto:a@b?x=1")).map urlunparseB = some (bs "mailto:a@b?x=1") := by
  decide

theorem sanity_params_dropped :
    (urlparseB (bs "http://h/a;?x=1")).map urlunparseB = some (bs "http://h/a?x=1") := by
  decide

theorem sanity_params_kept :
    (urlparseB (bs "http://h/a;b?x=1")).map urlunparseB =
      some (bs "http://h/a;b?x=1") := by decide

theorem sanity_quote_plus :
    quotePlus (bs "a b+c/d:e~f_g.h-i=j&k%l") =
      bs "a+b%2Bc%2Fd%3Ae~f_g.h-i%3Dj%26k%25l" := by decide

theorem sanity_unquote :
    unquoteB (bs "%41%4%%zz%c3%a9+") = bs "A%4%%zz" ++ [195, 169, 43] := by decide

theorem sanity_scheme_lowercased :
    urlsplitB (bs "HTTP://H/P?A=1") =
      some ⟨bs "http", bs "H", bs "/P", bs "A=1", bs ""⟩ := by decide

theorem sanity_sanitize :
    urlsplitB (bs "a" ++ [1] ++ bs "b" ++ [9] ++ bs "c?x") =
      some ⟨bs "", bs "", bs "a" ++ [1] ++ bs "bc", bs "x", bs ""⟩ := by decide

theorem sanity_invalid_ipv6 : urlsplitB (bs "http://[::1") = none := by decide

theorem sanity_build_basic :
    build_utm_url (bs "http://h/p?a=1&a=2") (bs "s") (bs "") (bs "") (bs "") =
      some (bs "http://h/p?a=2&utm_source=s") := by decide

/-!
## The remote side: `src/tabs/bitly_stats.py` and `src/tabs/utm_bitly.py`

Each `requests` call is modelled by an oracle producing
`Except Bytes R`: `.error e` is a transport-level exception raised by
`requests` (with message `e`), `.ok resp` an HTTP response with its
status code, raw body text, and the JSON fields the code reads.
`Except Bytes` in a result type likewise models an uncaught Python
exception propagating out of the function.
-/

/-- Python `str.replace("https://", "")`: remove every occurrence,
scanning left to right.  `https://` is bytes 104 116 116 112 115 58 47 47. -/
def replaceAllHttps : Bytes → Bytes
  | 104 :: 116 :: 116 :: 112 :: 115 :: 58 :: 47 :: 47 :: rest => replaceAllHttps rest
  | b :: r => b :: replaceAllHttps r
  | [] => []

/-- Decimal digits of a status code, for interpolated error messages. -/
def natToDec (n : Nat) : Bytes := (Nat.toDigits 10 n).map Char.toNat

/-- Response to the `GET /v4/groups` call in `get_group_guid`. -/
structure GroupsResp where
  status : Nat
  text : Bytes
  groups : List Bytes
deriving Repr, DecidableEq

/-- `get_group_guid` from `src/tabs/bitly_stats.py`: a transport
exception is uncaught; a non-success status or an empty group list is
reported (via `st.error`) and yields `None`; otherwise the first
group's guid. -/
def get_group_guid (r : Except Bytes GroupsResp) : Except Bytes (Option Bytes) :=
  match r with
  | .error e => .error e
  | .ok resp =>
    if resp.status ≠ 200 then .ok none
    else match resp.groups with
      | [] => .ok none
      | g :: _ => .ok (some g)

/-- One element of the `links` array of a listing page.  The code reads
`item.get("link")`, `item.get("long_url", "")` and `item.get("title")`;
`link` is modelled as present (the records the claims quantify over are
link records, which always carry it). -/
structure LinkRec where
  link : Bytes
  long_url : Bytes
  title : Option Bytes
deriving Repr, DecidableEq

/-- Response to one paginated `GET .../bitlinks?size=50&page=n` call. -/
structure PageResp where
  status : Nat
  text : Bytes
  links : List LinkRec
deriving Repr, DecidableEq

/-- The fixed page size of `get_all_bitlinks` (`size = 50`). -/
def pageSize : Nat := 50

/-- The `while True` pagination loop of `get_all_bitlinks`, with fuel:
`none` means the loop has not terminated within `fuel` iterations.  The
oracle `fetch` maps a page number to the outcome of the request (the
`created_after` bound only alters the request URL, hence is part of the
oracle).  A transport exception is uncaught; a non-success status
discards everything and returns `[]`; a page shorter than `pageSize`
ends the loop after its items are appended. -/
def bitlinksLoop (fetch : Nat → Except Bytes PageResp) :
    Nat → Nat → List LinkRec → Option (Except Bytes (List LinkRec))
  | 0, _, _ => none
  | fuel + 1, page, acc =>
    match fetch page with
    | .error e => some (.error e)
    | .ok resp =>
      if resp.status ≠ 200 then some (.ok [])
      else if resp.links.length < pageSize then some (.ok (acc ++ resp.links))
      else bitlinksLoop fetch fuel (page + 1) (acc ++ resp.links)

/-- `get_all_bitlinks`: the loop starts at page 1 with no accumulated
records. -/
def get_all_bitlinks (fetch : Nat → Except Bytes PageResp) (fuel : Nat) :
    Option (Except Bytes (List LinkRec)) :=
  bitlinksLoop fetch fuel 1 []

/-- Response to the `GET .../clicks/summary` call. -/
structure ClicksResp where
  status : Nat
  text : Bytes
  total_clicks : Option Nat
deriving Repr, DecidableEq

/-- `get_clicks`: a transport exception is uncaught; a non-success
status degrades to 0; otherwise `resp.json().get("total_clicks", 0)`. -/
def get_clicks (r : Except Bytes ClicksResp) : Except Bytes Nat :=
  match r with
  | .error e => .error e
  | .ok resp =>
    if resp.status ≠ 200 then .ok 0
    else .ok (resp.total_clicks.getD 0)

/-- The three tracking parameters `parse_utm_params` extracts. -/
structure UtmTriple where
  source : Bytes
  medium : Bytes
  campaign : Bytes
deriving Repr, DecidableEq

/-- `parse_qs(query).get(k, [""])[0]`: the first value decoded for key
`k`, or the empty string.  (`parse_qs` groups `parse_qsl` pairs by key,
preserving value order, so index 0 is the first occurrence.) -/
def firstVal (k : Bytes) (l : List QPair) : Bytes :=
  match l.find? (fun p => decide (p.1 = k)) with
  | some p => p.2
  | none => []

/-- `parse_utm_params` from `src/tabs/bitly_stats.py`; `parse_qs` is
called without `keep_blank_values`. -/
def parse_utm_params (long_url : Bytes) : Option UtmTriple :=
  match urlparseB long_url with
  | none => none
  | some p =>
    let q := parseQsl false p.query
    some ⟨firstVal (bs "utm_source") q, firstVal (bs "utm_medium") q,
      firstVal (bs "utm_campaign") q⟩

/-- Python's substring test `pat in l`. -/
def containsSub (pat : Bytes) : Bytes → Bool
  | [] => pat.isEmpty
  | b :: r => decide ((b :: r).take pat.length = pat) || containsSub pat r

/-- One pre-fetch filter of the stats `render` loop: it rejects when the
filter text is non-empty and `"<param>=<text>"` is not a literal
substring of the record's long URL. -/
def failsFilter (key pf lu : Bytes) : Bool :=
  !pf.isEmpty && !containsSub (key ++ pf) lu

/-- The conjunction of the three pre-fetch filters (the code `continue`s
on the first failing one; the record survives iff none fails). -/
def passesPrefilters (pfS pfM pfC lu : Bytes) : Bool :=
  !failsFilter (bs "utm_source=") pfS lu &&
  !failsFilter (bs "utm_medium=") pfM lu &&
  !failsFilter (bs "utm_campaign=") pfC lu

/-- One row of the stats report. -/
structure StatRow where
  title : Bytes
  bitlink : Bytes
  utm_url : Bytes
  source : Bytes
  medium : Bytes
  campaign : Bytes
  clicks : Nat
deriving Repr, DecidableEq

/-- `item.get("title") or "Untitled"`. -/
def rowTitle (t : Option Bytes) : Bytes :=
  match t with
  | some x => if x.isEmpty then bs "Untitled" else x
  | none => bs "Untitled"

/-- The row-building loop of `render` in `src/tabs/bitly_stats.py`:
filter first, then parse the tracking parameters, then fetch clicks
(one oracle call per surviving record, keyed by the bitlink id with the
`https://` prefix removed).  An uncaught exception — `urlparse` raising
on the long URL, or a transport failure in the clicks call — aborts the
whole loop. -/
def buildRows (clicksOf : Bytes → Except Bytes ClicksResp) (pfS pfM pfC : Bytes) :
    List LinkRec → Except Bytes (List StatRow)
  | [] => .ok []
  | item :: rest =>
    if passesPrefilters pfS pfM pfC item.long_url then
      match parse_utm_params item.long_url with
      | none => .error (bs "ValueError: Invalid IPv6 URL")
      | some utm =>
        match get_clicks (clicksOf (replaceAllHttps item.link)) with
        | .error e => .error e
        | .ok clicks =>
          match buildRows clicksOf pfS pfM pfC rest with
          | .error e => .error e
          | .ok rows =>
            .ok (⟨rowTitle item.title, item.link, item.long_url, utm.source,
              utm.medium, utm.campaign, clicks⟩ :: rows)
    else buildRows clicksOf pfS pfM pfC rest

/-- Lexicographic order on byte strings: Python `str` comparison (UTF-8
byte order coincides with code-point order). -/
def bytesLt : Bytes → Bytes → Bool
  | [], [] => false
  | [], _ :: _ => true
  | _ :: _, [] => false
  | a :: as, b :: bs2 =>
    if a < b then true else if b < a then false else bytesLt as bs2

/-- The comparator realised by
`df.sort_values(["utm_source","utm_medium","utm_campaign","Clicks"],
ascending=[True,True,True,False])`: ascending lexicographic on the
three UTM columns, then descending on clicks. -/
def rowLE (a b : StatRow) : Bool :=
  if a.source ≠ b.source then bytesLt a.source b.source
  else if a.medium ≠ b.medium then bytesLt a.medium b.medium
  else if a.campaign ≠ b.campaign then bytesLt a.campaign b.campaign
  else decide (b.clicks ≤ a.clicks)

/-- The sort applied to the report.  For a multi-column `by`, pandas
`sort_values` uses a lexsort, which is a stable sort by `rowLE`; any
stable sort by the same total preorder produces the same list, so
`mergeSort` realises it exactly. -/
def sortReport (l : List StatRow) : List StatRow := l.mergeSort rowLE

/-- Response to the `POST /v4/shorten` call. -/
structure ShortenResp where
  status : Nat
  text : Bytes
  link : Option Bytes
deriving Repr, DecidableEq

/-- `shorten_with_bitly` from `src/tabs/utm_bitly.py`: transport
exceptions are caught and returned as the error component; a status
outside 200/201 yields a formatted error; otherwise
`(data.get("link"), None)`. -/
def shorten_with_bitly (r : Except Bytes ShortenResp) : Option Bytes × Option Bytes :=
  match r with
  | .error e => (none, some e)
  | .ok resp =>
    if resp.status ≠ 200 ∧ resp.status ≠ 201 then
      (none, some (bs "Bitly error " ++ natToDec resp.status ++ bs ": " ++ resp.text))
    else (resp.link, none)

/-- Response to the `PATCH /v4/bitlinks/id` call. -/
structure TitleResp where
  status : Nat
  text : Bytes
deriving Repr, DecidableEq

/-- `update_bitly_title`: transport exceptions are caught and formatted;
a status outside 200/201 yields a formatted error; success yields
`None`. -/
def update_bitly_title (r : Except Bytes TitleResp) : Option Bytes :=
  match r with
  | .error e => some (bs "Exception while setting title: " ++ e)
  | .ok resp =>
    if resp.status ≠ 200 ∧ resp.status ≠ 201 then
      some (bs "Title update error " ++ natToDec resp.status ++ bs ": " ++ resp.text)
    else none

/-- One row of the batch result table in the `render` of
`src/tabs/utm_bitly.py`. -/
structure BatchRow where
  orig : Bytes
  utm : Bytes
  short : Bytes
  error : Bytes
deriving Repr, DecidableEq

/-- Python `err or title_err` where `err` is `None` or a string. -/
def pyOrOpt (a : Option Bytes) (b : Bytes) : Bytes :=
  match a with
  | some x => if x.isEmpty then b else x
  | none => b

/-- The UTF-8 bytes of the `" — "` (space, em dash, space) separator in
`final_title`. -/
def emDashSep : Bytes := [32, 226, 128, 148, 32]

/-- Processing of one input URL inside the batch loop of the
`utm_bitly` `render`: build the UTM URL, create the short link, and —
only when a non-empty short URL came back — issue the titling call.
`shortenOf` maps the long URL to the creation outcome (the optional
branded domain only alters the payload, hence is part of the oracle);
`titleOf` maps (bitlink id, title) to the titling outcome; `mkName`
abstracts the `readable_name` computed from the input position and URL
(a display string that no modelled behavior depends on).  `none` models
the `ValueError` escaping from `build_utm_url`, which would abort the
whole batch. -/
def processOne (shortenOf : Bytes → Except Bytes ShortenResp)
    (titleOf : Bytes → Bytes → Except Bytes TitleResp)
    (mkName : Nat → Bytes → Bytes)
    (s m c t : Bytes) (i : Nat) (url : Bytes) : Option BatchRow :=
  match build_utm_url url s m c t with
  | none => none
  | some utm =>
    let sr := shorten_with_bitly (shortenOf utm)
    let title_err :=
      match sr.1 with
      | some su =>
        if su.isEmpty then []
        else
          match update_bitly_title
              (titleOf (replaceAllHttps su) (mkName i url ++ emDashSep ++ c)) with
          | some e => e
          | none => []
      | none => []
    some ⟨url, utm, (sr.1.getD []), pyOrOpt sr.2 title_err⟩

/-- The sequential batch loop over the pasted URLs, starting at index
`i`. -/
def processUrlsFrom (shortenOf : Bytes → Except Bytes ShortenResp)
    (titleOf : Bytes → Bytes → Except Bytes TitleResp)
    (mkName : Nat → Bytes → Bytes) (s m c t : Bytes) :
    Nat → List Bytes → Option (List BatchRow)
  | _, [] => some []
  | i, url :: rest =>
    match processOne shortenOf titleOf mkName s m c t i url with
    | none => none
    | some row =>
      match processUrlsFrom shortenOf titleOf mkName s m c t (i + 1) rest with
      | none => none
      | some rows => some (row :: rows)

/-- The whole batch, from index 0. -/
def processUrls (shortenOf : Bytes → Except Bytes ShortenResp)
    (titleOf : Bytes → Bytes → Except Bytes TitleResp)
    (mkName : Nat → Bytes → Bytes) (s m c t : Bytes)
    (urls : List Bytes) : Option (List BatchRow) :=
  processUrlsFrom shortenOf titleOf mkName s m c t 0 urls

/-!
## Pagination (claims C2 and C10)
-/

/-- A well-behaved remote listing: page `p` serves the `p`-th
consecutive slice of size `pageSize` of a fixed finite record list,
with status 200. -/
def sliceFetch (records : List LinkRec) (page : Nat) : Except Bytes PageResp :=
  .ok ⟨200, [], (records.drop ((page - 1) * pageSize)).take pageSize⟩

theorem bitlinksLoop_sliceFetch (records : List LinkRec) :
    ∀ (fuel page : Nat) (acc : List LinkRec), 1 ≤ page →
    (records.drop ((page - 1) * pageSize)).length + 1 ≤ fuel →
    bitlinksLoop (sliceFetch records) fuel page acc =
      some (.ok (acc ++ records.drop ((page - 1) * pageSize))) := by
  intro fuel
  induction fuel with
  | zero => intro page acc hp h; omega
  | succ n ih =>
    intro page acc hp h
    have hstep : bitlinksLoop (sliceFetch records) (n + 1) page acc =
        (if ((records.drop ((page - 1) * pageSize)).take pageSize).length < pageSize
         then some (.ok (acc ++ (records.drop ((page - 1) * pageSize)).take pageSize))
         else bitlinksLoop (sliceFetch records) n (page + 1)
           (acc ++ (records.drop ((page - 1) * pageSize)).take pageSize)) := by
      simp [bitlinksLoop, sliceFetch]
    rw [hstep, List.length_take]
    by_cases hlen : (records.drop ((page - 1) * pageSize)).length < pageSize
    · rw [if_pos (by omega), List.take_of_length_le (Nat.le_of_lt hlen)]
    · rw [if_neg (by omega)]
      have harith : (page + 1 - 1) * pageSize = (page - 1) * pageSize + pageSize := by
        obtain ⟨p, rfl⟩ : ∃ p, page = p + 1 := ⟨page - 1, by omega⟩
        simp only [Nat.add_sub_cancel]
        ring
      have hdrop : records.drop ((page + 1 - 1) * pageSize) =
          (records.drop ((page - 1) * pageSize)).drop pageSize := by
        rw [List.drop_drop, harith, Nat.add_comm]
      have hlen' : (records.drop ((page + 1 - 1) * pageSize)).length + 1 ≤ n := by
        rw [hdrop]
        have h2 : ((records.drop ((page - 1) * pageSize)).drop pageSize).length
            = (records.drop ((page - 1) * pageSize)).length - pageSize := by
          rw [List.length_drop]
        have hps : pageSize = 50 := rfl
        omega
      rw [ih (page + 1) (acc ++ (records.drop ((page - 1) * pageSize)).take pageSize)
        (by omega) hlen', hdrop]
      rw [List.append_assoc, List.take_append_drop]


/-- C2: for a synthetic paginated listing of `N` records served by
`sliceFetch` in consecutive slices of the fixed page size 50,
`get_all_bitlinks` retrieves exactly the `N` records (for any fuel
large enough to cover the pages), pagination stopping at the first page
that returns fewer than 50 records; the boundary cases `N = 0` and `N`
divisible by 50 are instances of the universal quantification over
`records`. -/
theorem claim_C2_pagination_exact (records : List LinkRec) (fuel : Nat)
    (h : records.length + 1 ≤ fuel) :
    get_all_bitlinks (sliceFetch records) fuel = some (.ok records) := by
  have h0 : (records.drop ((1 - 1) * pageSize)).length + 1 ≤ fuel := by
    simpa using h
  have := bitlinksLoop_sliceFetch records fuel 1 [] (le_refl 1) h0
  simpa [get_all_bitlinks] using this

/-- Concrete records for the C2 witness. -/
def demoRecords : List LinkRec :=
  [⟨bs "https://bit.ly/a", bs "http://e/1", none⟩,
   ⟨bs "https://bit.ly/b", bs "http://e/2", none⟩,
   ⟨bs "https://bit.ly/c", bs "http://e/3", none⟩]

theorem claim_C2_pagination_exact_witness :
    demoRecords.length + 1 ≤ 4 ∧
    get_all_bitlinks (sliceFetch demoRecords) 4 = some (.ok demoRecords) :=
  ⟨by decide, claim_C2_pagination_exact demoRecords 4 (by decide)⟩

/-- Page `p` of the remote listing answers successfully with a full
page (status 200 and at least `pageSize` items). -/
def pageFull (fetch : Nat → Except Bytes PageResp) (p : Nat) : Prop :=
  ∃ resp, fetch p = .ok resp ∧ resp.status = 200 ∧ pageSize ≤ resp.links.length

theorem loop_terminates_of_stop (fetch : Nat → Except Bytes PageResp) :
    ∀ (n page : Nat) (acc : List LinkRec) (p : Nat), page + n = p →
    ¬ pageFull fetch p → (∀ q, page ≤ q → q < p → pageFull fetch q) →
    ∃ r, bitlinksLoop fetch (n + 1) page acc = some r := by
  intro n
  induction n with
  | zero =>
    intro page acc p hp hstop _
    have hpp : p = page := by omega
    subst hpp
    cases hfetch : fetch p with
    | error e => exact ⟨.error e, by simp [bitlinksLoop, hfetch]⟩
    | ok resp =>
      by_cases hs : resp.status = 200
      · by_cases hl : resp.links.length < pageSize
        · exact ⟨.ok (acc ++ resp.links), by simp [bitlinksLoop, hfetch, hs, hl]⟩
        · exact absurd ⟨resp, hfetch, hs, by omega⟩ hstop
      · exact ⟨.ok [], by simp [bitlinksLoop, hfetch, hs]⟩
  | succ k ih =>
    intro page acc p hp hstop hfull
    obtain ⟨resp, hfetch, hs, hl⟩ := hfull page (le_refl _) (by omega)
    have hred : bitlinksLoop fetch (k + 1 + 1) page acc =
        bitlinksLoop fetch (k + 1) (page + 1) (acc ++ resp.links) := by
      simp [bitlinksLoop, hfetch, hs]
      omega
    rw [hred]
    exact ih (page + 1) (acc ++ resp.links) p (by omega) hstop
      (fun q hq hq2 => hfull q (by omega) hq2)

theorem loop_stop_of_terminates (fetch : Nat → Except Bytes PageResp) :
    ∀ (fuel page : Nat) (acc : List LinkRec) (r : Except Bytes (List LinkRec)),
    bitlinksLoop fetch fuel page acc = some r →
    ∃ p, page ≤ p ∧ ¬ pageFull fetch p ∧
      ∀ q, page ≤ q → q < p → pageFull fetch q := by
  intro fuel
  induction fuel with
  | zero => intro page acc r h; simp [bitlinksLoop] at h
  | succ n ih =>
    intro page acc r h
    cases hfetch : fetch page with
    | error e =>
      refine ⟨page, le_refl _, ?_, fun q hq hq2 => absurd hq2 (by omega)⟩
      rintro ⟨resp, hr, -, -⟩
      rw [hfetch] at hr
      cases hr
    | ok resp =>
      by_cases hs : resp.status = 200
      · by_cases hl : resp.links.length < pageSize
        · refine ⟨page, le_refl _, ?_, fun q hq hq2 => absurd hq2 (by omega)⟩
          rintro ⟨resp2, hr, hs2, hl2⟩
          rw [hfetch] at hr
          injection hr with hr2
          subst hr2
          omega
        · have hred : bitlinksLoop fetch (n + 1) page acc =
              bitlinksLoop fetch n (page + 1) (acc ++ resp.links) := by
            simp [bitlinksLoop, hfetch, hs]
            omega
          rw [hred] at h
          obtain ⟨p, hp1, hp2, hp3⟩ := ih (page + 1) (acc ++ resp.links) r h
          refine ⟨p, by omega, hp2, ?_⟩
          intro q hq hq2
          by_cases hqq : q = page
          · subst hqq
            exact ⟨resp, hfetch, hs, by omega⟩
          · exact hp3 q (by omega) hq2
      · refine ⟨page, le_refl _, ?_, fun q hq hq2 => absurd hq2 (by omega)⟩
        rintro ⟨resp2, hr, hs2, -⟩
        rw [hfetch] at hr
        injection hr with hr2
        subst hr2
        exact hs hs2

/-- A service that answers every page with a full successful page of 50
items. -/
def alwaysFull : Nat → Except Bytes PageResp :=
  fun _ => .ok ⟨200, [], List.replicate pageSize ⟨[], [], none⟩⟩

theorem alwaysFull_loop_none : ∀ (fuel page : Nat) (acc : List LinkRec),
    bitlinksLoop alwaysFull fuel page acc = none := by
  intro fuel
  induction fuel with
  | zero => intro page acc; rfl
  | succ n ih => intro page acc; simp [bitlinksLoop, alwaysFull, ih]

/-- C10: the pagination loop terminates (for some fuel) precisely when
some page's request fails its status check or returns fewer than 50
items, every earlier page being a full successful page; under the
consecutive-slice precondition it terminates returning the
concatenation of all pages, i.e. exactly the served records; and a
service answering full 50-item pages forever makes the loop run
without bound (no fuel suffices). -/
theorem claim_C10_loop_termination :
    (∀ fetch : Nat → Except Bytes PageResp,
      (∃ fuel r, get_all_bitlinks fetch fuel = some r) ↔
      (∃ p, 1 ≤ p ∧ ¬ pageFull fetch p ∧ ∀ q, 1 ≤ q → q < p → pageFull fetch q)) ∧
    (∀ (records : List LinkRec) (fuel : Nat), records.length + 1 ≤ fuel →
      get_all_bitlinks (sliceFetch records) fuel = some (.ok records)) ∧
    (∀ fuel, get_all_bitlinks alwaysFull fuel = none) := by
  refine ⟨?_, ?_, ?_⟩
  · intro fetch
    constructor
    · rintro ⟨fuel, r, h⟩
      exact loop_stop_of_terminates fetch fuel 1 [] r h
    · rintro ⟨p, hp1, hp2, hp3⟩
      obtain ⟨r, hr⟩ := loop_terminates_of_stop fetch (p - 1) 1 [] p (by omega) hp2
        (fun q hq hq2 => hp3 q hq hq2)
      exact ⟨p - 1 + 1, r, hr⟩
  · intro records fuel h
    have h0 : (records.drop ((1 - 1) * pageSize)).length + 1 ≤ fuel := by
      simpa using h
    have := bitlinksLoop_sliceFetch records fuel 1 [] (le_refl 1) h0
    simpa [get_all_bitlinks] using this
  · intro fuel
    exact alwaysFull_loop_none fuel 1 []

theorem claim_C10_loop_termination_witness :
    get_all_bitlinks (sliceFetch ([] : List LinkRec)) 1 = some (.ok []) ∧
    get_all_bitlinks alwaysFull 7 = none :=
  ⟨claim_C10_loop_termination.2.1 [] 1 (by decide),
   claim_C10_loop_termination.2.2 7⟩

/-!
## Enrichment degradation (claim C5)
-/

theorem get_clicks_of_resp (resp : ClicksResp) :
    get_clicks (.ok resp) =
      .ok (if resp.status = 200 then resp.total_clicks.getD 0 else 0) := by
  by_cases h : resp.status = 200 <;> simp [get_clicks, h]

/-- What the row loop produces for one record when no exception occurs:
`none` if the record is filtered out, otherwise its report row. -/
def mkRowOpt (clicksOf : Bytes → Except Bytes ClicksResp) (pfS pfM pfC : Bytes)
    (item : LinkRec) : Option StatRow :=
  if passesPrefilters pfS pfM pfC item.long_url then
    match parse_utm_params item.long_url,
        get_clicks (clicksOf (replaceAllHttps item.link)) with
    | some utm, .ok clicks =>
      some ⟨rowTitle item.title, item.link, item.long_url, utm.source,
        utm.medium, utm.campaign, clicks⟩
    | _, _ => none
  else none

/-- The per-record well-formedness needed for the loop not to hit an
uncaught exception: surviving records have a parseable long URL and
their clicks request returns an HTTP response (of any status). -/
def rowsWellFormed (clicksOf : Bytes → Except Bytes ClicksResp)
    (pfS pfM pfC : Bytes) (links : List LinkRec) : Prop :=
  ∀ item ∈ links, passesPrefilters pfS pfM pfC item.long_url →
    (parse_utm_params item.long_url).isSome = true ∧
    ∃ resp, clicksOf (replaceAllHttps item.link) = .ok resp

instance {ε α : Type} [DecidableEq ε] [DecidableEq α] : DecidableEq (Except ε α) :=
  fun a b =>
    match a, b with
    | .error e, .error f => decidable_of_iff (e = f) (by simp)
    | .ok x, .ok y => decidable_of_iff (x = y) (by simp)
    | .error _, .ok _ => .isFalse (by simp)
    | .ok _, .error _ => .isFalse (by simp)

instance (clicksOf : Bytes → Except Bytes ClicksResp) (pfS pfM pfC : Bytes)
    (links : List LinkRec) :
    Decidable (rowsWellFormed clicksOf pfS pfM pfC links) := by
  unfold rowsWellFormed
  have : ∀ item : LinkRec,
      Decidable (∃ resp, clicksOf (replaceAllHttps item.link) = .ok resp) := by
    intro item
    cases h : clicksOf (replaceAllHttps item.link) with
    | error e => exact .isFalse (by rintro ⟨r, hr⟩; simp at hr)
    | ok resp => exact .isTrue ⟨resp, rfl⟩
  exact List.decidableBAll _ _

theorem buildRows_ok (clicksOf : Bytes → Except Bytes ClicksResp)
    (pfS pfM pfC : Bytes) :
    ∀ links : List LinkRec, rowsWellFormed clicksOf pfS pfM pfC links →
    buildRows clicksOf pfS pfM pfC links =
      .ok (links.filterMap (mkRowOpt clicksOf pfS pfM pfC)) := by
  intro links
  induction links with
  | nil => intro _; rfl
  | cons item rest ih =>
    intro h
    have hrest := ih (fun it hmem hp => h it (List.mem_cons_of_mem _ hmem) hp)
    by_cases hpass : passesPrefilters pfS pfM pfC item.long_url
    · obtain ⟨hparse, resp, hresp⟩ := h item (List.mem_cons_self _ _) hpass
      obtain ⟨utm, hutm⟩ := Option.isSome_iff_exists.mp hparse
      simp only [buildRows, mkRowOpt, hpass, if_pos, hutm, hresp,
        get_clicks_of_resp, List.filterMap_cons, hrest]
    · simp only [buildRows, mkRowOpt, hpass, if_neg, List.filterMap_cons, hrest]
      simp [hpass]

theorem mkRowOpt_count (clicksOf : Bytes → Except Bytes ClicksResp)
    (pfS pfM pfC : Bytes) :
    ∀ links : List LinkRec, rowsWellFormed clicksOf pfS pfM pfC links →
    (links.filterMap (mkRowOpt clicksOf pfS pfM pfC)).length =
      (links.filter (fun it => passesPrefilters pfS pfM pfC it.long_url)).length := by
  intro links
  induction links with
  | nil => intro _; rfl
  | cons item rest ih =>
    intro h
    have hrest := ih (fun it hmem hp => h it (List.mem_cons_of_mem _ hmem) hp)
    by_cases hpass : passesPrefilters pfS pfM pfC item.long_url
    · obtain ⟨hparse, resp, hresp⟩ := h item (List.mem_cons_self _ _) hpass
      obtain ⟨utm, hutm⟩ := Option.isSome_iff_exists.mp hparse
      simp [List.filterMap_cons, List.filter_cons, mkRowOpt, hpass, hutm, hresp,
        get_clicks_of_resp, hrest]
    · simp [List.filterMap_cons, List.filter_cons, mkRowOpt, hpass, hrest]

/-- Claim C5, amended: when the usage-count request of one surviving
record comes back with a non-success status (and every record's remote
call returns some HTTP response, i.e. no transport exception), the
pipeline completes: that record keeps a row in the report with a click
count of 0, and the report still contains one row per surviving
record.  A transport exception in the usage-count fetch is not covered:
`requests.get` in `get_clicks` runs outside any `try`, so it aborts the
whole loop (see the counterexample). -/
theorem claim_C5_click_failure_degrades
    (clicksOf : Bytes → Except Bytes ClicksResp) (pfS pfM pfC : Bytes)
    (links : List LinkRec) (item : LinkRec) (resp : ClicksResp)
    (hwf : rowsWellFormed clicksOf pfS pfM pfC links)
    (hmem : item ∈ links)
    (hpass : passesPrefilters pfS pfM pfC item.long_url = true)
    (hfail : clicksOf (replaceAllHttps item.link) = .ok resp)
    (hstatus : resp.status ≠ 200) :
    ∃ rows utm, buildRows clicksOf pfS pfM pfC links = .ok rows ∧
      parse_utm_params item.long_url = some utm ∧
      (⟨rowTitle item.title, item.link, item.long_url, utm.source, utm.medium,
        utm.campaign, 0⟩ : StatRow) ∈ rows ∧
      rows.length =
        (links.filter (fun it => passesPrefilters pfS pfM pfC it.long_url)).length := by
  obtain ⟨hparse, -⟩ := hwf item hmem hpass
  obtain ⟨utm, hutm⟩ := Option.isSome_iff_exists.mp hparse
  refine ⟨links.filterMap (mkRowOpt clicksOf pfS pfM pfC), utm,
    buildRows_ok clicksOf pfS pfM pfC links hwf, hutm, ?_, ?_⟩
  · refine List.mem_filterMap.mpr ⟨item, hmem, ?_⟩
    simp [mkRowOpt, hpass, hutm, hfail, get_clicks_of_resp, hstatus]
  · exact mkRowOpt_count clicksOf pfS pfM pfC links hwf

/-- The clicks oracle for the C5 witness: one bitlink id gets a 404,
the others succeed with 7 clicks. -/
def demoClicksOf : Bytes → Except Bytes ClicksResp :=
  fun id2 =>
    if id2 = bs "bit.ly/b" then .ok ⟨404, bs "NOT_FOUND", none⟩
    else .ok ⟨200, [], some 7⟩

/-- Concrete links for the C5 witness. -/
def demoLinks : List LinkRec :=
  [⟨bs "https://bit.ly/a", bs "http://e/p?utm_source=s1", none⟩,
   ⟨bs "https://bit.ly/b", bs "http://e/p?utm_source=s2", none⟩,
   ⟨bs "https://bit.ly/c", bs "http://e/p?utm_source=s3", none⟩]

theorem claim_C5_click_failure_degrades_witness :
    rowsWellFormed demoClicksOf [] [] [] demoLinks ∧
    (⟨bs "https://bit.ly/b", bs "http://e/p?utm_source=s2", none⟩ : LinkRec) ∈ demoLinks ∧
    passesPrefilters [] [] [] (bs "http://e/p?utm_source=s2") = true ∧
    demoClicksOf (replaceAllHttps (bs "https://bit.ly/b")) = .ok ⟨404, bs "NOT_FOUND", none⟩ ∧
    (404 ≠ 200) ∧
    (∃ rows utm, buildRows demoClicksOf [] [] [] demoLinks = .ok rows ∧
      parse_utm_params (bs "http://e/p?utm_source=s2") = some utm ∧
      (⟨rowTitle none, bs "https://bit.ly/b", bs "http://e/p?utm_source=s2", utm.source,
        utm.medium, utm.campaign, 0⟩ : StatRow) ∈ rows ∧
      rows.length =
        (demoLinks.filter (fun it => passesPrefilters [] [] [] it.long_url)).length) :=
  ⟨by decide, by decide, by decide, by decide, by decide,
   claim_C5_click_failure_degrades demoClicksOf [] [] [] demoLinks
     ⟨bs "https://bit.ly/b", bs "http://e/p?utm_source=s2", none⟩
     ⟨404, bs "NOT_FOUND", none⟩ (by decide) (by decide) (by decide) (by decide)
     (by decide)⟩

/-- The clicks oracle of the C5 counterexample: the first bitlink's
request raises a transport exception, the others succeed. -/
def demoClicksFail : Bytes → Except Bytes ClicksResp :=
  fun id2 =>
    if id2 = bs "bit.ly/a" then .error (bs "ConnectionError")
    else .ok ⟨200, [], some 7⟩

/-- Counterexample to claim C5 as stated: the claim covers a fetch that
"fails or returns a non-success status", but `get_clicks` has no
`try`/`except` around its request, so a transport failure propagates
(`.error`) instead of degrading to a 0-click row: the loop over three
surviving records aborts with no report at all — the failing record
keeps no row and the remaining records are never processed. -/
theorem claim_C5_counterexample :
    passesPrefilters [] [] [] (bs "http://e/p?utm_source=s1") = true ∧
    get_clicks (demoClicksFail (replaceAllHttps (bs "https://bit.ly/a")))
      = Except.error (bs "ConnectionError") ∧
    buildRows demoClicksFail [] [] [] demoLinks
      = Except.error (bs "ConnectionError") := by decide

/-!
## Pre-enrichment filters (claim C8)
-/

theorem containsSub_iff (pat : Bytes) : ∀ l : Bytes, containsSub pat l = true ↔ pat <:+: l := by
  intro l
  induction l with
  | nil => simp [containsSub, List.isEmpty_iff]
  | cons b r ih =>
    simp only [containsSub, Bool.or_eq_true, decide_eq_true_eq, ih]
    rw [List.infix_cons_iff]
    constructor
    · rintro (h | h)
      · exact Or.inl (List.prefix_iff_eq_take.mpr h.symm)
      · exact Or.inr h
    · rintro (h | h)
      · exact Or.inl (List.prefix_iff_eq_take.mp h).symm
      · exact Or.inr h

theorem infix_of_append_left {a b l : Bytes} (h : (a ++ b) <:+: l) : a <:+: l :=
  (List.prefix_append a b).isInfix.trans h

/-- C8: a record passes the filter stage exactly when, for each active
(non-empty) filter text, the literal byte string `"<param>=<text>"`
occurs inside its target URL; a record whose URL lacks `"utm_source="`
entirely fails every non-empty source filter; and the concrete
instances: a URL containing `"utm_source=foo"` passes source filter
`"foo"` and fails source filter `"bar"`. -/
theorem claim_C8_prefilter_literal_substring :
    (∀ lu pfS pfM pfC : Bytes,
      passesPrefilters pfS pfM pfC lu = true ↔
        ((pfS = [] ∨ (bs "utm_source=" ++ pfS) <:+: lu) ∧
         (pfM = [] ∨ (bs "utm_medium=" ++ pfM) <:+: lu) ∧
         (pfC = [] ∨ (bs "utm_campaign=" ++ pfC) <:+: lu))) ∧
    (∀ lu pf : Bytes, pf ≠ [] → ¬ (bs "utm_source=") <:+: lu →
      passesPrefilters pf [] [] lu = false) ∧
    passesPrefilters (bs "foo") [] [] (bs "http://e/?utm_source=foo") = true ∧
    passesPrefilters (bs "bar") [] [] (bs "http://e/?utm_source=foo") = false := by
  have hnf : ∀ key pf lu : Bytes,
      (failsFilter key pf lu = false ↔ (pf = [] ∨ (key ++ pf) <:+: lu)) := by
    intro key pf lu
    rw [failsFilter]
    rcases pf with _ | ⟨c, cs⟩
    · simp
    · simp [containsSub_iff]
  refine ⟨?_, ?_, by decide, by decide⟩
  · intro lu pfS pfM pfC
    have hp : ∀ a b c2 : Bool,
        ((!a && !b && !c2) = true ↔ (a = false ∧ b = false ∧ c2 = false)) := by decide
    rw [passesPrefilters, hp, hnf, hnf, hnf]
  · intro lu pf hpf hno
    have hfail : failsFilter (bs "utm_source=") pf lu = true := by
      have hc : containsSub (bs "utm_source=" ++ pf) lu = false := by
        rw [Bool.eq_false_iff]
        intro hcon
        exact hno (infix_of_append_left ((containsSub_iff _ lu).mp hcon))
      simp [failsFilter, hc, List.isEmpty_iff, hpf]
    simp [passesPrefilters, hfail]

theorem claim_C8_prefilter_literal_substring_witness :
    bs "q" ≠ [] ∧ ¬ (bs "utm_source=") <:+: (bs "http://e/zzz") ∧
    passesPrefilters (bs "q") [] [] (bs "http://e/zzz") = false :=
  ⟨by decide, by decide,
   claim_C8_prefilter_literal_substring.2.1 (bs "http://e/zzz") (bs "q")
     (by decide) (by decide)⟩

/-!
## Batch creation and titling (claim C9)
-/

theorem update_title_err_nonempty (r : Except Bytes TitleResp) (e : Bytes)
    (h : update_bitly_title r = some e) : e ≠ [] := by
  cases r with
  | error msg =>
    simp only [update_bitly_title, Option.some.injEq] at h
    subst h
    exact List.append_ne_nil_of_left_ne_nil (by decide) _
  | ok resp =>
    simp only [update_bitly_title] at h
    split at h
    · simp only [Option.some.injEq] at h
      subst h
      exact List.append_ne_nil_of_left_ne_nil
        (List.append_ne_nil_of_left_ne_nil
          (List.append_ne_nil_of_left_ne_nil (by decide) _) _) _
    · cases h

theorem processUrlsFrom_spec (shortenOf : Bytes → Except Bytes ShortenResp)
    (titleOf : Bytes → Bytes → Except Bytes TitleResp)
    (mkName : Nat → Bytes → Bytes) (s m c t : Bytes) :
    ∀ (urls : List Bytes) (i : Nat) (rows : List BatchRow),
    processUrlsFrom shortenOf titleOf mkName s m c t i urls = some rows →
    rows.length = urls.length ∧
    ∀ j url, urls.get? j = some url → ∃ row, rows.get? j = some row ∧
      processOne shortenOf titleOf mkName s m c t (i + j) url = some row := by
  intro urls
  induction urls with
  | nil =>
    intro i rows h
    simp only [processUrlsFrom, Option.some.injEq] at h
    subst h
    exact ⟨rfl, fun j url hj => by simp at hj⟩
  | cons url rest ih =>
    intro i rows h
    simp only [processUrlsFrom] at h
    cases hone : processOne shortenOf titleOf mkName s m c t i url with
    | none => rw [hone] at h; cases h
    | some row =>
      rw [hone] at h
      cases hrest : processUrlsFrom shortenOf titleOf mkName s m c t (i + 1) rest with
      | none => rw [hrest] at h; cases h
      | some rows' =>
        rw [hrest] at h
        simp only [Option.some.injEq] at h
        subst h
        obtain ⟨hlen, hspec⟩ := ih (i + 1) rows' hrest
        refine ⟨by simp [hlen], ?_⟩
        intro j u hju
        cases j with
        | zero =>
          simp only [List.get?] at hju
          injection hju with hju
          subst hju
          exact ⟨row, rfl, by simpa using hone⟩
        | succ k =>
          simp only [List.get?] at hju
          obtain ⟨row2, hr2, hp2⟩ := hspec k u hju
          refine ⟨row2, hr2, ?_⟩
          have : i + 1 + k = i + (k + 1) := by omega
          rwa [this] at hp2

theorem processUrlsFrom_total (shortenOf : Bytes → Except Bytes ShortenResp)
    (titleOf : Bytes → Bytes → Except Bytes TitleResp)
    (mkName : Nat → Bytes → Bytes) (s m c t : Bytes) :
    ∀ (urls : List Bytes) (i : Nat),
    (∀ url ∈ urls, (build_utm_url url s m c t).isSome = true) →
    (processUrlsFrom shortenOf titleOf mkName s m c t i urls).isSome = true := by
  intro urls
  induction urls with
  | nil => intro i _; rfl
  | cons url rest ih =>
    intro i h
    obtain ⟨utm, hutm⟩ :=
      Option.isSome_iff_exists.mp (h url (List.mem_cons_self _ _))
    have hone : (processOne shortenOf titleOf mkName s m c t i url).isSome = true := by
      simp only [processOne, hutm]
      rfl
    obtain ⟨row, hrow⟩ := Option.isSome_iff_exists.mp hone
    have hrest := ih (i + 1) (fun u hu => h u (List.mem_cons_of_mem _ hu))
    obtain ⟨rows', hrows'⟩ := Option.isSome_iff_exists.mp hrest
    simp [processUrlsFrom, hrow, hrows']

/-- C9: in the batch loop, (a) every completed batch has exactly one
result entry per input URL, each entry computed from its own input
alone (so one input's creation or titling failure cannot affect, let
alone abort, any other entry); (b) the batch completes whenever every
input URL is parseable, irrespective of creation/titling outcomes; and
(c) when creation succeeds with a non-empty short URL but titling
fails, that input's entry carries both the populated short URL and the
non-empty titling error in their own fields. -/
theorem claim_C9_batch_independence (shortenOf : Bytes → Except Bytes ShortenResp)
    (titleOf : Bytes → Bytes → Except Bytes TitleResp)
    (mkName : Nat → Bytes → Bytes) (s m c t : Bytes) :
    (∀ urls rows, processUrls shortenOf titleOf mkName s m c t urls = some rows →
      rows.length = urls.length ∧
      ∀ j url, urls.get? j = some url → ∃ row, rows.get? j = some row ∧
        processOne shortenOf titleOf mkName s m c t j url = some row) ∧
    (∀ urls : List Bytes, (∀ url ∈ urls, (build_utm_url url s m c t).isSome = true) →
      (processUrls shortenOf titleOf mkName s m c t urls).isSome = true) ∧
    (∀ (i : Nat) (url utm su terr : Bytes),
      build_utm_url url s m c t = some utm →
      shorten_with_bitly (shortenOf utm) = (some su, none) →
      su ≠ [] →
      update_bitly_title
        (titleOf (replaceAllHttps su) (mkName i url ++ emDashSep ++ c)) = some terr →
      processOne shortenOf titleOf mkName s m c t i url =
        some ⟨url, utm, su, terr⟩ ∧ terr ≠ []) := by
  refine ⟨?_, ?_, ?_⟩
  · intro urls rows h
    simpa using processUrlsFrom_spec shortenOf titleOf mkName s m c t urls 0 rows h
  · intro urls h
    exact processUrlsFrom_total shortenOf titleOf mkName s m c t urls 0 h
  · intro i url utm su terr hbuild hshort hsu hupd
    have hupd' : update_bitly_title
        (titleOf (replaceAllHttps su) (mkName i url ++ (emDashSep ++ c))) = some terr := by
      rw [← List.append_assoc]
      exact hupd
    constructor
    · simp only [processOne, hbuild, hshort]
      rw [if_neg (by simpa [List.isEmpty_iff] using hsu)]
      simp [hupd', pyOrOpt]
    · exact update_title_err_nonempty _ _ hupd

/-- Oracles and inputs for the C9 witness: creation always succeeds,
titling always fails with a 500. -/
def demoShortenOf : Bytes → Except Bytes ShortenResp :=
  fun _ => .ok ⟨200, [], some (bs "https://bit.ly/abc")⟩

def demoTitleOf : Bytes → Bytes → Except Bytes TitleResp :=
  fun _ _ => .ok ⟨500, bs "boom"⟩

def demoMkName : Nat → Bytes → Bytes := fun _ _ => bs "Name"

def demoUrls : List Bytes :=
  [bs "http://site.com/page1", bs "http://site.com/page2", bs "http://site.com/page3"]

theorem claim_C9_batch_independence_witness :
    (∀ url ∈ demoUrls,
      (build_utm_url url (bs "s") [] (bs "camp") []).isSome = true) ∧
    build_utm_url (bs "http://site.com/page1") (bs "s") [] (bs "camp") [] =
      some (bs "http://site.com/page1?utm_source=s&utm_campaign=camp") ∧
    shorten_with_bitly (demoShortenOf
      (bs "http://site.com/page1?utm_source=s&utm_campaign=camp")) =
      (some (bs "https://bit.ly/abc"), none) ∧
    bs "https://bit.ly/abc" ≠ [] ∧
    update_bitly_title (demoTitleOf (replaceAllHttps (bs "https://bit.ly/abc"))
      (demoMkName 0 (bs "http://site.com/page1") ++ emDashSep ++ bs "camp")) =
      some (bs "Title update error 500: boom") ∧
    (∃ rows, processUrls demoShortenOf demoTitleOf demoMkName
        (bs "s") [] (bs "camp") [] demoUrls = some rows ∧ rows.length = 3) ∧
    processOne demoShortenOf demoTitleOf demoMkName (bs "s") [] (bs "camp") [] 0
        (bs "http://site.com/page1") =
      some ⟨bs "http://site.com/page1",
        bs "http://site.com/page1?utm_source=s&utm_campaign=camp",
        bs "https://bit.ly/abc", bs "Title update error 500: boom"⟩ ∧
    bs "Title update error 500: boom" ≠ [] := by
  have hmain := claim_C9_batch_independence demoShortenOf demoTitleOf demoMkName
    (bs "s") [] (bs "camp") []
  have hbuilds : ∀ url ∈ demoUrls,
      (build_utm_url url (bs "s") [] (bs "camp") []).isSome = true := by decide
  have hsome := hmain.2.1 demoUrls hbuilds
  obtain ⟨rows, hrows⟩ := Option.isSome_iff_exists.mp hsome
  have hlen := (hmain.1 demoUrls rows hrows).1
  have hpart3 := hmain.2.2 0 (bs "http://site.com/page1")
    (bs "http://site.com/page1?utm_source=s&utm_campaign=camp")
    (bs "https://bit.ly/abc") (bs "Title update error 500: boom")
    (by decide) (by decide) (by decide) (by decide)
  exact ⟨hbuilds, by decide, by decide, by decide, by decide,
    ⟨rows, hrows, by rw [hlen]; rfl⟩, hpart3.1, hpart3.2⟩

/-!
## Report ordering (claim C4)
-/

theorem bytesLt_trans : ∀ {a b c : Bytes},
    bytesLt a b = true → bytesLt b c = true → bytesLt a c = true := by
  intro a
  induction a with
  | nil =>
    intro b c hab hbc
    cases b with
    | nil => simp [bytesLt] at hab
    | cons y ys =>
      cases c with
      | nil => simp [bytesLt] at hbc
      | cons z zs => simp [bytesLt]
  | cons x xs ih =>
    intro b c hab hbc
    cases b with
    | nil => simp [bytesLt] at hab
    | cons y ys =>
      cases c with
      | nil => simp [bytesLt] at hbc
      | cons z zs =>
        simp only [bytesLt] at hab hbc ⊢
        by_cases hxy : x < y
        · by_cases hyz : y < z
          · rw [if_pos (by omega)]
          · rw [if_neg (by omega)] at hbc
            by_cases hzy : z < y
            · simp [hzy] at hbc
            · rw [if_pos (by omega)]
        · rw [if_neg hxy] at hab
          by_cases hyx : y < x
          · simp [hyx] at hab
          · rw [if_neg hyx] at hab
            by_cases hyz : y < z
            · rw [if_pos (by omega)]
            · rw [if_neg hyz] at hbc
              by_cases hzy : z < y
              · simp [hzy] at hbc
              · rw [if_neg hzy] at hbc
                rw [if_neg (by omega), if_neg (by omega)]
                exact ih hab hbc

theorem bytesLt_asymm : ∀ {a b : Bytes},
    bytesLt a b = true → bytesLt b a = false := by
  intro a
  induction a with
  | nil =>
    intro b hab
    cases b with
    | nil => simp [bytesLt] at hab
    | cons y ys => simp [bytesLt]
  | cons x xs ih =>
    intro b hab
    cases b with
    | nil => simp [bytesLt] at hab
    | cons y ys =>
      simp only [bytesLt] at hab ⊢
      by_cases hxy : x < y
      · rw [if_neg (by omega), if_pos hxy]
      · rw [if_neg hxy] at hab
        by_cases hyx : y < x
        · simp [hyx] at hab
        · rw [if_neg hyx] at hab
          rw [if_neg hyx, if_neg hxy]
          exact ih hab

theorem bytesLt_connex : ∀ (a b : Bytes), a ≠ b →
    (bytesLt a b || bytesLt b a) = true := by
  intro a
  induction a with
  | nil =>
    intro b hne
    cases b with
    | nil => exact absurd rfl hne
    | cons y ys => simp [bytesLt]
  | cons x xs ih =>
    intro b hne
    cases b with
    | nil => simp [bytesLt]
    | cons y ys =>
      simp only [bytesLt, Bool.or_eq_true]
      by_cases hxy : x < y
      · exact Or.inl (by rw [if_pos hxy])
      · by_cases hyx : y < x
        · exact Or.inr (by rw [if_pos hyx])
        · have hx : x = y := by omega
          subst hx
          have hys : xs ≠ ys := fun h => hne (by rw [h])
          rcases Bool.or_eq_true _ _ |>.mp (ih ys hys) with h | h
          · exact Or.inl (by rw [if_neg hxy, if_neg hxy]; exact h)
          · exact Or.inr (by rw [if_neg hxy, if_neg hxy]; exact h)

/-- One lexicographic stage: compare by the projection `f`, tie-break
with `g`. -/
def lexByte (f : StatRow → Bytes) (g : StatRow → StatRow → Bool)
    (a b : StatRow) : Bool :=
  if f a ≠ f b then bytesLt (f a) (f b) else g a b

theorem lexByte_trans (f : StatRow → Bytes) (g : StatRow → StatRow → Bool)
    (hg : ∀ x y z, g x y = true → g y z = true → g x z = true) :
    ∀ x y z, lexByte f g x y = true → lexByte f g y z = true →
      lexByte f g x z = true := by
  intro x y z hxy hyz
  unfold lexByte at *
  by_cases c1 : f x = f y
  · rw [if_neg (not_not.mpr c1)] at hxy
    by_cases c2 : f y = f z
    · rw [if_neg (not_not.mpr c2)] at hyz
      rw [if_neg (not_not.mpr (c1.trans c2))]
      exact hg x y z hxy hyz
    · rw [if_pos c2] at hyz
      have c3 : f x ≠ f z := fun h => c2 (c1 ▸ h)
      rw [if_pos c3, c1]
      exact hyz
  · rw [if_pos c1] at hxy
    by_cases c2 : f y = f z
    · rw [if_neg (not_not.mpr c2)] at hyz
      have c3 : f x ≠ f z := fun h => c1 (h.trans c2.symm)
      rw [if_pos c3, ← c2]
      exact hxy
    · rw [if_pos c2] at hyz
      by_cases c3 : f x = f z
      · exfalso
        rw [← c3] at hyz
        have hasym := bytesLt_asymm hxy
        rw [hyz] at hasym
        exact absurd hasym (by decide)
      · rw [if_pos c3]
        exact bytesLt_trans hxy hyz

theorem lexByte_total (f : StatRow → Bytes) (g : StatRow → StatRow → Bool)
    (hg : ∀ x y, (g x y || g y x) = true) :
    ∀ x y, (lexByte f g x y || lexByte f g y x) = true := by
  intro x y
  unfold lexByte
  by_cases h : f x = f y
  · rw [if_neg (not_not.mpr h), if_neg (not_not.mpr h.symm)]
    exact hg x y
  · rw [if_pos h, if_pos (Ne.symm h)]
    exact bytesLt_connex _ _ h

/-- The clicks tie-break: descending, i.e. `b.clicks ≤ a.clicks`. -/
def clicksGE (a b : StatRow) : Bool := decide (b.clicks ≤ a.clicks)

theorem rowLE_eq_lex : rowLE =
    lexByte (fun r => r.source)
      (lexByte (fun r => r.medium) (lexByte (fun r => r.campaign) clicksGE)) := by
  funext a b
  simp [rowLE, lexByte, clicksGE]

theorem rowLE_trans : ∀ x y z : StatRow,
    rowLE x y = true → rowLE y z = true → rowLE x z = true := by
  rw [rowLE_eq_lex]
  exact lexByte_trans _ _ (lexByte_trans _ _ (lexByte_trans _ _
    (fun x y z h1 h2 => by
      simp only [clicksGE, decide_eq_true_eq] at h1 h2 ⊢
      omega)))

theorem rowLE_total : ∀ x y : StatRow, (rowLE x y || rowLE y x) = true := by
  rw [rowLE_eq_lex]
  exact lexByte_total _ _ (lexByte_total _ _ (lexByte_total _ _
    (fun x y => by
      simp only [clicksGE, Bool.or_eq_true, decide_eq_true_eq]
      omega)))

/-- Stability of `sortReport` in filter form: rows agreeing on every
sort key (the three UTM columns and the click count) keep their
original relative order. -/
theorem sortReport_filter_stable (p : StatRow → Bool)
    (hp : ∀ a b, p a = true → p b = true → rowLE a b = true) :
    ∀ l : List StatRow, (sortReport l).filter p = l.filter p := by
  intro l
  have hpair : (l.filter p).Pairwise (fun a b => rowLE a b = true) :=
    List.pairwise_of_forall_mem_list fun a ha b hb =>
      hp a b (List.of_mem_filter ha) (List.of_mem_filter hb)
  have h1 : List.Sublist (l.filter p) (l.mergeSort rowLE) :=
    List.sublist_mergeSort rowLE_trans rowLE_total hpair (List.filter_sublist l)
  have h2 : List.Sublist ((l.filter p).filter p) ((l.mergeSort rowLE).filter p) := h1.filter p
  rw [List.filter_filter] at h2
  simp only [Bool.and_self] at h2
  have h3 : List.Perm ((l.mergeSort rowLE).filter p) (l.filter p) :=
    (List.mergeSort_perm l rowLE).filter p
  unfold sortReport
  exact (h2.eq_of_length h3.length_eq.symm).symm

/-- Concrete rows for the C4 ordering instance: UTM triples
`(a,a,a)` with 5 clicks, `(a,a,a)` with 9 clicks, `(a,b,a)` with 1
click. -/
def rowA5 : StatRow := ⟨bs "t", bs "l", bs "u", bs "a", bs "a", bs "a", 5⟩

def rowA9 : StatRow := ⟨bs "t", bs "l", bs "u", bs "a", bs "a", bs "a", 9⟩

def rowB1 : StatRow := ⟨bs "t", bs "l", bs "u", bs "a", bs "b", bs "a", 1⟩

/-- C4: the report sort is a permutation of its input, sorted by the
comparator "ascending lexicographically on (utm_source, utm_medium,
utm_campaign), then descending on clicks", it is stable (rows equal on
all four sort keys keep their input order), and on the rows
(a,a,a,5), (a,a,a,9), (a,b,a,1) it produces
[(a,a,a,9), (a,a,a,5), (a,b,a,1)]. -/
theorem claim_C4_report_sort :
    (∀ l : List StatRow, List.Perm (sortReport l) l) ∧
    (∀ l : List StatRow, (sortReport l).Pairwise (fun a b => rowLE a b = true)) ∧
    (∀ (l : List StatRow) (k : Bytes × Bytes × Bytes × Nat),
      (sortReport l).filter
          (fun r => decide ((r.source, r.medium, r.campaign, r.clicks) = k)) =
        l.filter
          (fun r => decide ((r.source, r.medium, r.campaign, r.clicks) = k))) ∧
    sortReport [rowA5, rowA9, rowB1] = [rowA9, rowA5, rowB1] := by
  refine ⟨?_, ?_, ?_, ?_⟩
  · intro l
    exact List.mergeSort_perm l rowLE
  · intro l
    exact List.sorted_mergeSort rowLE_trans rowLE_total l
  · intro l k
    obtain ⟨s0, m0, c0, n0⟩ := k
    refine sortReport_filter_stable _ ?_ l
    intro a b ha hb
    simp only [decide_eq_true_eq, Prod.mk.injEq] at ha hb
    obtain ⟨has, ham, hac, han⟩ := ha
    obtain ⟨hbs, hbm, hbc, hbn⟩ := hb
    rw [rowLE_eq_lex]
    unfold lexByte clicksGE
    rw [if_neg (not_not.mpr (has.trans hbs.symm)),
      if_neg (not_not.mpr (ham.trans hbm.symm)),
      if_neg (not_not.mpr (hac.trans hbc.symm))]
    simp [han, hbn]
  · simp [sortReport, List.mergeSort, List.merge, rowA5, rowA9, rowB1, rowLE]
    decide

/-!
## Splitting-primitive lemmas (towards claims C1, C3, C6, C7)
-/

theorem splitFirst_none_iff {b : Nat} : ∀ {l : Bytes}, splitFirst b l = none ↔ b ∉ l := by
  intro l
  induction l with
  | nil => simp [splitFirst]
  | cons c r ih =>
    simp only [splitFirst]
    by_cases hc : c = b
    · rw [if_pos hc]
      simp [hc]
    · rw [if_neg hc]
      cases hr : splitFirst b r with
      | none =>
        simp only [List.mem_cons]
        constructor
        · intro _ hmem
          rcases hmem with h | h
          · exact hc h.symm
          · exact (ih.mp hr) h
        · intro _; trivial
      | some pr =>
        simp only [List.mem_cons]
        constructor
        · intro h; cases h
        · intro h
          exact absurd hr (by
            intro hcontr
            have : b ∈ r := by
              by_contra hnr
              rw [ih.mpr hnr] at hcontr
              cases hcontr
            exact h (Or.inr this))

theorem splitFirst_append_first {b : Nat} : ∀ {x : Bytes} (y : Bytes), b ∉ x →
    splitFirst b (x ++ b :: y) = some (x, y) := by
  intro x
  induction x with
  | nil => intro y _; simp [splitFirst]
  | cons c r ih =>
    intro y h
    have hcb : c ≠ b := fun hc => h (hc ▸ List.mem_cons_self c r)
    rw [List.cons_append]
    simp only [splitFirst, if_neg hcb, ih y (fun hm => h (List.mem_cons_of_mem _ hm))]

theorem splitFirst_eq_some {b : Nat} : ∀ {l p s : Bytes},
    splitFirst b l = some (p, s) → l = p ++ b :: s ∧ b ∉ p := by
  intro l
  induction l with
  | nil => intro p s h; cases h
  | cons c r ih =>
    intro p s h
    simp only [splitFirst] at h
    by_cases hc : c = b
    · rw [if_pos hc] at h
      injection h with h'
      injection h' with h1 h2
      subst h1
      subst h2
      simp [hc]
    · rw [if_neg hc] at h
      cases hsp : splitFirst b r with
      | none => rw [hsp] at h; cases h
      | some pr =>
        obtain ⟨p', s'⟩ := pr
        rw [hsp] at h
        injection h with h'
        injection h' with h1 h2
        subst h2
        obtain ⟨hr1, hr2⟩ := ih hsp
        subst h1
        refine ⟨by rw [List.cons_append, ← hr1], ?_⟩
        intro hmem
        rcases List.mem_cons.mp hmem with hm | hm
        · exact hc hm.symm
        · exact hr2 hm

theorem splitFirst_append_left {b : Nat} {x p s : Bytes} (y : Bytes)
    (h : splitFirst b x = some (p, s)) :
    splitFirst b (x ++ y) = some (p, s ++ y) := by
  obtain ⟨hx, hp⟩ := splitFirst_eq_some h
  subst hx
  rw [List.append_assoc, List.cons_append]
  exact splitFirst_append_first _ hp

theorem splitFirst_append_of_not_mem {b : Nat} {x : Bytes} (y : Bytes) (h : b ∉ x) :
    splitFirst b (x ++ y) =
      match splitFirst b y with
      | some pq => some (x ++ pq.1, pq.2)
      | none => none := by
  cases hy : splitFirst b y with
  | none =>
    have : b ∉ x ++ y := by
      intro hm
      rcases List.mem_append.mp hm with hm | hm
      · exact h hm
      · exact (splitFirst_none_iff.mp hy) hm
    simp [splitFirst_none_iff.mpr this]
  | some pq =>
    obtain ⟨p, s⟩ := pq
    obtain ⟨hy1, hy2⟩ := splitFirst_eq_some hy
    subst hy1
    have hnx : b ∉ x ++ p := by
      intro hm
      rcases List.mem_append.mp hm with hm | hm
      · exact h hm
      · exact hy2 hm
    have hassoc : x ++ (p ++ b :: s) = (x ++ p) ++ b :: s := by
      rw [List.append_assoc]
    rw [hassoc]
    exact splitFirst_append_first s hnx

theorem splitSep_no_sep {sep : Nat} : ∀ {l : Bytes}, sep ∉ l → splitSep sep l = [l] := by
  intro l
  induction l with
  | nil => intro _; rfl
  | cons c r ih =>
    intro h
    have hc : c ≠ sep := fun hc => h (hc ▸ List.mem_cons_self c r)
    simp only [splitSep, if_neg hc, ih (fun hm => h (List.mem_cons_of_mem _ hm))]

theorem splitSep_append {sep : Nat} : ∀ {x : Bytes} (y : Bytes), sep ∉ x →
    splitSep sep (x ++ sep :: y) = x :: splitSep sep y := by
  intro x
  induction x with
  | nil =>
    intro y _
    simp [splitSep]
  | cons c r ih =>
    intro y h
    have hc : c ≠ sep := fun hc => h (hc ▸ List.mem_cons_self c r)
    rw [List.cons_append]
    simp [splitSep, if_neg hc, ih y (fun hm => h (List.mem_cons_of_mem _ hm))]

theorem splitLast_eq_some {b : Nat} {l x y : Bytes} (h : splitLast b l = some (x, y)) :
    l = x ++ b :: y ∧ b ∉ y := by
  unfold splitLast at h
  cases hr : splitFirst b l.reverse with
  | none => rw [hr] at h; cases h
  | some pq =>
    obtain ⟨p, s⟩ := pq
    rw [hr] at h
    injection h with h'
    injection h' with h1 h2
    obtain ⟨hr1, hr2⟩ := splitFirst_eq_some hr
    subst h1
    subst h2
    constructor
    · have := congrArg List.reverse hr1
      simpa using this
    · simpa using hr2

theorem splitLast_append {b : Nat} {x y : Bytes} (h : b ∉ y) :
    splitLast b (x ++ b :: y) = some (x, y) := by
  unfold splitLast
  have hrev : (x ++ b :: y).reverse = y.reverse ++ b :: x.reverse := by
    simp
  rw [hrev, splitFirst_append_first _ (by simpa using h)]
  simp

/-!
## Percent-encoding round trip
-/

/-- All bytes of a string are bytes (< 256). -/
def validBytes (l : Bytes) : Prop := ∀ b ∈ l, b < 256

instance (l : Bytes) : Decidable (validBytes l) := List.decidableBAll _ l

theorem unquoteB_cons_ne {b : Nat} (hb : b ≠ 37) (r : Bytes) :
    unquoteB (b :: r) = b :: unquoteB r := by
  match r with
  | [] => simp [unquoteB]
  | [x] => simp [unquoteB]
  | x :: y :: rest =>
    rw [unquoteB]
    exact fun h1 h2 rest2 hb37 _ => absurd hb37 hb

theorem hexDigitVal_hexDigitChar : ∀ n, n < 16 → hexDigitVal (hexDigitChar n) = some n := by
  decide

theorem hexDigitChar_range (n : Nat) (h : n < 16) :
    (48 ≤ hexDigitChar n ∧ hexDigitChar n ≤ 57) ∨
    (65 ≤ hexDigitChar n ∧ hexDigitChar n ≤ 70) := by
  unfold hexDigitChar
  split <;> omega

theorem isSafeByte_range {b : Nat} (h : isSafeByte b = true) :
    (48 ≤ b ∧ b ≤ 57) ∨ (65 ≤ b ∧ b ≤ 90) ∨ (97 ≤ b ∧ b ≤ 122) ∨
    b = 95 ∨ b = 46 ∨ b = 45 ∨ b = 126 := by
  simp only [isSafeByte, isAlphaB, isUpperAlpha, isLowerAlpha, isDigitB,
    Bool.or_eq_true, decide_eq_true_eq] at h
  omega

theorem mem_quoteByte {b x : Nat} (hb : b < 256) (hx : x ∈ quoteByte b) :
    isSafeByte x = true ∨ x = 43 ∨ x = 37 ∨
    (48 ≤ x ∧ x ≤ 57) ∨ (65 ≤ x ∧ x ≤ 70) := by
  unfold quoteByte at hx
  split at hx
  · rcases List.mem_singleton.mp hx with rfl
    left
    assumption
  · split at hx
    · rcases List.mem_singleton.mp hx with rfl
      right; left; rfl
    · rcases List.mem_cons.mp hx with rfl | hx2
      · right; right; left; rfl
      · rcases List.mem_cons.mp hx2 with rfl | hx3
        · rcases hexDigitChar_range (b / 16) (by omega) with h | h
          · right; right; right; left; exact h
          · right; right; right; right; exact h
        · rcases List.mem_singleton.mp hx3 with rfl
          rcases hexDigitChar_range (b % 16) (by omega) with h | h
          · right; right; right; left; exact h
          · right; right; right; right; exact h

/-- Bytes that can occur in the output of `quote_plus` on a byte
string: printable ASCII, none of the URL delimiters `# ? / : ; & = [ ]`
and no control bytes. -/
theorem mem_quotePlus {x : Nat} :
    ∀ {t : Bytes}, (∀ b ∈ t, b < 256) → x ∈ quotePlus t →
    isSafeByte x = true ∨ x = 43 ∨ x = 37 ∨
    (48 ≤ x ∧ x ≤ 57) ∨ (65 ≤ x ∧ x ≤ 70) := by
  intro t
  induction t with
  | nil => intro _ hx; cases hx
  | cons b r ih =>
    intro ht hx
    rcases List.mem_append.mp hx with hm | hm
    · exact mem_quoteByte (ht b (List.mem_cons_self _ _)) hm
    · exact ih (fun c hc => ht c (List.mem_cons_of_mem _ hc)) hm

/-- The bytes of `urlencode` output: additionally `=` and `&`. -/
theorem mem_urlencode {x : Nat} :
    ∀ {d : List QPair},
    (∀ p ∈ d, validBytes p.1 ∧ validBytes p.2) → x ∈ urlencodeB d →
    isSafeByte x = true ∨ x = 43 ∨ x = 37 ∨
    (48 ≤ x ∧ x ≤ 57) ∨ (65 ≤ x ∧ x ≤ 70) ∨ x = 61 ∨ x = 38 := by
  intro d
  induction d with
  | nil => intro _ hx; cases hx
  | cons p ps ih =>
    intro hd hx
    have hp := hd p (List.mem_cons_self _ _)
    have henc : x ∈ encodePair p →
        isSafeByte x = true ∨ x = 43 ∨ x = 37 ∨
        (48 ≤ x ∧ x ≤ 57) ∨ (65 ≤ x ∧ x ≤ 70) ∨ x = 61 ∨ x = 38 := by
      intro hm
      unfold encodePair at hm
      rcases List.mem_append.mp hm with hm | hm
      · rcases mem_quotePlus hp.1 hm with hqa | hqb | hqc | hqd | hqe
        · exact Or.inl hqa
        · exact Or.inr (Or.inl hqb)
        · exact Or.inr (Or.inr (Or.inl hqc))
        · exact Or.inr (Or.inr (Or.inr (Or.inl hqd)))
        · exact Or.inr (Or.inr (Or.inr (Or.inr (Or.inl hqe))))
      · rcases List.mem_cons.mp hm with rfl | hm2
        · exact Or.inr (Or.inr (Or.inr (Or.inr (Or.inr (Or.inl rfl)))))
        · rcases mem_quotePlus hp.2 hm2 with hva | hvb | hvc | hvd | hve
          · exact Or.inl hva
          · exact Or.inr (Or.inl hvb)
          · exact Or.inr (Or.inr (Or.inl hvc))
          · exact Or.inr (Or.inr (Or.inr (Or.inl hvd)))
          · exact Or.inr (Or.inr (Or.inr (Or.inr (Or.inl hve))))
    cases ps with
    | nil =>
      rw [show urlencodeB [p] = encodePair p from rfl] at hx
      exact henc hx
    | cons q qs =>
      rw [show urlencodeB (p :: q :: qs) = encodePair p ++ 38 :: urlencodeB (q :: qs)
        from rfl] at hx
      rcases List.mem_append.mp hx with hm | hm
      · exact henc hm
      · rcases List.mem_cons.mp hm with rfl | hm2
        · exact Or.inr (Or.inr (Or.inr (Or.inr (Or.inr (Or.inr rfl)))))
        · exact ih (fun r hr => hd r (List.mem_cons_of_mem _ hr)) hm2

/-- The properties of `urlencode` output the round-trip analysis needs:
no `#`, no tab/CR/LF, no brackets, nothing at or below the space byte. -/
theorem urlencode_good {d : List QPair}
    (hd : ∀ p ∈ d, validBytes p.1 ∧ validBytes p.2) :
    ∀ x ∈ urlencodeB d, 32 < x ∧ x < 127 ∧ x ≠ 35 ∧ x ≠ 9 ∧ x ≠ 13 ∧
      x ≠ 10 ∧ x ≠ 91 ∧ x ≠ 93 ∧ x ≠ 59 := by
  intro x hx
  rcases mem_urlencode hd hx with h | h | h | h | h | h | h
  · rcases isSafeByte_range h with h | h | h | h | h | h | h <;> omega
  all_goals omega

theorem hexDigitChar_ne_43 (n : Nat) : hexDigitChar n ≠ 43 := by
  unfold hexDigitChar
  split <;> omega

theorem hexDigitChar_ne_37 (n : Nat) : hexDigitChar n ≠ 37 := by
  unfold hexDigitChar
  split <;> omega

/-- `unquote(s.replace('+',' '))` is a left inverse of `quote_plus` on
byte strings. -/
theorem decode_quotePlus : ∀ {s : Bytes}, validBytes s →
    pyUnquotePlus (quotePlus s) = s := by
  intro s
  induction s with
  | nil => intro _; rfl
  | cons b r ih =>
    intro hs
    have hb : b < 256 := hs b (List.mem_cons_self _ _)
    have hr : validBytes r := fun x hx => hs x (List.mem_cons_of_mem _ hx)
    unfold pyUnquotePlus at ih ⊢
    rw [show quotePlus (b :: r) = quoteByte b ++ quotePlus r from rfl]
    rw [show plusToSpace (quoteByte b ++ quotePlus r) =
      plusToSpace (quoteByte b) ++ plusToSpace (quotePlus r) from List.map_append _ _ _]
    by_cases hsafe : isSafeByte b = true
    · have h37 : b ≠ 37 := by
        rcases isSafeByte_range hsafe with h | h | h | h | h | h | h <;> omega
      have h43 : b ≠ 43 := by
        rcases isSafeByte_range hsafe with h | h | h | h | h | h | h <;> omega
      rw [show quoteByte b = [b] from by simp [quoteByte, hsafe]]
      rw [show plusToSpace [b] = [b] from by simp [plusToSpace, h43]]
      rw [List.singleton_append, unquoteB_cons_ne h37, ih hr]
    · by_cases h32 : b = 32
      · subst h32
        rw [show quoteByte 32 = [43] from rfl]
        rw [show plusToSpace [43] = [32] from rfl]
        rw [List.singleton_append, unquoteB_cons_ne (by omega), ih hr]
      · rw [show quoteByte b = [37, hexDigitChar (b / 16), hexDigitChar (b % 16)]
          from by simp [quoteByte, hsafe, h32]]
        rw [show plusToSpace [37, hexDigitChar (b / 16), hexDigitChar (b % 16)] =
          [37, hexDigitChar (b / 16), hexDigitChar (b % 16)] from by
            simp [plusToSpace, hexDigitChar_ne_43]]
        rw [show ([37, hexDigitChar (b / 16), hexDigitChar (b % 16)] : Bytes) ++
          plusToSpace (quotePlus r) =
          37 :: hexDigitChar (b / 16) :: hexDigitChar (b % 16) ::
            plusToSpace (quotePlus r) from rfl]
        rw [unquoteB, hexDigitVal_hexDigitChar (b / 16) (by omega),
          hexDigitVal_hexDigitChar (b % 16) (by omega)]
        show ((16 * (b / 16) + b % 16) :: unquoteB (plusToSpace (quotePlus r)) : Bytes)
          = b :: r
        rw [ih hr]
        congr 1
        omega

theorem not_mem_quotePlus_61 {t : Bytes} (ht : validBytes t) : (61 : Nat) ∉ quotePlus t := by
  intro hm
  rcases mem_quotePlus ht hm with h | h | h | h | h
  · rcases isSafeByte_range h with h | h | h | h | h | h | h <;> omega
  all_goals omega

theorem not_mem_quotePlus_38 {t : Bytes} (ht : validBytes t) : (38 : Nat) ∉ quotePlus t := by
  intro hm
  rcases mem_quotePlus ht hm with h | h | h | h | h
  · rcases isSafeByte_range h with h | h | h | h | h | h | h <;> omega
  all_goals omega

theorem encodePair_ne_nil (p : QPair) : encodePair p ≠ [] := by
  unfold encodePair
  intro h
  have := congrArg List.length h
  simp [List.length_append] at this

theorem not_mem_encodePair_38 {p : QPair} (hp : validBytes p.1 ∧ validBytes p.2) :
    (38 : Nat) ∉ encodePair p := by
  unfold encodePair
  intro hm
  rcases List.mem_append.mp hm with hm | hm
  · exact not_mem_quotePlus_38 hp.1 hm
  · rcases List.mem_cons.mp hm with h | h
    · omega
    · exact not_mem_quotePlus_38 hp.2 h

theorem qslField_encodePair {p : QPair} (hp : validBytes p.1 ∧ validBytes p.2) :
    qslField true (encodePair p) = some p := by
  unfold qslField
  rw [if_neg (encodePair_ne_nil p)]
  unfold encodePair
  rw [splitFirst_append_first _ (not_mem_quotePlus_61 hp.1)]
  simp only [Bool.or_true, if_pos]
  rw [decode_quotePlus hp.1, decode_quotePlus hp.2]

/-- `parse_qsl(urlencode(d), keep_blank_values=True)` recovers `d`
exactly, for any list of byte-string pairs. -/
theorem parse_urlencode : ∀ {d : List QPair},
    (∀ p ∈ d, validBytes p.1 ∧ validBytes p.2) →
    parseQsl true (urlencodeB d) = d := by
  intro d
  induction d with
  | nil => intro _; rfl
  | cons p ps ih =>
    intro hd
    have hp := hd p (List.mem_cons_self _ _)
    cases ps with
    | nil =>
      have h1 : urlencodeB [p] = encodePair p := rfl
      have h2 : urlencodeB [p] ≠ [] := by rw [h1]; exact encodePair_ne_nil p
      unfold parseQsl
      rw [if_neg h2, h1, splitSep_no_sep (not_mem_encodePair_38 hp)]
      simp [qslField_encodePair hp]
    | cons q qs =>
      have hqs := ih (fun r hr => hd r (List.mem_cons_of_mem _ hr))
      have h1 : urlencodeB (p :: q :: qs) = encodePair p ++ 38 :: urlencodeB (q :: qs) :=
        rfl
      have h2 : urlencodeB (p :: q :: qs) ≠ [] := by
        rw [h1]
        exact List.append_ne_nil_of_left_ne_nil (encodePair_ne_nil p) _
      have h3 : urlencodeB (q :: qs) ≠ [] := by
        cases qs with
        | nil => exact encodePair_ne_nil q
        | cons w ws =>
          exact List.append_ne_nil_of_left_ne_nil (encodePair_ne_nil q) _
      unfold parseQsl at hqs ⊢
      rw [if_neg h3] at hqs
      rw [if_neg h2, h1, splitSep_append _ (not_mem_encodePair_38 hp)]
      rw [List.filterMap_cons, qslField_encodePair hp, hqs]

/-!
## Python `dict` lemmas
-/

/-- The key list of a decoded query mapping. -/
def keysOf (l : List QPair) : List Bytes := l.map Prod.fst

/-- First-match association lookup (`d[k]` on a mapping with unique
keys). -/
def assocLookup (k : Bytes) : List QPair → Option Bytes
  | [] => none
  | p :: r => if p.1 = k then some p.2 else assocLookup k r

theorem dictInsert_mem {k v : Bytes} : ∀ {d : List QPair} {p : QPair},
    p ∈ dictInsert k v d → p = (k, v) ∨ p ∈ d := by
  intro d
  induction d with
  | nil =>
    intro p hp
    rcases List.mem_singleton.mp hp with rfl
    exact Or.inl rfl
  | cons q r ih =>
    intro p hp
    unfold dictInsert at hp
    split at hp
    · rcases List.mem_cons.mp hp with rfl | hp2
      · exact Or.inl rfl
      · exact Or.inr (List.mem_cons_of_mem _ hp2)
    · rcases List.mem_cons.mp hp with rfl | hp2
      · exact Or.inr (List.mem_cons_self _ _)
      · rcases ih hp2 with h | h
        · exact Or.inl h
        · exact Or.inr (List.mem_cons_of_mem _ h)

theorem mem_keys_dictInsert {k k2 v : Bytes} : ∀ {d : List QPair},
    (k2 ∈ keysOf (dictInsert k v d) ↔ k2 ∈ keysOf d ∨ k2 = k) := by
  intro d
  induction d with
  | nil => simp [dictInsert, keysOf]
  | cons q r ih =>
    unfold dictInsert
    by_cases hq : q.1 = k
    · rw [if_pos hq]
      simp only [keysOf, List.map_cons, List.mem_cons]
      constructor
      · rintro (h | h)
        · exact Or.inr h
        · exact Or.inl (Or.inr h)
      · rintro (h | h)
        · rcases h with h | h
          · exact Or.inl (h.trans hq)
          · exact Or.inr h
        · exact Or.inl h
    · rw [if_neg hq]
      simp only [keysOf, List.map_cons, List.mem_cons] at ih ⊢
      constructor
      · rintro (h | h)
        · exact Or.inl (Or.inl h)
        · rcases ih.mp h with h2 | h2
          · exact Or.inl (Or.inr h2)
          · exact Or.inr h2
      · rintro (h | h)
        · rcases h with h2 | h2
          · exact Or.inl h2
          · exact Or.inr (ih.mpr (Or.inl h2))
        · exact Or.inr (ih.mpr (Or.inr h))

theorem dictInsert_not_mem {k v : Bytes} : ∀ {d : List QPair},
    k ∉ keysOf d → dictInsert k v d = d ++ [(k, v)] := by
  intro d
  induction d with
  | nil => intro _; rfl
  | cons q r ih =>
    intro h
    have hq : q.1 ≠ k := fun hq => h (by simp [keysOf, hq])
    unfold dictInsert
    rw [if_neg hq, ih (fun hm => h (by simp [keysOf] at hm ⊢; exact Or.inr hm))]
    rfl

theorem nodup_keys_dictInsert {k v : Bytes} : ∀ {d : List QPair},
    (keysOf d).Nodup → (keysOf (dictInsert k v d)).Nodup := by
  intro d
  induction d with
  | nil => intro _; simp [dictInsert, keysOf]
  | cons q r ih =>
    intro h
    simp only [keysOf, List.map_cons, List.nodup_cons] at h
    unfold dictInsert
    by_cases hq : q.1 = k
    · rw [if_pos hq]
      simp only [keysOf, List.map_cons, List.nodup_cons]
      exact ⟨hq ▸ h.1, h.2⟩
    · rw [if_neg hq]
      simp only [keysOf, List.map_cons, List.nodup_cons]
      refine ⟨?_, ih h.2⟩
      intro hm
      rcases mem_keys_dictInsert.mp hm with hm2 | hm2
      · exact h.1 hm2
      · exact hq hm2

theorem assocLookup_dictInsert_self (k v : Bytes) : ∀ d : List QPair,
    assocLookup k (dictInsert k v d) = some v := by
  intro d
  induction d with
  | nil => simp [dictInsert, assocLookup]
  | cons q r ih =>
    unfold dictInsert
    by_cases hq : q.1 = k
    · rw [if_pos hq]
      simp [assocLookup]
    · rw [if_neg hq]
      simp only [assocLookup, if_neg hq]
      exact ih

theorem assocLookup_dictInsert_ne {k k2 v : Bytes} (h : k ≠ k2) : ∀ d : List QPair,
    assocLookup k2 (dictInsert k v d) = assocLookup k2 d := by
  intro d
  induction d with
  | nil => simp [dictInsert, assocLookup, h]
  | cons q r ih =>
    unfold dictInsert
    by_cases hq : q.1 = k
    · rw [if_pos hq]
      have hq2 : q.1 ≠ k2 := fun hc => h (hq ▸ hc)
      simp only [assocLookup, if_neg (show ¬ (k = k2) from h), if_neg hq2]
    · rw [if_neg hq]
      by_cases hq2 : q.1 = k2
      · simp [assocLookup, hq2]
      · simp only [assocLookup, if_neg hq2]
        exact ih

theorem dictInsert_of_lookup {k v : Bytes} : ∀ {d : List QPair},
    assocLookup k d = some v → dictInsert k v d = d := by
  intro d
  induction d with
  | nil => intro h; cases h
  | cons q r ih =>
    intro h
    unfold assocLookup at h
    unfold dictInsert
    by_cases hq : q.1 = k
    · rw [if_pos hq] at h ⊢
      injection h with h
      rw [← h, ← hq]
    · rw [if_neg hq] at h ⊢
      rw [ih h]

theorem foldl_dictInsert_mem : ∀ (l : List QPair) (acc : List QPair) (p : QPair),
    p ∈ l.foldl (fun d q => dictInsert q.1 q.2 d) acc → p ∈ acc ∨ p ∈ l := by
  intro l
  induction l with
  | nil => intro acc p hp; exact Or.inl hp
  | cons q r ih =>
    intro acc p hp
    rcases ih (dictInsert q.1 q.2 acc) p hp with h | h
    · rcases dictInsert_mem h with h2 | h2
      · exact Or.inr (by rw [h2]; exact List.mem_cons_self _ _)
      · exact Or.inl h2
    · exact Or.inr (List.mem_cons_of_mem _ h)

theorem listToDict_mem {l : List QPair} {p : QPair} (hp : p ∈ listToDict l) :
    p ∈ l := by
  rcases foldl_dictInsert_mem l [] p hp with h | h
  · cases h
  · exact h

theorem foldl_dictInsert_nodup : ∀ (l : List QPair) (acc : List QPair),
    (keysOf acc).Nodup →
    (keysOf (l.foldl (fun d q => dictInsert q.1 q.2 d) acc)).Nodup := by
  intro l
  induction l with
  | nil => intro acc h; exact h
  | cons q r ih => intro acc h; exact ih _ (nodup_keys_dictInsert h)

theorem listToDict_nodup (l : List QPair) : (keysOf (listToDict l)).Nodup :=
  foldl_dictInsert_nodup l [] (by simp [keysOf])

theorem foldl_dictInsert_of_nodup : ∀ (l : List QPair) (acc : List QPair),
    (keysOf (acc ++ l)).Nodup →
    l.foldl (fun d q => dictInsert q.1 q.2 d) acc = acc ++ l := by
  intro l
  induction l with
  | nil => intro acc _; simp
  | cons q r ih =>
    intro acc h
    have hq : q.1 ∉ keysOf acc := by
      intro hm
      have h2 : (keysOf acc ++ keysOf (q :: r)).Nodup := by
        simpa [keysOf, List.map_append] using h
      exact List.disjoint_of_nodup_append h2 hm (by simp [keysOf])
    rw [show (q :: r).foldl (fun d p => dictInsert p.1 p.2 d) acc =
      r.foldl (fun d p => dictInsert p.1 p.2 d) (dictInsert q.1 q.2 acc) from rfl]
    rw [dictInsert_not_mem hq]
    rw [ih (acc ++ [q]) (by simpa using h)]
    simp

theorem listToDict_of_nodup {l : List QPair} (h : (keysOf l).Nodup) :
    listToDict l = l := by
  have := foldl_dictInsert_of_nodup l [] (by simpa using h)
  simpa [listToDict] using this

theorem foldl_dictInsert_mem_keys (k : Bytes) : ∀ (l : List QPair) (acc : List QPair),
    (k ∈ keysOf (l.foldl (fun d q => dictInsert q.1 q.2 d) acc) ↔
      k ∈ keysOf acc ∨ k ∈ keysOf l) := by
  intro l
  induction l with
  | nil => intro acc; simp [keysOf]
  | cons q r ih =>
    intro acc
    rw [show (q :: r).foldl (fun d p => dictInsert p.1 p.2 d) acc =
      r.foldl (fun d p => dictInsert p.1 p.2 d) (dictInsert q.1 q.2 acc) from rfl]
    rw [ih]
    rw [show keysOf (q :: r) = q.1 :: keysOf r from rfl]
    constructor
    · rintro (h | h)
      · rcases mem_keys_dictInsert.mp h with h2 | h2
        · exact Or.inl h2
        · exact Or.inr (by rw [h2]; exact List.mem_cons_self _ _)
      · exact Or.inr (List.mem_cons_of_mem _ h)
    · rintro (h | h)
      · exact Or.inl (mem_keys_dictInsert.mpr (Or.inl h))
      · rcases List.mem_cons.mp h with h2 | h2
        · exact Or.inl (mem_keys_dictInsert.mpr (Or.inr h2))
        · exact Or.inr h2

theorem mem_keys_listToDict {k : Bytes} {l : List QPair} :
    k ∈ keysOf (listToDict l) ↔ k ∈ keysOf l := by
  have := foldl_dictInsert_mem_keys k l []
  simpa [listToDict, keysOf] using this

/-!
## Tracking-parameter overwrite lemmas
-/

theorem lookup_opt_insert {k k2 v : Bytes} (d : List QPair) {cond : Prop}
    [Decidable cond] (h : k2 ≠ k) :
    assocLookup k (if cond then dictInsert k2 v d else d) = assocLookup k d := by
  split
  · exact assocLookup_dictInsert_ne h d
  · rfl

theorem opt_insert_id {k v : Bytes} {d : List QPair} {cond : Prop} [Decidable cond]
    (h : cond → assocLookup k d = some v) :
    (if cond then dictInsert k v d else d) = d := by
  split
  · exact dictInsert_of_lookup (h (by assumption))
  · rfl

theorem mem_opt_insert {k v : Bytes} {d : List QPair} {cond : Prop} [Decidable cond]
    {p : QPair} (hp : p ∈ (if cond then dictInsert k v d else d)) :
    p = (k, v) ∨ p ∈ d := by
  split at hp
  · exact dictInsert_mem hp
  · exact Or.inr hp

theorem nodup_opt_insert {k v : Bytes} {d : List QPair} {cond : Prop} [Decidable cond]
    (h : (keysOf d).Nodup) :
    (keysOf (if cond then dictInsert k v d else d)).Nodup := by
  split
  · exact nodup_keys_dictInsert h
  · exact h

theorem applyUtm_lookup_source {d : List QPair} {s : Bytes} (m c t : Bytes)
    (hs : s ≠ []) :
    assocLookup (bs "utm_source") (applyUtm d s m c t) = some s := by
  unfold applyUtm
  rw [lookup_opt_insert _ (by decide), lookup_opt_insert _ (by decide),
    lookup_opt_insert _ (by decide), if_pos hs]
  exact assocLookup_dictInsert_self _ _ _

theorem applyUtm_lookup_medium {d : List QPair} {m : Bytes} (s c t : Bytes)
    (hm : m ≠ []) :
    assocLookup (bs "utm_medium") (applyUtm d s m c t) = some m := by
  unfold applyUtm
  rw [lookup_opt_insert _ (by decide), lookup_opt_insert _ (by decide), if_pos hm]
  exact assocLookup_dictInsert_self _ _ _

theorem applyUtm_lookup_campaign {d : List QPair} {c : Bytes} (s m t : Bytes)
    (hc : c ≠ []) :
    assocLookup (bs "utm_campaign") (applyUtm d s m c t) = some c := by
  unfold applyUtm
  rw [lookup_opt_insert _ (by decide), if_pos hc]
  exact assocLookup_dictInsert_self _ _ _

theorem applyUtm_lookup_term {d : List QPair} {t : Bytes} (s m c : Bytes)
    (ht : t ≠ []) :
    assocLookup (bs "utm_term") (applyUtm d s m c t) = some t := by
  unfold applyUtm
  rw [if_pos ht]
  exact assocLookup_dictInsert_self _ _ _

theorem applyUtm_lookup_source_empty {d : List QPair} {s : Bytes} (m c t : Bytes)
    (hs : s = []) :
    assocLookup (bs "utm_source") (applyUtm d s m c t) =
      assocLookup (bs "utm_source") d := by
  unfold applyUtm
  rw [lookup_opt_insert _ (by decide), lookup_opt_insert _ (by decide),
    lookup_opt_insert _ (by decide), if_neg (by simp [hs])]

theorem applyUtm_lookup_medium_empty {d : List QPair} {m : Bytes} (s c t : Bytes)
    (hm : m = []) :
    assocLookup (bs "utm_medium") (applyUtm d s m c t) =
      assocLookup (bs "utm_medium") d := by
  unfold applyUtm
  rw [lookup_opt_insert _ (by decide), lookup_opt_insert _ (by decide),
    if_neg (by simp [hm]), lookup_opt_insert _ (by decide)]

theorem applyUtm_lookup_campaign_empty {d : List QPair} {c : Bytes} (s m t : Bytes)
    (hc : c = []) :
    assocLookup (bs "utm_campaign") (applyUtm d s m c t) =
      assocLookup (bs "utm_campaign") d := by
  unfold applyUtm
  rw [lookup_opt_insert _ (by decide), if_neg (by simp [hc]),
    lookup_opt_insert _ (by decide), lookup_opt_insert _ (by decide)]

theorem applyUtm_lookup_term_empty {d : List QPair} {t : Bytes} (s m c : Bytes)
    (ht : t = []) :
    assocLookup (bs "utm_term") (applyUtm d s m c t) =
      assocLookup (bs "utm_term") d := by
  unfold applyUtm
  rw [if_neg (by simp [ht]), lookup_opt_insert _ (by decide),
    lookup_opt_insert _ (by decide), lookup_opt_insert _ (by decide)]

theorem applyUtm_lookup_other {d : List QPair} (s m c t k : Bytes)
    (h1 : k ≠ bs "utm_source") (h2 : k ≠ bs "utm_medium")
    (h3 : k ≠ bs "utm_campaign") (h4 : k ≠ bs "utm_term") :
    assocLookup k (applyUtm d s m c t) = assocLookup k d := by
  unfold applyUtm
  rw [lookup_opt_insert _ (Ne.symm h4), lookup_opt_insert _ (Ne.symm h3),
    lookup_opt_insert _ (Ne.symm h2), lookup_opt_insert _ (Ne.symm h1)]

theorem applyUtm_mem {d : List QPair} {s m c t : Bytes} {p : QPair}
    (hp : p ∈ applyUtm d s m c t) :
    p ∈ d ∨ p = (bs "utm_source", s) ∨ p = (bs "utm_medium", m) ∨
    p = (bs "utm_campaign", c) ∨ p = (bs "utm_term", t) := by
  unfold applyUtm at hp
  rcases mem_opt_insert hp with h | hp2
  · exact Or.inr (Or.inr (Or.inr (Or.inr h)))
  rcases mem_opt_insert hp2 with h | hp3
  · exact Or.inr (Or.inr (Or.inr (Or.inl h)))
  rcases mem_opt_insert hp3 with h | hp4
  · exact Or.inr (Or.inr (Or.inl h))
  rcases mem_opt_insert hp4 with h | hp5
  · exact Or.inr (Or.inl h)
  exact Or.inl hp5

theorem applyUtm_nodup {d : List QPair} {s m c t : Bytes}
    (h : (keysOf d).Nodup) : (keysOf (applyUtm d s m c t)).Nodup := by
  unfold applyUtm
  exact nodup_opt_insert (nodup_opt_insert (nodup_opt_insert (nodup_opt_insert h)))

theorem applyUtm_idem (d : List QPair) (s m c t : Bytes) :
    applyUtm (applyUtm d s m c t) s m c t = applyUtm d s m c t := by
  generalize hD : applyUtm d s m c t = D
  have hsl : s ≠ [] → assocLookup (bs "utm_source") D = some s := fun h =>
    hD ▸ applyUtm_lookup_source m c t h
  have hml : m ≠ [] → assocLookup (bs "utm_medium") D = some m := fun h =>
    hD ▸ applyUtm_lookup_medium s c t h
  have hcl : c ≠ [] → assocLookup (bs "utm_campaign") D = some c := fun h =>
    hD ▸ applyUtm_lookup_campaign s m t h
  have htl : t ≠ [] → assocLookup (bs "utm_term") D = some t := fun h =>
    hD ▸ applyUtm_lookup_term s m c h
  unfold applyUtm
  simp only [opt_insert_id hsl, opt_insert_id hml, opt_insert_id hcl,
    opt_insert_id htl]

/-!
## `urlsplit`/`urlunsplit` round-trip helpers
-/

theorem takeWhile_append_all {P : Nat → Bool} : ∀ {x : Bytes} (y : Bytes),
    (∀ b ∈ x, P b = true) → (x ++ y).takeWhile P = x ++ y.takeWhile P := by
  intro x
  induction x with
  | nil => intro y _; rfl
  | cons c r ih =>
    intro y h
    rw [List.cons_append, List.takeWhile_cons, if_pos (h c (List.mem_cons_self _ _)),
      ih y (fun b hb => h b (List.mem_cons_of_mem _ hb))]
    rfl

theorem dropWhile_append_all {P : Nat → Bool} : ∀ {x : Bytes} (y : Bytes),
    (∀ b ∈ x, P b = true) → (x ++ y).dropWhile P = y.dropWhile P := by
  intro x
  induction x with
  | nil => intro y _; rfl
  | cons c r ih =>
    intro y h
    rw [List.cons_append, List.dropWhile_cons, if_pos (h c (List.mem_cons_self _ _)),
      ih y (fun b hb => h b (List.mem_cons_of_mem _ hb))]

theorem sanitize_eq_self {l : Bytes}
    (hu : ∀ b ∈ l, isUnsafeByte b = false)
    (hh : ∀ b, l.head? = some b → isC0OrSpace b = false) :
    sanitize l = l := by
  unfold sanitize
  have hdw : l.dropWhile isC0OrSpace = l := by
    cases l with
    | nil => rfl
    | cons c r =>
      rw [List.dropWhile_cons, if_neg (by rw [hh c rfl]; simp)]
  rw [hdw]
  exact List.filter_eq_self.mpr (fun b hb => by rw [hu b hb]; rfl)

theorem sanitize_clean {l : Bytes} : ∀ b ∈ sanitize l, isUnsafeByte b = false := by
  intro b hb
  unfold sanitize at hb
  have := List.of_mem_filter hb
  simpa using this

theorem mem_sanitize {l : Bytes} {b : Nat} (hb : b ∈ sanitize l) : b ∈ l := by
  unfold sanitize at hb
  exact (List.dropWhile_sublist _).mem (List.mem_of_mem_filter hb)

theorem sanitize_head_not_c0 {l : Bytes} :
    ∀ b, (sanitize l).head? = some b → isC0OrSpace b = false := by
  intro b hb
  unfold sanitize at hb
  have hdw : ∀ c, (l.dropWhile isC0OrSpace).head? = some c → isC0OrSpace c = false := by
    intro c hc
    have h2 := List.head?_dropWhile_not isC0OrSpace l
    rw [hc] at h2
    exact h2
  cases hd : l.dropWhile isC0OrSpace with
  | nil => rw [hd] at hb; cases hb
  | cons c r =>
    have hc : isC0OrSpace c = false := hdw c (by rw [hd]; rfl)
    rw [hd] at hb
    have hcu : isUnsafeByte c = false ∨ isUnsafeByte c = true := by
      cases isUnsafeByte c <;> simp
    rw [List.filter_cons] at hb
    have hcu2 : isUnsafeByte c = false := by
      rcases hcu with h | h
      · exact h
      · exfalso
        simp only [isUnsafeByte, Bool.or_eq_true, decide_eq_true_eq] at h
        simp only [isC0OrSpace, decide_eq_false_iff_not] at hc
        omega
    rw [if_pos (by rw [hcu2]; rfl)] at hb
    simp only [List.head?_cons, Option.some.injEq] at hb
    subst hb
    exact hc

theorem lowerB_lowerB (b : Nat) : lowerB (lowerB b) = lowerB b := by
  by_cases h : isUpperAlpha b = true
  · have h2 : lowerB b = b + 32 := by unfold lowerB; rw [if_pos h]
    have h3 : isUpperAlpha (b + 32) = false := by
      simp only [isUpperAlpha, decide_eq_true_eq] at h
      simp only [isUpperAlpha, decide_eq_false_iff_not]
      omega
    rw [h2]
    unfold lowerB
    rw [if_neg (by rw [h3]; simp)]
  · have h2 : lowerB b = b := by unfold lowerB; rw [if_neg h]
    rw [h2, h2]

theorem isAlphaB_lowerB (b : Nat) : isAlphaB (lowerB b) = isAlphaB b := by
  unfold lowerB
  by_cases h : isUpperAlpha b = true
  · rw [if_pos h]
    simp only [isUpperAlpha, decide_eq_true_eq] at h
    rw [Bool.eq_iff_iff]
    simp only [isAlphaB, isUpperAlpha, isLowerAlpha, Bool.or_eq_true, decide_eq_true_eq]
    omega
  · rw [if_neg h]

theorem isSchemeChar_lowerB (b : Nat) : isSchemeChar (lowerB b) = isSchemeChar b := by
  unfold lowerB
  by_cases h : isUpperAlpha b = true
  · rw [if_pos h]
    simp only [isUpperAlpha, decide_eq_true_eq] at h
    rw [Bool.eq_iff_iff]
    simp only [isSchemeChar, isAlphaB, isUpperAlpha, isLowerAlpha, isDigitB,
      Bool.or_eq_true, decide_eq_true_eq]
    omega
  · rw [if_neg h]

theorem lowerB_ne_58 {b : Nat} (h : b ≠ 58) : lowerB b ≠ 58 := by
  unfold lowerB isUpperAlpha
  split
  · rename_i h2
    simp only [decide_eq_true_eq] at h2
    omega
  · exact h

theorem isSchemeChar_ne {b : Nat} (h : isSchemeChar b = true) :
    b ≠ 58 ∧ b ≠ 47 ∧ b ≠ 63 ∧ b ≠ 35 ∧ b ≠ 9 ∧ b ≠ 13 ∧ b ≠ 10 := by
  simp only [isSchemeChar, isAlphaB, isUpperAlpha, isLowerAlpha, isDigitB,
    Bool.or_eq_true, decide_eq_true_eq] at h
  omega

theorem schemeDetect_not_mem_58 {l : Bytes} (h : schemeDetect l = true) :
    (58 : Nat) ∉ l := by
  intro hm
  cases l with
  | nil => cases hm
  | cons b r =>
    simp only [schemeDetect, Bool.and_eq_true, List.all_eq_true] at h
    exact (isSchemeChar_ne (h.2 58 hm)).1 rfl

theorem schemeDetect_map_lowerB {l : Bytes} (h : schemeDetect l = true) :
    schemeDetect (l.map lowerB) = true := by
  cases l with
  | nil => cases h
  | cons b r =>
    simp only [schemeDetect, Bool.and_eq_true, List.all_eq_true, List.map_cons] at h ⊢
    refine ⟨by rw [isAlphaB_lowerB]; exact h.1, ?_⟩
    intro x hx
    have hx2 : x ∈ (b :: r).map lowerB := by rw [List.map_cons]; exact hx
    rcases List.mem_map.mp hx2 with ⟨y, hy, rfl⟩
    rw [isSchemeChar_lowerB]
    exact h.2 y hy

theorem map_lowerB_idem (l : Bytes) : (l.map lowerB).map lowerB = l.map lowerB := by
  rw [List.map_map]
  exact List.map_congr_left (fun b _ => lowerB_lowerB b)

theorem schemeDetect_false_of_mem {l : Bytes} {b : Nat} (hb : b ∈ l)
    (h : isSchemeChar b = false) : schemeDetect l = false := by
  cases l with
  | nil => rfl
  | cons c r =>
    simp only [schemeDetect, Bool.and_eq_false_iff]
    by_cases hall : (c :: r).all isSchemeChar = true
    · exact absurd (List.all_eq_true.mp hall b hb) (by rw [h]; simp)
    · exact Or.inr (by simpa using hall)

/-- `schemeSplit` strips exactly a well-formed, already lower-cased
scheme. -/
theorem schemeSplit_strip {scheme : Bytes} (hdet : schemeDetect scheme = true)
    (hlow : scheme.map lowerB = scheme) (rest : Bytes) :
    schemeSplit (scheme ++ 58 :: rest) = (scheme, rest) := by
  unfold schemeSplit
  rw [splitFirst_append_first rest (schemeDetect_not_mem_58 hdet)]
  dsimp only
  rw [if_pos hdet, hlow]

/-- `schemeSplit` does nothing when the byte string has no colon. -/
theorem schemeSplit_no_colon {l : Bytes} (h : (58 : Nat) ∉ l) :
    schemeSplit l = ([], l) := by
  unfold schemeSplit
  rw [splitFirst_none_iff.mpr h]

/-- `schemeSplit` does nothing when the part before the first colon is
rejected. -/
theorem schemeSplit_reject {l pre post : Bytes}
    (hsp : splitFirst 58 l = some (pre, post)) (hdet : schemeDetect pre = false) :
    schemeSplit l = ([], l) := by
  unfold schemeSplit
  rw [hsp]
  dsimp only
  rw [if_neg (by rw [hdet]; simp)]

/-!
## Params-split lemmas
-/

theorem contains_true_iff {l : Bytes} {b : Nat} : l.contains b = true ↔ b ∈ l := by
  simp [List.contains, List.elem_eq_mem]

/-- Characterization of `_splitparams`: the split path is a prefix of
the input; non-empty params re-join exactly; empty params re-split to
empty params. -/
theorem splitparamsB_char (p0 : Bytes) :
    (∃ ext, p0 = (splitparamsB p0).1 ++ ext) ∧
    ((splitparamsB p0).2 ≠ [] → p0 = (splitparamsB p0).1 ++ 59 :: (splitparamsB p0).2) ∧
    ((splitparamsB p0).2 = [] →
      splitparamsB (splitparamsB p0).1 = ((splitparamsB p0).1, [])) := by
  by_cases h47 : p0.contains 47 = true
  · rw [show splitparamsB p0 = (match splitLast 47 p0 with
      | some (a, b2) =>
        match splitFirst 59 b2 with
        | some (b1, rest) => (a ++ 47 :: b1, rest)
        | none => (p0, [])
      | none => (p0, [])) from by unfold splitparamsB; rw [if_pos h47]]
    cases hsl : splitLast 47 p0 with
    | none =>
      dsimp only
      refine ⟨⟨[], by simp⟩, fun h => absurd rfl h, fun _ => ?_⟩
      unfold splitparamsB
      rw [if_pos h47, hsl]
    | some ab =>
      obtain ⟨a, b2⟩ := ab
      obtain ⟨hp0, h47b2⟩ := splitLast_eq_some hsl
      dsimp only
      cases hsf : splitFirst 59 b2 with
      | none =>
        dsimp only
        refine ⟨⟨[], by simp⟩, fun h => absurd rfl h, fun _ => ?_⟩
        unfold splitparamsB
        rw [if_pos h47, hsl]
        dsimp only
        rw [hsf]
      | some br =>
        obtain ⟨b1, rest⟩ := br
        obtain ⟨hb2, h59b1⟩ := splitFirst_eq_some hsf
        dsimp only
        have hdec : p0 = (a ++ 47 :: b1) ++ 59 :: rest := by
          rw [hp0, hb2]
          simp
        refine ⟨⟨59 :: rest, hdec⟩, fun _ => hdec, fun hrest => ?_⟩
        subst hrest
        have h47b1 : (47 : Nat) ∉ b1 := fun hm => h47b2 (by rw [hb2]; simp [hm])
        have hc47 : (a ++ 47 :: b1).contains 47 = true :=
          contains_true_iff.mpr (by simp)
        unfold splitparamsB
        rw [if_pos hc47, splitLast_append h47b1]
        dsimp only
        rw [splitFirst_none_iff.mpr h59b1]
  · rw [show splitparamsB p0 = (match splitFirst 59 p0 with
      | some (p1, p2) => (p1, p2)
      | none => (p0, [])) from by unfold splitparamsB; rw [if_neg h47]]
    have h47m : (47 : Nat) ∉ p0 := fun hm => h47 (contains_true_iff.mpr hm)
    cases hsf : splitFirst 59 p0 with
    | none =>
      dsimp only
      refine ⟨⟨[], by simp⟩, fun h => absurd rfl h, fun _ => ?_⟩
      unfold splitparamsB
      rw [if_neg h47, hsf]
    | some xy =>
      obtain ⟨x, y⟩ := xy
      obtain ⟨hp0, h59x⟩ := splitFirst_eq_some hsf
      dsimp only
      refine ⟨⟨59 :: y, hp0⟩, fun _ => hp0, fun hy => ?_⟩
      subst hy
      have h47x : ¬ x.contains 47 = true := fun hm =>
        h47m (by rw [hp0]; exact List.mem_append.mpr (Or.inl (contains_true_iff.mp hm)))
      unfold splitparamsB
      rw [if_neg h47x, splitFirst_none_iff.mpr h59x]

/-!
## `splitTail` and `schemeSplit` dissection lemmas
-/

/-- Characterization of `splitTail`: the separator never occurs in the
first part, and the input either re-joins exactly or is returned whole. -/
theorem splitTail_char (b : Nat) (u : Bytes) :
    b ∉ (splitTail b u).1 ∧
    (u = (splitTail b u).1 ++ b :: (splitTail b u).2 ∨
      ((splitTail b u).1 = u ∧ (splitTail b u).2 = [])) := by
  unfold splitTail
  cases hsf : splitFirst b u with
  | none =>
    dsimp only
    exact ⟨splitFirst_none_iff.mp hsf, Or.inr ⟨rfl, rfl⟩⟩
  | some pr =>
    obtain ⟨p, s⟩ := pr
    dsimp only
    obtain ⟨h1, h2⟩ := splitFirst_eq_some hsf
    exact ⟨h2, Or.inl h1⟩

theorem splitTail_append_first {b : Nat} {x : Bytes} (y : Bytes) (h : b ∉ x) :
    splitTail b (x ++ b :: y) = (x, y) := by
  unfold splitTail
  rw [splitFirst_append_first y h]

theorem splitTail_no {b : Nat} {u : Bytes} (h : b ∉ u) : splitTail b u = (u, []) := by
  unfold splitTail
  rw [splitFirst_none_iff.mpr h]

/-- The first part of a `splitTail` is empty or starts like the input. -/
theorem splitTail_fst_head (b : Nat) (u : Bytes) :
    (splitTail b u).1 = [] ∨ (splitTail b u).1.head? = u.head? := by
  obtain ⟨h1, h2⟩ := splitTail_char b u
  rcases h2 with h | h
  · cases hf : (splitTail b u).1 with
    | nil => exact Or.inl rfl
    | cons c r =>
      refine Or.inr ?_
      rw [h, hf]
      rfl
  · exact Or.inr (by rw [h.1])

theorem splitTail_fst_mem {b : Nat} {u : Bytes} {x : Nat}
    (hx : x ∈ (splitTail b u).1) : x ∈ u := by
  rcases (splitTail_char b u).2 with h | h
  · rw [h]; exact List.mem_append.mpr (Or.inl hx)
  · rw [← h.1]; exact hx

theorem splitTail_snd_mem {b : Nat} {u : Bytes} {x : Nat}
    (hx : x ∈ (splitTail b u).2) : x ∈ u := by
  rcases (splitTail_char b u).2 with h | h
  · rw [h]
    exact List.mem_append.mpr (Or.inr (List.mem_cons_of_mem _ hx))
  · rw [h.2] at hx; cases hx

/-- Case split for `schemeSplit`: either it is the identity, or it
strips a detected scheme at the first colon. -/
theorem schemeSplit_cases (u : Bytes) :
    schemeSplit u = ([], u) ∨
    (∃ pre post, splitFirst 58 u = some (pre, post) ∧ schemeDetect pre = true ∧
      schemeSplit u = (pre.map lowerB, post)) := by
  cases hsp : splitFirst 58 u with
  | none => exact Or.inl (schemeSplit_no_colon (splitFirst_none_iff.mp hsp))
  | some pr =>
    obtain ⟨pre, post⟩ := pr
    by_cases hdet : schemeDetect pre = true
    · refine Or.inr ⟨pre, post, rfl, hdet, ?_⟩
      unfold schemeSplit
      rw [hsp]
      dsimp only
      rw [if_pos hdet]
    · exact Or.inl (schemeSplit_reject hsp (by simpa using hdet))

theorem schemeDetect_ne_nil {l : Bytes} (h : schemeDetect l = true) : l ≠ [] := by
  intro hl
  rw [hl] at h
  cases h

/-- If the input does not start with an ASCII letter, no scheme is
stripped. -/
theorem schemeSplit_head_nonalpha {u : Bytes} {c : Nat} (hc : u.head? = some c)
    (ha : isAlphaB c = false) : schemeSplit u = ([], u) := by
  cases u with
  | nil => cases hc
  | cons b r =>
    have hb : b = c := by simpa using hc
    subst hb
    cases hsp : splitFirst 58 (b :: r) with
    | none => exact schemeSplit_no_colon (splitFirst_none_iff.mp hsp)
    | some pr =>
      obtain ⟨pre, post⟩ := pr
      refine schemeSplit_reject hsp ?_
      obtain ⟨h1, _⟩ := splitFirst_eq_some hsp
      cases pre with
      | nil => rfl
      | cons d q =>
        have hd : b = d := by
          have := congrArg List.head? h1
          simpa using this
        subst hd
        simp [schemeDetect, ha]

/-- If `schemeSplit` returned an empty scheme although a colon occurs,
the part before the first colon was rejected. -/
theorem schemeSplit_id_reject {u pre post : Bytes}
    (hsp : splitFirst 58 u = some (pre, post))
    (hid : (schemeSplit u).1 = []) : schemeDetect pre = false := by
  by_cases hdet : schemeDetect pre = true
  · exfalso
    have h2 : schemeSplit u = (pre.map lowerB, post) := by
      unfold schemeSplit
      rw [hsp]
      dsimp only
      rw [if_pos hdet]
    rw [h2] at hid
    have hpre : pre = [] := by simpa using hid
    rw [hpre] at hdet
    cases hdet
  · simpa using hdet

theorem isUnsafeByte_lowerB {b : Nat} (h : isUnsafeByte b = false) :
    isUnsafeByte (lowerB b) = false := by
  unfold lowerB
  by_cases hu : isUpperAlpha b = true
  · rw [if_pos hu]
    simp only [isUpperAlpha, decide_eq_true_eq] at hu
    simp only [isUnsafeByte, Bool.or_eq_false_iff, decide_eq_false_iff_not]
    omega
  · rw [if_neg hu]
    exact h

/-- `urlencode` output also never contains `?`, `/`, `:` or `@`. -/
theorem urlencode_good2 {d : List QPair}
    (hd : ∀ p ∈ d, validBytes p.1 ∧ validBytes p.2) :
    ∀ x ∈ urlencodeB d, x ≠ 63 ∧ x ≠ 47 ∧ x ≠ 58 ∧ x ≠ 64 := by
  intro x hx
  rcases mem_urlencode hd hx with h | h | h | h | h | h | h
  · rcases isSafeByte_range h with h | h | h | h | h | h | h <;> omega
  all_goals omega

/-!
## Structural invariants of `urlsplit` results
-/

theorem pqPath_mem {u : Bytes} {x : Nat}
    (hx : x ∈ (splitTail 63 (splitTail 35 u).1).1) : x ∈ u :=
  splitTail_fst_mem (splitTail_fst_mem hx)

theorem pqQuery_mem {u : Bytes} {x : Nat}
    (hx : x ∈ (splitTail 63 (splitTail 35 u).1).2) : x ∈ u :=
  splitTail_fst_mem (splitTail_snd_mem hx)

theorem pqPath_35 {u : Bytes} : (35 : Nat) ∉ (splitTail 63 (splitTail 35 u).1).1 :=
  fun hx => (splitTail_char 35 u).1 (splitTail_fst_mem hx)

theorem pqPath_63 {u : Bytes} : (63 : Nat) ∉ (splitTail 63 (splitTail 35 u).1).1 :=
  (splitTail_char 63 _).1

/-- The path split off by the fragment/query steps is empty or starts
like the input. -/
theorem pqPath_head (u : Bytes) :
    (splitTail 63 (splitTail 35 u).1).1 = [] ∨
    (splitTail 63 (splitTail 35 u).1).1.head? = u.head? := by
  rcases splitTail_fst_head 35 u with h1 | h1
  · left
    rw [h1]
    rfl
  · rcases splitTail_fst_head 63 (splitTail 35 u).1 with h2 | h2
    · exact Or.inl h2
    · exact Or.inr (h2.trans h1)

/-- A colon split inside the final path lifts to a colon split of the
input with the same prefix. -/
theorem pqPath_colon {u pre post : Bytes}
    (h : splitFirst 58 (splitTail 63 (splitTail 35 u).1).1 = some (pre, post)) :
    ∃ post2, splitFirst 58 u = some (pre, post2) := by
  have h2 : ∃ post1, splitFirst 58 (splitTail 35 u).1 = some (pre, post1) := by
    rcases (splitTail_char 63 (splitTail 35 u).1).2 with h1 | h1
    · exact ⟨_, by rw [h1]; exact splitFirst_append_left _ h⟩
    · exact ⟨post, h1.1 ▸ h⟩
  obtain ⟨post1, h2⟩ := h2
  rcases (splitTail_char 35 u).2 with h3 | h3
  · exact ⟨_, by rw [h3]; exact splitFirst_append_left _ h2⟩
  · exact ⟨post1, h3.1 ▸ h2⟩

/-- In the authority branch, the final path is empty or starts with a
slash: the remainder after the netloc starts with `/`, `?` or `#`, and
the latter two land in query/fragment position. -/
theorem body_path_head (u3 : Bytes)
    (hh : ∀ b, u3.head? = some b → isNetlocEnd b = true) :
    (splitTail 63 (splitTail 35 u3).1).1 = [] ∨
    (splitTail 63 (splitTail 35 u3).1).1.head? = some 47 := by
  cases u3 with
  | nil => exact Or.inl rfl
  | cons c rest =>
    have hc : isNetlocEnd c = true := hh c rfl
    have hc3 : c = 47 ∨ c = 63 ∨ c = 35 := by
      simp only [isNetlocEnd, Bool.or_eq_true, decide_eq_true_eq] at hc
      exact hc.elim (fun h => h.elim Or.inl (fun h2 => Or.inr (Or.inl h2)))
        (fun h => Or.inr (Or.inr h))
    rcases hc3 with rfl | rfl | rfl
    · rcases pqPath_head (47 :: rest) with h | h
      · exact Or.inl h
      · exact Or.inr h
    · rcases pqPath_head (63 :: rest) with h | h
      · exact Or.inl h
      · left
        cases hq : (splitTail 63 (splitTail 35 (63 :: rest)).1).1 with
        | nil => rfl
        | cons d q =>
          exfalso
          rw [hq] at h
          have hd : d = 63 := by simpa using h
          have h63 := pqPath_63 (u := 63 :: rest)
          rw [hq, hd] at h63
          exact h63 (List.mem_cons_self _ _)
    · have h35 : splitTail 35 (35 :: rest) = ([], rest) :=
        splitTail_append_first rest (List.not_mem_nil 35)
      rw [h35]
      exact Or.inl rfl

/-- Structural facts `urlsplit` guarantees about its result. -/
structure SplitInv (S : UrlSplit) : Prop where
  scheme_ok : S.scheme = [] ∨
    (schemeDetect S.scheme = true ∧ S.scheme.map lowerB = S.scheme)
  netloc_ok : ∀ b ∈ S.netloc, isNetlocEnd b = false
  netloc_br : bracketBad S.netloc = false
  path35 : (35 : Nat) ∉ S.path
  path63 : (63 : Nat) ∉ S.path
  clean_s : ∀ b ∈ S.scheme, isUnsafeByte b = false
  clean_n : ∀ b ∈ S.netloc, isUnsafeByte b = false
  clean_p : ∀ b ∈ S.path, isUnsafeByte b = false
  clean_q : ∀ b ∈ S.query, isUnsafeByte b = false
  clean_f : ∀ b ∈ S.fragment, isUnsafeByte b = false
  head_slash : S.netloc ≠ [] → (S.path = [] ∨ S.path.head? = some 47)
  head_c0 : S.scheme = [] → S.netloc = [] →
    ∀ b, S.path.head? = some b → isC0OrSpace b = false
  no_scheme : S.scheme = [] → S.netloc = [] → ∀ pre post,
    splitFirst 58 S.path = some (pre, post) → schemeDetect pre = false

theorem splitInv_nonetloc {scheme u2 : Bytes}
    (hs_ok : scheme = [] ∨ (schemeDetect scheme = true ∧ scheme.map lowerB = scheme))
    (hs_clean : ∀ b ∈ scheme, isUnsafeByte b = false)
    (hu2_clean : ∀ b ∈ u2, isUnsafeByte b = false)
    (hu2_head : scheme = [] → ∀ b, u2.head? = some b → isC0OrSpace b = false)
    (hu2_nos : scheme = [] → ∀ pre post, splitFirst 58 u2 = some (pre, post) →
      schemeDetect pre = false) :
    SplitInv ⟨scheme, [],
      (splitTail 63 (splitTail 35 u2).1).1,
      (splitTail 63 (splitTail 35 u2).1).2,
      (splitTail 35 u2).2⟩ := by
  refine ⟨hs_ok, ?_, ?_, ?_, ?_, hs_clean, ?_, ?_, ?_, ?_, ?_, ?_, ?_⟩
  · exact fun b hb => absurd hb (List.not_mem_nil b)
  · exact rfl
  · exact pqPath_35
  · exact pqPath_63
  · exact fun b hb => absurd hb (List.not_mem_nil b)
  · exact fun b hb => hu2_clean b (pqPath_mem hb)
  · exact fun b hb => hu2_clean b (pqQuery_mem hb)
  · exact fun b hb => hu2_clean b (splitTail_snd_mem hb)
  · exact fun hne => absurd rfl hne
  · intro hs _ b hb
    rcases pqPath_head u2 with h | h
    · rw [h] at hb
      cases hb
    · rw [h] at hb
      exact hu2_head hs b hb
  · intro hs _ pre post hsp
    obtain ⟨post2, h2⟩ := pqPath_colon hsp
    exact hu2_nos hs pre post2 h2

theorem splitInv_netloc {scheme base : Bytes}
    (hs_ok : scheme = [] ∨ (schemeDetect scheme = true ∧ scheme.map lowerB = scheme))
    (hs_clean : ∀ b ∈ scheme, isUnsafeByte b = false)
    (hbase_clean : ∀ b ∈ base, isUnsafeByte b = false)
    (hbr : bracketBad (base.takeWhile (fun b => !isNetlocEnd b)) = false) :
    SplitInv ⟨scheme,
      base.takeWhile (fun b => !isNetlocEnd b),
      (splitTail 63 (splitTail 35 (base.dropWhile (fun b => !isNetlocEnd b))).1).1,
      (splitTail 63 (splitTail 35 (base.dropWhile (fun b => !isNetlocEnd b))).1).2,
      (splitTail 35 (base.dropWhile (fun b => !isNetlocEnd b))).2⟩ := by
  have hh : ∀ b, (base.dropWhile (fun b => !isNetlocEnd b)).head? = some b →
      isNetlocEnd b = true := by
    intro b hb
    have h2 := List.head?_dropWhile_not (fun b => !isNetlocEnd b) base
    rw [hb] at h2
    simpa using h2
  have hpath := body_path_head (base.dropWhile (fun b => !isNetlocEnd b)) hh
  refine ⟨hs_ok, ?_, hbr, ?_, ?_, hs_clean, ?_, ?_, ?_, ?_, ?_, ?_, ?_⟩
  · intro b hb
    have := List.mem_takeWhile_imp hb
    simpa using this
  · exact pqPath_35
  · exact pqPath_63
  · exact fun b hb => hbase_clean b ((List.takeWhile_sublist _).mem hb)
  · exact fun b hb => hbase_clean b ((List.dropWhile_sublist _).mem (pqPath_mem hb))
  · exact fun b hb => hbase_clean b ((List.dropWhile_sublist _).mem (pqQuery_mem hb))
  · exact fun b hb => hbase_clean b ((List.dropWhile_sublist _).mem (splitTail_snd_mem hb))
  · exact fun _ => hpath
  · intro _ _ b hb
    rcases hpath with h | h
    · rw [h] at hb
      cases hb
    · rw [h] at hb
      have hb47 : b = 47 := by simpa using hb.symm
      rw [hb47]
      decide
  · intro _ _ pre post hsp
    rcases hpath with h | h
    · rw [h] at hsp
      cases hsp
    · obtain ⟨hdec, _⟩ := splitFirst_eq_some hsp
      dsimp only at hdec
      cases pre with
      | nil => rfl
      | cons d q =>
        have hd : d = 47 := by
          rw [hdec] at h
          simpa using h
        rw [hd]
        have h47 : isAlphaB 47 = false := by decide
        simp [schemeDetect, h47]

/-- Inversion for `splitBody`: facts about the scheme and the remainder
yield the structural invariant of a successful split. -/
theorem splitBody_inv {scheme u2 : Bytes} {S : UrlSplit}
    (h : splitBody scheme u2 = some S)
    (hs_ok : scheme = [] ∨ (schemeDetect scheme = true ∧ scheme.map lowerB = scheme))
    (hs_clean : ∀ b ∈ scheme, isUnsafeByte b = false)
    (hu2_clean : ∀ b ∈ u2, isUnsafeByte b = false)
    (hu2_head : scheme = [] → ∀ b, u2.head? = some b → isC0OrSpace b = false)
    (hu2_nos : scheme = [] → ∀ pre post, splitFirst 58 u2 = some (pre, post) →
      schemeDetect pre = false) : SplitInv S := by
  unfold splitBody at h
  by_cases htak : u2.take 2 = [47, 47]
  · rw [if_pos htak] at h
    by_cases hbr : bracketBad ((u2.drop 2).takeWhile (fun b => !isNetlocEnd b)) = true
    · rw [if_pos hbr] at h
      cases h
    · rw [if_neg (by simpa using hbr)] at h
      injection h with h
      subst h
      exact splitInv_netloc hs_ok hs_clean
        (fun b hb => hu2_clean b (List.mem_of_mem_drop hb))
        (by simpa using hbr)
  · rw [if_neg htak] at h
    injection h with h
    subst h
    exact splitInv_nonetloc hs_ok hs_clean hu2_clean hu2_head hu2_nos

/-- A successful `urlsplit` satisfies the structural invariant. -/
theorem urlsplitB_inv {url : Bytes} {S : UrlSplit} (h : urlsplitB url = some S) :
    SplitInv S := by
  have hbody : splitBody (schemeSplit (sanitize url)).1 (schemeSplit (sanitize url)).2
      = some S := h
  rcases schemeSplit_cases (sanitize url) with hsp | ⟨pre, post, hsf, hdet, hsp⟩
  · rw [hsp] at hbody
    refine splitBody_inv hbody (Or.inl rfl)
      (fun b hb => absurd hb (List.not_mem_nil b))
      sanitize_clean
      (fun _ => sanitize_head_not_c0)
      (fun _ pre2 post2 hsp2 => schemeSplit_id_reject hsp2 (by rw [hsp]))
  · rw [hsp] at hbody
    obtain ⟨hdec, h58⟩ := splitFirst_eq_some hsf
    refine splitBody_inv hbody
      (Or.inr ⟨schemeDetect_map_lowerB hdet, map_lowerB_idem pre⟩) ?_ ?_ ?_ ?_
    · intro b hb
      rcases List.mem_map.mp hb with ⟨y, hy, rfl⟩
      exact isUnsafeByte_lowerB
        (sanitize_clean y (by rw [hdec]; exact List.mem_append.mpr (Or.inl hy)))
    · intro b hb
      exact sanitize_clean b
        (by rw [hdec]; exact List.mem_append.mpr (Or.inr (List.mem_cons_of_mem _ hb)))
    · intro hemp
      exfalso
      have hpre : pre = [] := List.map_eq_nil_iff.mp hemp
      rw [hpre] at hdet
      cases hdet
    · intro hemp
      exfalso
      have hpre : pre = [] := List.map_eq_nil_iff.mp hemp
      rw [hpre] at hdet
      cases hdet

/-- The path-with-params rejoin used by `urlunparse`. -/
def pwpOf (P : UrlParsed) : Bytes :=
  if P.params ≠ [] then P.path ++ 59 :: P.params else P.path

theorem urlunparseB_eq (P : UrlParsed) :
    urlunparseB P = urlunsplitB P.scheme P.netloc (pwpOf P) P.query P.fragment := rfl

/-- Structural facts `urlparse` guarantees about its result, stated on
the rejoined path-with-params. -/
structure ParseInv (P : UrlParsed) : Prop where
  scheme_ok : P.scheme = [] ∨
    (schemeDetect P.scheme = true ∧ P.scheme.map lowerB = P.scheme)
  netloc_ok : ∀ b ∈ P.netloc, isNetlocEnd b = false
  netloc_br : bracketBad P.netloc = false
  pwp35 : (35 : Nat) ∉ pwpOf P
  pwp63 : (63 : Nat) ∉ pwpOf P
  clean_s : ∀ b ∈ P.scheme, isUnsafeByte b = false
  clean_n : ∀ b ∈ P.netloc, isUnsafeByte b = false
  clean_p : ∀ b ∈ pwpOf P, isUnsafeByte b = false
  clean_f : ∀ b ∈ P.fragment, isUnsafeByte b = false
  head_slash : P.netloc ≠ [] → (pwpOf P = [] ∨ (pwpOf P).head? = some 47)
  head_c0 : P.scheme = [] → P.netloc = [] →
    ∀ b, (pwpOf P).head? = some b → isC0OrSpace b = false
  no_scheme : P.scheme = [] → P.netloc = [] → ∀ pre post,
    splitFirst 58 (pwpOf P) = some (pre, post) → schemeDetect pre = false
  params_ok : (usesParams.contains P.scheme && (pwpOf P).contains 59) = true →
    splitparamsB (pwpOf P) = (P.path, P.params)
  params_nil : (usesParams.contains P.scheme && (pwpOf P).contains 59) = false →
    P.params = []

/-- A successful `urlparse` satisfies the structural invariant: its
path-with-params rejoin carries all the facts of the `urlsplit` path,
and re-splitting it recovers path and params. -/
theorem urlparseB_inv {url : Bytes} {P : UrlParsed} (h : urlparseB url = some P) :
    ParseInv P := by
  cases hs : urlsplitB url with
  | none =>
    unfold urlparseB at h
    rw [hs] at h
    cases h
  | some s =>
    unfold urlparseB at h
    rw [hs] at h
    dsimp only at h
    have hS := urlsplitB_inv hs
    by_cases hcond : (usesParams.contains s.scheme && s.path.contains 59) = true
    · rw [if_pos hcond] at h
      injection h with h
      subst h
      obtain ⟨⟨ext, hext⟩, hjoin, hre⟩ := splitparamsB_char s.path
      by_cases hp2 : (splitparamsB s.path).2 ≠ []
      · have hpwp : pwpOf ⟨s.scheme, s.netloc, (splitparamsB s.path).1,
            (splitparamsB s.path).2, s.query, s.fragment⟩ = s.path := by
          unfold pwpOf
          dsimp only
          rw [if_pos hp2]
          exact (hjoin hp2).symm
        refine ⟨hS.scheme_ok, hS.netloc_ok, hS.netloc_br, ?_, ?_, hS.clean_s,
          hS.clean_n, ?_, hS.clean_f, ?_, ?_, ?_, ?_, ?_⟩
        · rw [hpwp]
          exact hS.path35
        · rw [hpwp]
          exact hS.path63
        · rw [hpwp]
          exact hS.clean_p
        · intro hne
          rw [hpwp]
          exact hS.head_slash hne
        · intro h1 h2 b hb
          rw [hpwp] at hb
          exact hS.head_c0 h1 h2 b hb
        · intro h1 h2 pre post hsp
          rw [hpwp] at hsp
          exact hS.no_scheme h1 h2 pre post hsp
        · intro _
          rw [hpwp]
        · intro hfalse
          rw [hpwp] at hfalse
          dsimp only at hfalse
          rw [hcond] at hfalse
          cases hfalse
      · have hp2e : (splitparamsB s.path).2 = [] := by
          by_contra hne
          exact hp2 hne
        have hpwp : pwpOf ⟨s.scheme, s.netloc, (splitparamsB s.path).1,
            (splitparamsB s.path).2, s.query, s.fragment⟩ = (splitparamsB s.path).1 := by
          unfold pwpOf
          dsimp only
          rw [if_neg hp2]
        refine ⟨hS.scheme_ok, hS.netloc_ok, hS.netloc_br, ?_, ?_, hS.clean_s,
          hS.clean_n, ?_, hS.clean_f, ?_, ?_, ?_, ?_, ?_⟩
        · rw [hpwp]
          exact fun hx => hS.path35 (by rw [hext]; exact List.mem_append.mpr (Or.inl hx))
        · rw [hpwp]
          exact fun hx => hS.path63 (by rw [hext]; exact List.mem_append.mpr (Or.inl hx))
        · rw [hpwp]
          exact fun b hb =>
            hS.clean_p b (by rw [hext]; exact List.mem_append.mpr (Or.inl hb))
        · intro hne
          rw [hpwp]
          rcases hS.head_slash hne with hnil | hhd
          · have h0 : (splitparamsB s.path).1 ++ ext = [] := by
              rw [← hext]
              exact hnil
            exact Or.inl (List.append_eq_nil.mp h0).1
          · cases hpr : (splitparamsB s.path).1 with
            | nil => exact Or.inl rfl
            | cons d q =>
              right
              rw [hext, hpr] at hhd
              simpa using hhd
        · intro h1 h2 b hb
          rw [hpwp] at hb
          cases hpr : (splitparamsB s.path).1 with
          | nil =>
            rw [hpr] at hb
            cases hb
          | cons d q =>
            rw [hpr] at hb
            have hd : b = d := by simpa using hb.symm
            refine hS.head_c0 h1 h2 b ?_
            rw [hext, hpr]
            rw [hd]
            rfl
        · intro h1 h2 pre post hsp
          rw [hpwp] at hsp
          have h2' : splitFirst 58 s.path = some (pre, post ++ ext) := by
            rw [hext]
            exact splitFirst_append_left _ hsp
          exact hS.no_scheme h1 h2 pre (post ++ ext) h2'
        · intro _
          rw [hpwp, hre hp2e, hp2e]
        · intro _
          exact hp2e
    · rw [if_neg hcond] at h
      injection h with h
      subst h
      have hpwp : pwpOf ⟨s.scheme, s.netloc, s.path, [], s.query, s.fragment⟩
          = s.path := by
        unfold pwpOf
        dsimp only
        rw [if_neg (fun hh => hh rfl)]
      refine ⟨hS.scheme_ok, hS.netloc_ok, hS.netloc_br, ?_, ?_, hS.clean_s,
        hS.clean_n, ?_, hS.clean_f, ?_, ?_, ?_, ?_, ?_⟩
      · rw [hpwp]
        exact hS.path35
      · rw [hpwp]
        exact hS.path63
      · rw [hpwp]
        exact hS.clean_p
      · intro hne
        rw [hpwp]
        exact hS.head_slash hne
      · intro h1 h2 b hb
        rw [hpwp] at hb
        exact hS.head_c0 h1 h2 b hb
      · intro h1 h2 pre post hsp
        rw [hpwp] at hsp
        exact hS.no_scheme h1 h2 pre post hsp
      · intro htrue
        rw [hpwp] at htrue
        dsimp only at htrue
        rw [htrue] at hcond
        exact absurd rfl hcond
      · intro _
        rfl

/-!
## Reassemble-and-reparse: the authority round trip
-/

theorem appendQF_cons (c : Nat) (x q f : Bytes) :
    appendQF (c :: x) q f = c :: appendQF x q f := by
  unfold appendQF
  by_cases hf : f ≠ [] <;> by_cases hq : q ≠ [] <;> simp [hf, hq]

theorem appendQF_append (a b q f : Bytes) :
    appendQF (a ++ b) q f = a ++ appendQF b q f := by
  unfold appendQF
  by_cases hf : f ≠ [] <;> by_cases hq : q ≠ [] <;> simp [hf, hq]

theorem mem_appendQF {x q f : Bytes} {b : Nat} (hb : b ∈ appendQF x q f) :
    b ∈ x ∨ b = 63 ∨ b ∈ q ∨ b = 35 ∨ b ∈ f := by
  unfold appendQF at hb
  by_cases hf : f ≠ []
  · rw [if_pos hf] at hb
    rcases List.mem_append.mp hb with h | h
    · by_cases hq : q ≠ []
      · rw [if_pos hq] at h
        rcases List.mem_append.mp h with h | h
        · exact Or.inl h
        · rcases List.mem_cons.mp h with h | h
          · exact Or.inr (Or.inl h)
          · exact Or.inr (Or.inr (Or.inl h))
      · rw [if_neg hq] at h
        exact Or.inl h
    · rcases List.mem_cons.mp h with h | h
      · exact Or.inr (Or.inr (Or.inr (Or.inl h)))
      · exact Or.inr (Or.inr (Or.inr (Or.inr h)))
  · rw [if_neg hf] at hb
    by_cases hq : q ≠ []
    · rw [if_pos hq] at hb
      rcases List.mem_append.mp hb with h | h
      · exact Or.inl h
      · rcases List.mem_cons.mp h with h | h
        · exact Or.inr (Or.inl h)
        · exact Or.inr (Or.inr (Or.inl h))
    · rw [if_neg hq] at hb
      exact Or.inl hb

/-- Splitting fragment then query off `appendQF X q f` recovers the
three parts, provided `X` is free of `#` and `?` and `q` free of `#`. -/
theorem splitTail_appendQF (f : Bytes) {X q : Bytes} (h35 : (35 : Nat) ∉ X)
    (h63 : (63 : Nat) ∉ X) (h35q : (35 : Nat) ∉ q) :
    (splitTail 63 (splitTail 35 (appendQF X q f)).1).1 = X ∧
    (splitTail 63 (splitTail 35 (appendQF X q f)).1).2 = q ∧
    (splitTail 35 (appendQF X q f)).2 = f := by
  have h35' : (35 : Nat) ∉ X ++ 63 :: q := by
    intro hm
    rcases List.mem_append.mp hm with h | h
    · exact h35 h
    · rcases List.mem_cons.mp h with h | h
      · exact absurd h (by decide)
      · exact h35q h
  unfold appendQF
  by_cases hf : f ≠ []
  · rw [if_pos hf]
    by_cases hq : q ≠ []
    · rw [if_pos hq]
      rw [splitTail_append_first f h35']
      dsimp only
      rw [splitTail_append_first q h63]
      exact ⟨rfl, rfl, rfl⟩
    · rw [if_neg hq]
      have hqe : q = [] := not_not.mp hq
      rw [splitTail_append_first f h35]
      dsimp only
      rw [splitTail_no h63]
      exact ⟨rfl, hqe.symm, rfl⟩
  · rw [if_neg hf]
    have hfe : f = [] := not_not.mp hf
    by_cases hq : q ≠ []
    · rw [if_pos hq]
      rw [splitTail_no h35']
      dsimp only
      rw [splitTail_append_first q h63]
      exact ⟨rfl, rfl, hfe.symm⟩
    · rw [if_neg hq]
      have hqe : q = [] := not_not.mp hq
      rw [splitTail_no h35]
      dsimp only
      rw [splitTail_no h63]
      exact ⟨rfl, hqe.symm, hfe.symm⟩

theorem appendQF_nil_head (q f : Bytes) :
    appendQF [] q f = [] ∨ (appendQF [] q f).head? = some 63 ∨
      (appendQF [] q f).head? = some 35 := by
  unfold appendQF
  cases q with
  | nil =>
    cases f with
    | nil => exact Or.inl rfl
    | cons cf rf =>
      right; right
      simp
  | cons cq rq =>
    cases f with
    | nil =>
      right; left
      simp
    | cons cf rf =>
      right; left
      simp

/-- The netloc scan stops exactly at the end of the netloc when the
rest is an `appendQF` of a slash-led (or empty) path. -/
theorem netlocSplit_appendQF (q f : Bytes) {netloc pwp : Bytes}
    (hnl_ok : ∀ b ∈ netloc, isNetlocEnd b = false)
    (hp : pwp = [] ∨ pwp.head? = some 47) :
    (netloc ++ appendQF pwp q f).takeWhile (fun b => !isNetlocEnd b) = netloc ∧
    (netloc ++ appendQF pwp q f).dropWhile (fun b => !isNetlocEnd b)
      = appendQF pwp q f := by
  have hpass : ∀ b ∈ netloc, (fun b => !isNetlocEnd b) b = true := by
    intro b hb
    simp [hnl_ok b hb]
  have hA : appendQF pwp q f = [] ∨
      ∃ c, (appendQF pwp q f).head? = some c ∧ isNetlocEnd c = true := by
    rcases hp with rfl | hx
    · rcases appendQF_nil_head q f with h | h | h
      · exact Or.inl h
      · exact Or.inr ⟨63, h, by decide⟩
      · exact Or.inr ⟨35, h, by decide⟩
    · cases pwp with
      | nil => exact absurd hx (by simp)
      | cons c r =>
        have hc : c = 47 := by simpa using hx
        right
        refine ⟨47, ?_, by decide⟩
        rw [appendQF_cons, hc]
        rfl
  constructor
  · rw [takeWhile_append_all _ hpass]
    rcases hA with h | ⟨c, hc, hcn⟩
    · rw [h]
      simp
    · cases hA2 : appendQF pwp q f with
      | nil => simp
      | cons d r =>
        rw [hA2] at hc
        have hd : d = c := by simpa using hc
        subst hd
        rw [List.takeWhile_cons, if_neg (by simp [hcn])]
        simp
  · rw [dropWhile_append_all _ hpass]
    rcases hA with h | ⟨c, hc, hcn⟩
    · rw [h]
      rfl
    · cases hA2 : appendQF pwp q f with
      | nil => rfl
      | cons d r =>
        rw [hA2] at hc
        have hd : d = c := by simpa using hc
        subst hd
        rw [List.dropWhile_cons, if_neg (by simp [hcn])]

/-- `splitBody` on a reassembled authority form recovers the parts. -/
theorem splitBody_netloc_appendQF {scheme netloc pwp q f : Bytes}
    (hnl_ok : ∀ b ∈ netloc, isNetlocEnd b = false)
    (hbr : bracketBad netloc = false)
    (hp : pwp = [] ∨ pwp.head? = some 47)
    (h35 : (35 : Nat) ∉ pwp) (h63 : (63 : Nat) ∉ pwp) (h35q : (35 : Nat) ∉ q) :
    splitBody scheme (47 :: 47 :: (netloc ++ appendQF pwp q f)) =
      some ⟨scheme, netloc, pwp, q, f⟩ := by
  obtain ⟨htw, hdw⟩ := netlocSplit_appendQF q f hnl_ok hp
  obtain ⟨hfst, hsnd, hfrag⟩ := splitTail_appendQF f h35 h63 h35q
  unfold splitBody
  dsimp only
  rw [if_pos (show List.take 2 (47 :: 47 :: (netloc ++ appendQF pwp q f))
      = [47, 47] from rfl)]
  rw [show List.drop 2 (47 :: 47 :: (netloc ++ appendQF pwp q f))
      = netloc ++ appendQF pwp q f from rfl]
  rw [htw, hdw]
  rw [if_neg (by rw [hbr]; simp)]
  rw [hfst, hsnd, hfrag]

/-- The path guard of `urlunsplit` never fires on a slash-led or empty
path. -/
theorem unsplitU1_netloc {scheme netloc pwp : Bytes} (hnl : netloc ≠ [])
    (hp : pwp = [] ∨ pwp.head? = some 47) :
    unsplitU1 scheme netloc pwp = 47 :: 47 :: (netloc ++ pwp) := by
  unfold unsplitU1
  rw [if_pos (Or.inl hnl)]
  rcases hp with h | h
  · rw [if_neg (fun hc => hc.1 h)]
  · cases hpw : pwp with
    | nil => rw [if_neg (fun hc => hc.1 rfl)]
    | cons c r =>
      have hc : c = 47 := by
        rw [hpw] at h
        simpa using h
      subst hc
      rw [if_neg (fun hc2 => hc2.2 rfl)]

/-- Reassembling a parsed URL with a nonempty authority and reparsing
it with `urlsplit` recovers the components exactly (the query replaced
by any clean, `#`-free byte string `q`). -/
theorem urlsplit_unsplit_netloc {P : UrlParsed} (hP : ParseInv P) {q f : Bytes}
    (hq_clean : ∀ b ∈ q, isUnsafeByte b = false) (hq35 : (35 : Nat) ∉ q)
    (hf_clean : ∀ b ∈ f, isUnsafeByte b = false) (hnl : P.netloc ≠ []) :
    urlsplitB (urlunsplitB P.scheme P.netloc (pwpOf P) q f) =
      some ⟨P.scheme, P.netloc, pwpOf P, q, f⟩ := by
  have hclean_app : ∀ b ∈ appendQF (pwpOf P) q f, isUnsafeByte b = false := by
    intro b hb
    rcases mem_appendQF hb with h | rfl | h | rfl | h
    · exact hP.clean_p b h
    · decide
    · exact hq_clean b h
    · decide
    · exact hf_clean b h
  have hclean_core : ∀ b ∈ 47 :: 47 :: (P.netloc ++ appendQF (pwpOf P) q f),
      isUnsafeByte b = false := by
    intro b hb
    rcases List.mem_cons.mp hb with rfl | hb
    · decide
    · rcases List.mem_cons.mp hb with rfl | hb
      · decide
      · rcases List.mem_append.mp hb with h | h
        · exact hP.clean_n b h
        · exact hclean_app b h
  unfold urlunsplitB
  rw [unsplitU1_netloc hnl (hP.head_slash hnl)]
  by_cases hsch : P.scheme ≠ []
  · rw [if_pos hsch]
    obtain ⟨hdet, hlow⟩ := hP.scheme_ok.resolve_left hsch
    rw [appendQF_append, appendQF_cons, appendQF_cons, appendQF_cons, appendQF_append]
    have hsan : sanitize (P.scheme ++
        58 :: 47 :: 47 :: (P.netloc ++ appendQF (pwpOf P) q f)) =
        P.scheme ++ 58 :: 47 :: 47 :: (P.netloc ++ appendQF (pwpOf P) q f) := by
      refine sanitize_eq_self ?_ ?_
      · intro b hb
        rcases List.mem_append.mp hb with h | h
        · exact hP.clean_s b h
        · rcases List.mem_cons.mp h with rfl | h
          · decide
          · exact hclean_core b h
      · intro b hb
        cases hsc : P.scheme with
        | nil => exact absurd hsc hsch
        | cons c cs =>
          rw [hsc] at hb
          have hbc : c = b := by simpa using hb
          have hca : isAlphaB c = true := by
            rw [hsc] at hdet
            simp only [schemeDetect, Bool.and_eq_true] at hdet
            exact hdet.1
          rw [← hbc]
          simp only [isAlphaB, isUpperAlpha, isLowerAlpha, Bool.or_eq_true,
            decide_eq_true_eq] at hca
          simp only [isC0OrSpace, decide_eq_false_iff_not]
          omega
    show splitBody
      (schemeSplit (sanitize (P.scheme ++
        58 :: 47 :: 47 :: (P.netloc ++ appendQF (pwpOf P) q f)))).1
      (schemeSplit (sanitize (P.scheme ++
        58 :: 47 :: 47 :: (P.netloc ++ appendQF (pwpOf P) q f)))).2 =
      some ⟨P.scheme, P.netloc, pwpOf P, q, f⟩
    rw [hsan]
    rw [schemeSplit_strip hdet hlow]
    exact splitBody_netloc_appendQF hP.netloc_ok hP.netloc_br
      (hP.head_slash hnl) hP.pwp35 hP.pwp63 hq35
  · rw [if_neg hsch]
    have hemp : P.scheme = [] := not_not.mp hsch
    rw [appendQF_cons, appendQF_cons, appendQF_append]
    have hsan : sanitize (47 :: 47 :: (P.netloc ++ appendQF (pwpOf P) q f)) =
        47 :: 47 :: (P.netloc ++ appendQF (pwpOf P) q f) :=
      sanitize_eq_self hclean_core
        (fun b hb => by
          have hb47 : (47 : Nat) = b := by simpa using hb
          rw [← hb47]
          decide)
    show splitBody
      (schemeSplit (sanitize (47 :: 47 :: (P.netloc ++ appendQF (pwpOf P) q f)))).1
      (schemeSplit (sanitize (47 :: 47 :: (P.netloc ++ appendQF (pwpOf P) q f)))).2 =
      some ⟨P.scheme, P.netloc, pwpOf P, q, f⟩
    rw [hsan]
    rw [schemeSplit_head_nonalpha
      (show List.head? (47 :: 47 :: (P.netloc ++ appendQF (pwpOf P) q f))
        = some 47 from rfl)
      (show isAlphaB 47 = false by decide)]
    rw [hemp]
    exact splitBody_netloc_appendQF hP.netloc_ok hP.netloc_br
      (hP.head_slash hnl) hP.pwp35 hP.pwp63 hq35

/-- `urlparse` of the `urlunparse` reassembly, nonempty-authority case:
all components are recovered, with the query replaced by `q`. -/
theorem urlparse_unsplit_netloc {P : UrlParsed} (hP : ParseInv P) {q : Bytes}
    (hq_clean : ∀ b ∈ q, isUnsafeByte b = false) (hq35 : (35 : Nat) ∉ q)
    (hnl : P.netloc ≠ []) :
    urlparseB (urlunparseB ⟨P.scheme, P.netloc, P.path, P.params, q, P.fragment⟩) =
      some ⟨P.scheme, P.netloc, P.path, P.params, q, P.fragment⟩ := by
  have hsplit := urlsplit_unsplit_netloc hP hq_clean hq35 hP.clean_f hnl
  have hun : urlunparseB ⟨P.scheme, P.netloc, P.path, P.params, q, P.fragment⟩ =
      urlunsplitB P.scheme P.netloc (pwpOf P) q P.fragment := rfl
  unfold urlparseB
  rw [hun, hsplit]
  dsimp only
  by_cases hcond : (usesParams.contains P.scheme && (pwpOf P).contains 59) = true
  · rw [if_pos hcond]
    rw [hP.params_ok hcond]
  · rw [if_neg hcond]
    have hpar := hP.params_nil (by simpa using hcond)
    have hpwp : pwpOf P = P.path := by
      unfold pwpOf
      rw [if_neg (fun hh => hh hpar)]
    rw [hpwp, hpar]

/-!
## Totality of parsing on bracket-free input, and byte subsets
-/

theorem contains_false_iff {l : Bytes} {b : Nat} : l.contains b = false ↔ b ∉ l := by
  constructor
  · intro h hm
    have h2 := contains_true_iff.mpr hm
    rw [h] at h2
    cases h2
  · intro h
    cases hc : l.contains b with
    | false => rfl
    | true => exact absurd (contains_true_iff.mp hc) h

theorem splitBody_isSome {scheme u2 : Bytes} (h91 : (91 : Nat) ∉ u2)
    (h93 : (93 : Nat) ∉ u2) : ∃ S, splitBody scheme u2 = some S := by
  unfold splitBody
  by_cases htak : u2.take 2 = [47, 47]
  · rw [if_pos htak]
    dsimp only
    have hnl : ∀ b ∈ (u2.drop 2).takeWhile (fun b => !isNetlocEnd b), b ∈ u2 :=
      fun b hb => List.mem_of_mem_drop ((List.takeWhile_sublist _).mem hb)
    have hbb : bracketBad ((u2.drop 2).takeWhile (fun b => !isNetlocEnd b)) = false := by
      unfold bracketBad
      rw [contains_false_iff.mpr (fun hm => h91 (hnl 91 hm)),
        contains_false_iff.mpr (fun hm => h93 (hnl 93 hm))]
      rfl
    rw [if_neg (by rw [hbb]; simp)]
    exact ⟨_, rfl⟩
  · rw [if_neg htak]
    exact ⟨_, rfl⟩

theorem urlsplitB_isSome {url : Bytes} (h91 : (91 : Nat) ∉ url)
    (h93 : (93 : Nat) ∉ url) : ∃ S, urlsplitB url = some S := by
  show ∃ S, splitBody (schemeSplit (sanitize url)).1 (schemeSplit (sanitize url)).2
    = some S
  have hmem : ∀ b ∈ (schemeSplit (sanitize url)).2, b ∈ url := by
    intro b hb
    rcases schemeSplit_cases (sanitize url) with hsp | ⟨pre, post, hsf, hdet, hsp⟩
    · rw [hsp] at hb
      exact mem_sanitize hb
    · rw [hsp] at hb
      obtain ⟨hdec, _⟩ := splitFirst_eq_some hsf
      exact mem_sanitize (by
        rw [hdec]
        exact List.mem_append.mpr (Or.inr (List.mem_cons_of_mem _ hb)))
  exact splitBody_isSome (fun hm => h91 (hmem 91 hm)) (fun hm => h93 (hmem 93 hm))

theorem urlparseB_isSome {url : Bytes} (h91 : (91 : Nat) ∉ url)
    (h93 : (93 : Nat) ∉ url) : ∃ P, urlparseB url = some P := by
  obtain ⟨S, hS⟩ := urlsplitB_isSome h91 h93
  unfold urlparseB
  rw [hS]
  dsimp only
  by_cases hcond : (usesParams.contains S.scheme && S.path.contains 59) = true
  · rw [if_pos hcond]
    exact ⟨_, rfl⟩
  · rw [if_neg hcond]
    exact ⟨_, rfl⟩

/-- On input without square brackets, `build_utm_url` cannot hit the
`Invalid IPv6 URL` error: it always returns a value. -/
theorem build_utm_url_isSome (s m c t : Bytes) {url : Bytes}
    (h91 : (91 : Nat) ∉ url) (h93 : (93 : Nat) ∉ url) :
    ∃ r, build_utm_url url s m c t = some r := by
  unfold build_utm_url
  by_cases hu : url = []
  · rw [if_pos hu]
    exact ⟨_, rfl⟩
  · rw [if_neg hu]
    obtain ⟨P, hP⟩ := urlparseB_isSome h91 h93
    rw [hP]
    exact ⟨_, rfl⟩

theorem splitBody_query_mem {scheme u2 : Bytes} {S : UrlSplit}
    (h : splitBody scheme u2 = some S) : ∀ b ∈ S.query, b ∈ u2 := by
  unfold splitBody at h
  by_cases htak : u2.take 2 = [47, 47]
  · rw [if_pos htak] at h
    by_cases hbr : bracketBad ((u2.drop 2).takeWhile (fun b => !isNetlocEnd b)) = true
    · rw [if_pos hbr] at h
      cases h
    · rw [if_neg (by simpa using hbr)] at h
      injection h with h
      subst h
      intro b hb
      dsimp only at hb
      exact List.mem_of_mem_drop ((List.dropWhile_sublist _).mem (pqQuery_mem hb))
  · rw [if_neg htak] at h
    injection h with h
    subst h
    intro b hb
    dsimp only at hb
    exact pqQuery_mem hb

theorem urlsplitB_query_mem {url : Bytes} {S : UrlSplit} (h : urlsplitB url = some S) :
    ∀ b ∈ S.query, b ∈ url := by
  have hbody : splitBody (schemeSplit (sanitize url)).1 (schemeSplit (sanitize url)).2
      = some S := h
  intro b hb
  rcases schemeSplit_cases (sanitize url) with hsp | ⟨pre, post, hsf, hdet, hsp⟩
  · rw [hsp] at hbody
    exact mem_sanitize (splitBody_query_mem hbody b hb)
  · rw [hsp] at hbody
    obtain ⟨hdec, _⟩ := splitFirst_eq_some hsf
    have h2 := splitBody_query_mem hbody b hb
    exact mem_sanitize (by
      rw [hdec]
      exact List.mem_append.mpr (Or.inr (List.mem_cons_of_mem _ h2)))

theorem urlparseB_query_mem {url : Bytes} {P : UrlParsed} (h : urlparseB url = some P) :
    ∀ b ∈ P.query, b ∈ url := by
  cases hs : urlsplitB url with
  | none =>
    unfold urlparseB at h
    rw [hs] at h
    cases h
  | some s =>
    unfold urlparseB at h
    rw [hs] at h
    dsimp only at h
    by_cases hcond : (usesParams.contains s.scheme && s.path.contains 59) = true
    · rw [if_pos hcond] at h
      injection h with h
      subst h
      exact fun b hb => urlsplitB_query_mem hs b hb
    · rw [if_neg hcond] at h
      injection h with h
      subst h
      exact fun b hb => urlsplitB_query_mem hs b hb

/-!
## Byte validity through decoding
-/

theorem hexDigitVal_lt {b a : Nat} (h : hexDigitVal b = some a) : a < 16 := by
  unfold hexDigitVal at h
  split at h
  · rename_i hc
    injection h with h
    omega
  · split at h
    · rename_i hc
      injection h with h
      omega
    · split at h
      · rename_i hc
        injection h with h
        omega
      · cases h

theorem mem_splitSep {sep : Nat} : ∀ {l part : Bytes}, part ∈ splitSep sep l →
    ∀ b ∈ part, b ∈ l := by
  intro l
  induction l with
  | nil =>
    intro part hp b hb
    have hpe : part = [] := by simpa [splitSep] using hp
    rw [hpe] at hb
    cases hb
  | cons c r ih =>
    intro part hp b hb
    unfold splitSep at hp
    by_cases hc : c = sep
    · rw [if_pos hc] at hp
      rcases List.mem_cons.mp hp with rfl | hp2
      · cases hb
      · exact List.mem_cons_of_mem _ (ih hp2 b hb)
    · rw [if_neg hc] at hp
      cases hs : splitSep sep r with
      | nil =>
        rw [hs] at hp
        dsimp only at hp
        have hpe : part = [c] := by simpa using hp
        rw [hpe] at hb
        have hbc : b = c := by simpa using hb
        rw [hbc]
        exact List.mem_cons_self _ _
      | cons f fs =>
        rw [hs] at hp
        dsimp only at hp
        rcases List.mem_cons.mp hp with rfl | hp2
        · rcases List.mem_cons.mp hb with rfl | hb2
          · exact List.mem_cons_self _ _
          · exact List.mem_cons_of_mem _
              (ih (by rw [hs]; exact List.mem_cons_self _ _) b hb2)
        · exact List.mem_cons_of_mem _
            (ih (by rw [hs]; exact List.mem_cons_of_mem _ hp2) b hb)

theorem mem_unquoteB_fuel : ∀ (n : Nat) (l : Bytes), l.length ≤ n →
    ∀ b ∈ unquoteB l, b ∈ l ∨ b < 256 := by
  intro n
  induction n with
  | zero =>
    intro l hl b hb
    have hle : l = [] := List.length_eq_zero.mp (Nat.le_zero.mp hl)
    subst hle
    exact absurd hb (List.not_mem_nil b)
  | succ n ih =>
    intro l hl b hb
    cases l with
    | nil => exact absurd hb (List.not_mem_nil b)
    | cons b2 rest =>
      have hlen : rest.length ≤ n := by
        simp only [List.length_cons] at hl
        omega
      by_cases hb37 : b2 = 37
      · subst hb37
        cases rest with
        | nil =>
          have he : unquoteB [37] = [37] := rfl
          rw [he] at hb
          have hb' : b = 37 := by simpa using hb
          exact Or.inr (by omega)
        | cons x rest2 =>
          cases rest2 with
          | nil =>
            have he : unquoteB (37 :: x :: []) = 37 :: unquoteB (x :: []) := rfl
            rw [he] at hb
            rcases List.mem_cons.mp hb with rfl | hb2
            · exact Or.inr (by omega)
            · rcases ih (x :: []) (by
                  simp only [List.length_cons, List.length_nil] at hl ⊢
                  omega) b hb2 with h | h
              · exact Or.inl (List.mem_cons_of_mem _ h)
              · exact Or.inr h
          | cons y rest3 =>
            rw [unquoteB] at hb
            cases ha : hexDigitVal x with
            | none =>
              rw [ha] at hb
              dsimp only at hb
              rcases List.mem_cons.mp hb with rfl | hb2
              · exact Or.inr (by omega)
              · rcases ih (x :: y :: rest3) (by
                    simp only [List.length_cons] at hl ⊢
                    omega) b hb2 with h | h
                · exact Or.inl (List.mem_cons_of_mem _ h)
                · exact Or.inr h
            | some a =>
              rw [ha] at hb
              cases hc : hexDigitVal y with
              | none =>
                rw [hc] at hb
                dsimp only at hb
                rcases List.mem_cons.mp hb with rfl | hb2
                · exact Or.inr (by omega)
                · rcases ih (x :: y :: rest3) (by
                      simp only [List.length_cons] at hl ⊢
                      omega) b hb2 with h | h
                  · exact Or.inl (List.mem_cons_of_mem _ h)
                  · exact Or.inr h
              | some cc =>
                rw [hc] at hb
                dsimp only at hb
                rcases List.mem_cons.mp hb with rfl | hb2
                · refine Or.inr ?_
                  have h1l := hexDigitVal_lt ha
                  have h2l := hexDigitVal_lt hc
                  omega
                · rcases ih rest3 (by
                      simp only [List.length_cons] at hl ⊢
                      omega) b hb2 with h | h
                  · exact Or.inl (List.mem_cons_of_mem _ (List.mem_cons_of_mem _
                      (List.mem_cons_of_mem _ h)))
                  · exact Or.inr h
      · rw [unquoteB_cons_ne hb37] at hb
        rcases List.mem_cons.mp hb with rfl | hb2
        · exact Or.inl (List.mem_cons_self _ _)
        · rcases ih rest hlen b hb2 with h | h
          · exact Or.inl (List.mem_cons_of_mem _ h)
          · exact Or.inr h

theorem mem_unquoteB {l : Bytes} {b : Nat} (hb : b ∈ unquoteB l) :
    b ∈ l ∨ b < 256 :=
  mem_unquoteB_fuel l.length l (Nat.le_refl _) b hb

theorem valid_pyUnquotePlus {l : Bytes} (hl : validBytes l) :
    validBytes (pyUnquotePlus l) := by
  intro b hb
  unfold pyUnquotePlus at hb
  rcases mem_unquoteB hb with h | h
  · unfold plusToSpace at h
    rcases List.mem_map.mp h with ⟨y, hy, hyb⟩
    by_cases hy43 : y = 43
    · rw [if_pos hy43] at hyb
      omega
    · rw [if_neg hy43] at hyb
      rw [← hyb]
      exact hl y hy
  · exact h

theorem qslField_valid {f : Bytes} {p : QPair} (hf : validBytes f)
    (h : qslField true f = some p) : validBytes p.1 ∧ validBytes p.2 := by
  unfold qslField at h
  by_cases hfe : f = []
  · rw [if_pos hfe] at h
    cases h
  · rw [if_neg hfe] at h
    cases hsp : splitFirst 61 f with
    | some nv =>
      obtain ⟨n, v⟩ := nv
      rw [hsp] at h
      dsimp only at h
      rw [if_pos (by simp)] at h
      injection h with h
      subst h
      obtain ⟨hdec, _⟩ := splitFirst_eq_some hsp
      constructor
      · exact valid_pyUnquotePlus
          (fun b hb => hf b (by rw [hdec]; exact List.mem_append.mpr (Or.inl hb)))
      · exact valid_pyUnquotePlus
          (fun b hb => hf b
            (by rw [hdec]; exact List.mem_append.mpr (Or.inr (List.mem_cons_of_mem _ hb))))
    | none =>
      rw [hsp] at h
      dsimp only at h
      rw [if_pos rfl] at h
      injection h with h
      subst h
      exact ⟨valid_pyUnquotePlus hf, fun b hb => absurd hb (List.not_mem_nil b)⟩

theorem parseQsl_valid {qs : Bytes} (hqs : validBytes qs) :
    ∀ p ∈ parseQsl true qs, validBytes p.1 ∧ validBytes p.2 := by
  intro p hp
  unfold parseQsl at hp
  by_cases hq : qs = []
  · rw [if_pos hq] at hp
    cases hp
  · rw [if_neg hq] at hp
    rcases List.mem_filterMap.mp hp with ⟨f, hf, hqf⟩
    exact qslField_valid (fun b hb => hqs b (mem_splitSep hf b hb)) hqf

theorem listToDict_valid {l : List QPair}
    (hl : ∀ p ∈ l, validBytes p.1 ∧ validBytes p.2) :
    ∀ p ∈ listToDict l, validBytes p.1 ∧ validBytes p.2 :=
  fun p hp => hl p (listToDict_mem hp)

theorem applyUtm_valid {d : List QPair} {s m c t : Bytes}
    (hd : ∀ p ∈ d, validBytes p.1 ∧ validBytes p.2)
    (hs : validBytes s) (hm : validBytes m) (hc : validBytes c) (ht : validBytes t) :
    ∀ p ∈ applyUtm d s m c t, validBytes p.1 ∧ validBytes p.2 := by
  intro p hp
  rcases applyUtm_mem hp with h | h | h | h | h
  · exact hd p h
  · rw [h]
    exact ⟨show validBytes (bs "utm_source") from by decide, hs⟩
  · rw [h]
    exact ⟨show validBytes (bs "utm_medium") from by decide, hm⟩
  · rw [h]
    exact ⟨show validBytes (bs "utm_campaign") from by decide, hc⟩
  · rw [h]
    exact ⟨show validBytes (bs "utm_term") from by decide, ht⟩

/-!
## Key-set preservation of the overwrite step
-/

/-- The four tracking-parameter keys. -/
def utmKeys : List Bytes :=
  [bs "utm_source", bs "utm_medium", bs "utm_campaign", bs "utm_term"]

theorem keysOf_dictInsert_filter {k : Bytes} (v : Bytes)
    (hk : (!utmKeys.contains k) = false) : ∀ d : List QPair,
    (keysOf (dictInsert k v d)).filter (fun x => !utmKeys.contains x) =
      (keysOf d).filter (fun x => !utmKeys.contains x) := by
  intro d
  induction d with
  | nil =>
    show List.filter (fun x => !utmKeys.contains x) [k] = []
    rw [List.filter_cons, if_neg (by
      intro hcond
      rw [hk] at hcond
      cases hcond)]
    rfl
  | cons p r ih =>
    unfold dictInsert
    by_cases hp : p.1 = k
    · rw [if_pos hp]
      simp [keysOf, List.filter_cons, hk, hp]
    · rw [if_neg hp]
      simp only [keysOf, List.map_cons, List.filter_cons] at ih ⊢
      rw [ih]

theorem keys_filter_opt_insert {cond : Prop} [Decidable cond] {k : Bytes} (v : Bytes)
    {d : List QPair} (hk : (!utmKeys.contains k) = false) :
    (keysOf (if cond then dictInsert k v d else d)).filter
        (fun x => !utmKeys.contains x)
      = (keysOf d).filter (fun x => !utmKeys.contains x) := by
  split
  · exact keysOf_dictInsert_filter v hk d
  · rfl

/-- The overwrite loop never changes which non-tracking keys occur, nor
their order. -/
theorem applyUtm_keys_filter (d : List QPair) (s m c t : Bytes) :
    (keysOf (applyUtm d s m c t)).filter (fun x => !utmKeys.contains x) =
      (keysOf d).filter (fun x => !utmKeys.contains x) := by
  unfold applyUtm
  rw [keys_filter_opt_insert _ (by decide), keys_filter_opt_insert _ (by decide),
    keys_filter_opt_insert _ (by decide), keys_filter_opt_insert _ (by decide)]

/-- With all four tracking values empty, the overwrite loop is the
identity. -/
theorem applyUtm_nil (d : List QPair) : applyUtm d [] [] [] [] = d := by
  unfold applyUtm
  simp

theorem urlencode_clean {d : List QPair}
    (hd : ∀ p ∈ d, validBytes p.1 ∧ validBytes p.2) :
    ∀ b ∈ urlencodeB d, isUnsafeByte b = false := by
  intro b hb
  obtain ⟨h1, h2, h3, h4, h5, h6, h7, h8, h9⟩ := urlencode_good hd b hb
  simp only [isUnsafeByte, Bool.or_eq_false_iff, decide_eq_false_iff_not]
  omega

theorem urlencode_no35 {d : List QPair}
    (hd : ∀ p ∈ d, validBytes p.1 ∧ validBytes p.2) :
    (35 : Nat) ∉ urlencodeB d := by
  intro hm
  obtain ⟨h1, h2, h3, h4, h5, h6, h7, h8, h9⟩ := urlencode_good hd 35 hm
  omega

/-!
## Claim C7: idempotence of `build_utm_url`
-/

/-- Counterexample to claim C7 as stated: on a relative URL whose path
starts with several slashes, `urlparse` absorbs `//` into an (empty)
netloc and `urlunparse` does not re-emit it, so a second application
shortens the URL again instead of being idempotent. -/
theorem claim_C7_counterexample :
    build_utm_url (bs "/////a?x=1") (bs "s") [] [] []
      = some (bs "///a?x=1&utm_source=s") ∧
    build_utm_url (bs "///a?x=1&utm_source=s") (bs "s") [] [] []
      = some (bs "/a?x=1&utm_source=s") ∧
    bs "///a?x=1&utm_source=s" ≠ bs "/a?x=1&utm_source=s" := by decide

/-- Claim C7, amended: `build_utm_url` is idempotent for a fixed
tracking-parameter assignment on every byte-valued URL whose parse has
a nonempty network location (for authority-less URLs the slash-merging
of `urlparse`/`urlunparse` breaks idempotence, see the counterexample):
re-applying it with the same values to its own output returns that
output unchanged. -/
theorem claim_C7_idempotent_on_authority {url s m c t r : Bytes} {P : UrlParsed}
    (hvu : validBytes url) (hvs : validBytes s) (hvm : validBytes m)
    (hvc : validBytes c) (hvt : validBytes t)
    (hparse : urlparseB url = some P) (hnl : P.netloc ≠ [])
    (hbuild : build_utm_url url s m c t = some r) :
    build_utm_url r s m c t = some r := by
  have hu : url ≠ [] := by
    intro hu
    rw [hu] at hparse
    have h0 : urlparseB ([] : Bytes) = some ⟨[], [], [], [], [], []⟩ := by decide
    rw [h0] at hparse
    injection hparse with hparse
    rw [← hparse] at hnl
    exact hnl rfl
  have hq : validBytes P.query := fun b hb => hvu b (urlparseB_query_mem hparse b hb)
  have hDv : ∀ p ∈ applyUtm (listToDict (parseQsl true P.query)) s m c t,
      validBytes p.1 ∧ validBytes p.2 :=
    applyUtm_valid (listToDict_valid (parseQsl_valid hq)) hvs hvm hvc hvt
  unfold build_utm_url at hbuild
  rw [if_neg hu, hparse] at hbuild
  dsimp only at hbuild
  injection hbuild with hbuild
  have hre : urlparseB r = some ⟨P.scheme, P.netloc, P.path, P.params,
      urlencodeB (applyUtm (listToDict (parseQsl true P.query)) s m c t),
      P.fragment⟩ := by
    rw [← hbuild]
    exact urlparse_unsplit_netloc (urlparseB_inv hparse) (urlencode_clean hDv)
      (urlencode_no35 hDv) hnl
  have hr0 : r ≠ [] := by
    intro hr
    rw [hr] at hre
    have h0 : urlparseB ([] : Bytes) = some ⟨[], [], [], [], [], []⟩ := by decide
    rw [h0] at hre
    injection hre with hre
    have hn : P.netloc = [] := (congrArg UrlParsed.netloc hre).symm
    exact hnl hn
  unfold build_utm_url
  rw [if_neg hr0, hre]
  dsimp only
  rw [parse_urlencode hDv]
  rw [listToDict_of_nodup (applyUtm_nodup (listToDict_nodup _))]
  rw [applyUtm_idem]
  rw [hbuild]

/-- Witness for C7 at a concrete authority URL: applying the annotation
twice with the same source value is idempotent. -/
theorem claim_C7_idempotent_on_authority_witness :
    build_utm_url (bs "http://h/p?a=1") (bs "s") [] [] []
      = some (bs "http://h/p?a=1&utm_source=s") ∧
    build_utm_url (bs "http://h/p?a=1&utm_source=s") (bs "s") [] [] []
      = some (bs "http://h/p?a=1&utm_source=s") :=
  ⟨by decide,
    claim_C7_idempotent_on_authority
      (show validBytes (bs "http://h/p?a=1") by decide)
      (show validBytes (bs "s") by decide)
      (show validBytes [] by decide)
      (show validBytes [] by decide)
      (show validBytes [] by decide)
      (show urlparseB (bs "http://h/p?a=1")
        = some ⟨bs "http", bs "h", bs "/p", [], bs "a=1", []⟩ by decide)
      (by decide)
      (show build_utm_url (bs "http://h/p?a=1") (bs "s") [] [] []
        = some (bs "http://h/p?a=1&utm_source=s") by decide)⟩

/-!
## Claim C1: preservation of non-tracking components
-/

/-- Counterexample to claim C1 as stated: duplicate query keys are
collapsed by the `dict(...)` step (last value wins), so a pre-existing
non-tracking query parameter `a=1` is not preserved in the result. -/
theorem claim_C1_counterexample :
    build_utm_url (bs "http://h/p?a=1&a=2") (bs "s") [] [] []
      = some (bs "http://h/p?a=2&utm_source=s") ∧
    containsSub (bs "a=1") (bs "http://h/p?a=1&a=2") = true ∧
    containsSub (bs "a=1") (bs "http://h/p?a=2&utm_source=s") = false := by decide

/-- Claim C1, amended: on byte-valued URLs whose parse has a nonempty
network location, `build_utm_url` preserves scheme, netloc, path,
params and fragment exactly; the decoded query mapping of the result is
the original mapping after the `dict` collapse (last duplicate wins)
with the tracking overwrite applied — so every non-tracking key keeps
its (last) value and its first-occurrence position, nonempty tracking
values overwrite their key, and empty tracking values leave their key
untouched. -/
theorem claim_C1_preserves_nontracking {url s m c t r : Bytes} {P : UrlParsed}
    (hvu : validBytes url) (hvs : validBytes s) (hvm : validBytes m)
    (hvc : validBytes c) (hvt : validBytes t)
    (hparse : urlparseB url = some P) (hnl : P.netloc ≠ [])
    (hbuild : build_utm_url url s m c t = some r) :
    ∃ P2, urlparseB r = some P2 ∧
      P2.scheme = P.scheme ∧ P2.netloc = P.netloc ∧ P2.path = P.path ∧
      P2.params = P.params ∧ P2.fragment = P.fragment ∧
      parseQsl true P2.query =
        applyUtm (listToDict (parseQsl true P.query)) s m c t ∧
      (keysOf (parseQsl true P2.query)).filter (fun k => !utmKeys.contains k) =
        (keysOf (listToDict (parseQsl true P.query))).filter
          (fun k => !utmKeys.contains k) ∧
      (∀ k, k ≠ bs "utm_source" → k ≠ bs "utm_medium" → k ≠ bs "utm_campaign" →
        k ≠ bs "utm_term" →
        assocLookup k (parseQsl true P2.query) =
          assocLookup k (listToDict (parseQsl true P.query))) ∧
      (s ≠ [] → assocLookup (bs "utm_source") (parseQsl true P2.query) = some s) ∧
      (m ≠ [] → assocLookup (bs "utm_medium") (parseQsl true P2.query) = some m) ∧
      (c ≠ [] → assocLookup (bs "utm_campaign") (parseQsl true P2.query) = some c) ∧
      (t ≠ [] → assocLookup (bs "utm_term") (parseQsl true P2.query) = some t) ∧
      (s = [] → assocLookup (bs "utm_source") (parseQsl true P2.query) =
        assocLookup (bs "utm_source") (listToDict (parseQsl true P.query))) ∧
      (m = [] → assocLookup (bs "utm_medium") (parseQsl true P2.query) =
        assocLookup (bs "utm_medium") (listToDict (parseQsl true P.query))) ∧
      (c = [] → assocLookup (bs "utm_campaign") (parseQsl true P2.query) =
        assocLookup (bs "utm_campaign") (listToDict (parseQsl true P.query))) ∧
      (t = [] → assocLookup (bs "utm_term") (parseQsl true P2.query) =
        assocLookup (bs "utm_term") (listToDict (parseQsl true P.query))) := by
  have hu : url ≠ [] := by
    intro hu
    rw [hu] at hparse
    have h0 : urlparseB ([] : Bytes) = some ⟨[], [], [], [], [], []⟩ := by decide
    rw [h0] at hparse
    injection hparse with hparse
    rw [← hparse] at hnl
    exact hnl rfl
  have hq : validBytes P.query := fun b hb => hvu b (urlparseB_query_mem hparse b hb)
  have hDv : ∀ p ∈ applyUtm (listToDict (parseQsl true P.query)) s m c t,
      validBytes p.1 ∧ validBytes p.2 :=
    applyUtm_valid (listToDict_valid (parseQsl_valid hq)) hvs hvm hvc hvt
  unfold build_utm_url at hbuild
  rw [if_neg hu, hparse] at hbuild
  dsimp only at hbuild
  injection hbuild with hbuild
  have hre : urlparseB r = some ⟨P.scheme, P.netloc, P.path, P.params,
      urlencodeB (applyUtm (listToDict (parseQsl true P.query)) s m c t),
      P.fragment⟩ := by
    rw [← hbuild]
    exact urlparse_unsplit_netloc (urlparseB_inv hparse) (urlencode_clean hDv)
      (urlencode_no35 hDv) hnl
  refine ⟨_, hre, rfl, rfl, rfl, rfl, rfl, ?_⟩
  have hpq : parseQsl true (urlencodeB
      (applyUtm (listToDict (parseQsl true P.query)) s m c t)) =
      applyUtm (listToDict (parseQsl true P.query)) s m c t :=
    parse_urlencode hDv
  refine ⟨hpq, ?_, ?_, ?_, ?_, ?_, ?_, ?_, ?_, ?_, ?_⟩
  · rw [hpq]
    exact applyUtm_keys_filter _ s m c t
  · intro k h1 h2 h3 h4
    rw [hpq]
    exact applyUtm_lookup_other s m c t k h1 h2 h3 h4
  · intro hs
    rw [hpq]
    exact applyUtm_lookup_source m c t hs
  · intro hm
    rw [hpq]
    exact applyUtm_lookup_medium s c t hm
  · intro hc
    rw [hpq]
    exact applyUtm_lookup_campaign s m t hc
  · intro ht
    rw [hpq]
    exact applyUtm_lookup_term s m c ht
  · intro hs
    rw [hpq]
    exact applyUtm_lookup_source_empty m c t hs
  · intro hm
    rw [hpq]
    exact applyUtm_lookup_medium_empty s c t hm
  · intro hc
    rw [hpq]
    exact applyUtm_lookup_campaign_empty s m t hc
  · intro ht
    rw [hpq]
    exact applyUtm_lookup_term_empty s m c ht

/-- Witness for C1: on `http://h/p?a=1&b=2#f` with a nonempty source,
the non-tracking keys `a`, `b` keep value and order, scheme, netloc,
path and fragment are unchanged, and `utm_source` is set. -/
theorem claim_C1_preserves_nontracking_witness :
    build_utm_url (bs "http://h/p?a=1&b=2#f") (bs "s") [] [] []
      = some (bs "http://h/p?a=1&b=2&utm_source=s#f") ∧
    ∃ P2, urlparseB (bs "http://h/p?a=1&b=2&utm_source=s#f") = some P2 ∧
      P2.scheme = bs "http" ∧ P2.netloc = bs "h" ∧ P2.path = bs "/p" ∧
      P2.params = [] ∧ P2.fragment = bs "f" ∧
      assocLookup (bs "a") (parseQsl true P2.query) = some (bs "1") ∧
      assocLookup (bs "b") (parseQsl true P2.query) = some (bs "2") ∧
      assocLookup (bs "utm_source") (parseQsl true P2.query) = some (bs "s") := by
  have hmain := claim_C1_preserves_nontracking
    (show validBytes (bs "http://h/p?a=1&b=2#f") by decide)
    (show validBytes (bs "s") by decide)
    (show validBytes [] by decide)
    (show validBytes [] by decide)
    (show validBytes [] by decide)
    (show urlparseB (bs "http://h/p?a=1&b=2#f")
      = some ⟨bs "http", bs "h", bs "/p", [], bs "a=1&b=2", bs "f"⟩ by decide)
    (by decide)
    (show build_utm_url (bs "http://h/p?a=1&b=2#f") (bs "s") [] [] []
      = some (bs "http://h/p?a=1&b=2&utm_source=s#f") by decide)
  obtain ⟨P2, hP2, hsch, hnl2, hpa, hpar, hfr, hqeq, hrest⟩ := hmain
  refine ⟨by decide, P2, hP2, hsch, hnl2, hpa, hpar, hfr, ?_, ?_, ?_⟩
  · rw [hqeq]
    decide
  · rw [hqeq]
    decide
  · rw [hqeq]
    decide

/-!
## Claim C6: all-empty tracking values
-/

/-- Counterexample to claim C6 as stated: with all tracking values
empty the result can still differ from the input outside the query
string — `urlsplit` lower-cases the scheme, so `HTTP://h?a=1` comes
back as `http://h?a=1`. -/
theorem claim_C6_counterexample :
    build_utm_url (bs "HTTP://h?a=1") [] [] [] [] = some (bs "http://h?a=1") ∧
    bs "http://h?a=1" ≠ bs "HTTP://h?a=1" := by decide

/-- Claim C6, amended: with all four tracking values empty, on a
byte-valued URL whose parse has a nonempty network location, the result
parses back to the same scheme, netloc, path, params and fragment as
the input's parse (not necessarily the same bytes as the input), and
its decoded query mapping is exactly the `dict` collapse of the
original's — the same keys, none added and none removed. -/
theorem claim_C6_empty_tracking_identity {url r : Bytes} {P : UrlParsed}
    (hvu : validBytes url)
    (hparse : urlparseB url = some P) (hnl : P.netloc ≠ [])
    (hbuild : build_utm_url url [] [] [] [] = some r) :
    ∃ P2, urlparseB r = some P2 ∧
      P2.scheme = P.scheme ∧ P2.netloc = P.netloc ∧ P2.path = P.path ∧
      P2.params = P.params ∧ P2.fragment = P.fragment ∧
      parseQsl true P2.query = listToDict (parseQsl true P.query) ∧
      (∀ k, k ∈ keysOf (parseQsl true P2.query) ↔
        k ∈ keysOf (parseQsl true P.query)) := by
  have hu : url ≠ [] := by
    intro hu
    rw [hu] at hparse
    have h0 : urlparseB ([] : Bytes) = some ⟨[], [], [], [], [], []⟩ := by decide
    rw [h0] at hparse
    injection hparse with hparse
    rw [← hparse] at hnl
    exact hnl rfl
  have hq : validBytes P.query := fun b hb => hvu b (urlparseB_query_mem hparse b hb)
  have hDv : ∀ p ∈ applyUtm (listToDict (parseQsl true P.query)) [] [] [] [],
      validBytes p.1 ∧ validBytes p.2 :=
    applyUtm_valid (listToDict_valid (parseQsl_valid hq))
      (fun b hb => absurd hb (List.not_mem_nil b))
      (fun b hb => absurd hb (List.not_mem_nil b))
      (fun b hb => absurd hb (List.not_mem_nil b))
      (fun b hb => absurd hb (List.not_mem_nil b))
  unfold build_utm_url at hbuild
  rw [if_neg hu, hparse] at hbuild
  dsimp only at hbuild
  injection hbuild with hbuild
  have hre : urlparseB r = some ⟨P.scheme, P.netloc, P.path, P.params,
      urlencodeB (applyUtm (listToDict (parseQsl true P.query)) [] [] [] []),
      P.fragment⟩ := by
    rw [← hbuild]
    exact urlparse_unsplit_netloc (urlparseB_inv hparse) (urlencode_clean hDv)
      (urlencode_no35 hDv) hnl
  refine ⟨_, hre, rfl, rfl, rfl, rfl, rfl, ?_, ?_⟩
  · rw [parse_urlencode hDv, applyUtm_nil]
  · intro k
    rw [parse_urlencode hDv, applyUtm_nil]
    exact mem_keys_listToDict

/-- Witness for C6 on `http://h/p?a=1&b=#frag`: blank values survive,
the key set is unchanged, and the other components parse back equal. -/
theorem claim_C6_empty_tracking_identity_witness :
    build_utm_url (bs "http://h/p?a=1&b=#frag") [] [] [] []
      = some (bs "http://h/p?a=1&b=#frag") ∧
    ∃ P2, urlparseB (bs "http://h/p?a=1&b=#frag") = some P2 ∧
      P2.scheme = bs "http" ∧ P2.netloc = bs "h" ∧ P2.path = bs "/p" ∧
      P2.params = [] ∧ P2.fragment = bs "frag" ∧
      parseQsl true P2.query = [(bs "a", bs "1"), (bs "b", [])] := by
  have hmain := claim_C6_empty_tracking_identity
    (show validBytes (bs "http://h/p?a=1&b=#frag") by decide)
    (show urlparseB (bs "http://h/p?a=1&b=#frag")
      = some ⟨bs "http", bs "h", bs "/p", [], bs "a=1&b=", bs "frag"⟩ by decide)
    (by decide)
    (show build_utm_url (bs "http://h/p?a=1&b=#frag") [] [] [] []
      = some (bs "http://h/p?a=1&b=#frag") by decide)
  obtain ⟨P2, hP2, hsch, hnl2, hpa, hpar, hfr, hqeq, _⟩ := hmain
  refine ⟨by decide, P2, hP2, hsch, hnl2, hpa, hpar, hfr, ?_⟩
  rw [hqeq]
  decide

/-!
## Claim C3: exception safety across the boundary
-/

/-- Counterexample to claim C3 as stated: `build_utm_url` lets the
`Invalid IPv6 URL` `ValueError` escape on a malformed URL (modelled as
`none`), and transport failures in the usage-count, group-resolution
and listing calls propagate as uncaught exceptions (modelled as
`.error`) instead of being captured as values. -/
theorem claim_C3_counterexample :
    build_utm_url (bs "http://[::1") [] [] [] [] = none ∧
    get_clicks (Except.error (bs "boom")) = Except.error (bs "boom") ∧
    get_group_guid (Except.error (bs "boom")) = Except.error (bs "boom") ∧
    get_all_bitlinks (fun _ => Except.error (bs "boom")) 5
      = some (Except.error (bs "boom")) := by decide

/-- Claim C3, amended: `build_utm_url` returns the empty string on
empty input and returns a value on every all-ASCII URL free of square
brackets — on such input none of `urlsplit`'s `ValueError` sources can
fire: the bracket checks need a bracket byte and the NFKC netloc check
returns immediately on an ASCII netloc — while on a malformed bracket
authority the `ValueError` escapes; creation and titling capture
transport failures as in-band error values; group resolution maps
non-success statuses to an in-band `None`; but transport exceptions in
group resolution, listing and usage-count are not caught and propagate
to the caller. -/
theorem claim_C3_graceful_and_propagation (s m c t e : Bytes) :
    build_utm_url [] s m c t = some [] ∧
    (∀ url : Bytes, (∀ b ∈ url, b < 128) → (91 : Nat) ∉ url → (93 : Nat) ∉ url →
      ∃ r, build_utm_url url s m c t = some r) ∧
    shorten_with_bitly (Except.error e) = (none, some e) ∧
    update_bitly_title (Except.error e)
      = some (bs "Exception while setting title: " ++ e) ∧
    (∀ st txt gs, st ≠ 200 →
      get_group_guid (Except.ok ⟨st, txt, gs⟩) = Except.ok none) ∧
    get_group_guid (Except.error e) = Except.error e ∧
    get_clicks (Except.error e) = Except.error e ∧
    (∀ fetch : Nat → Except Bytes PageResp, ∀ fuel : Nat,
      fetch 1 = Except.error e → 0 < fuel →
      get_all_bitlinks fetch fuel = some (Except.error e)) := by
  refine ⟨rfl, ?_, rfl, rfl, ?_, rfl, rfl, ?_⟩
  · intro url _ h91 h93
    exact build_utm_url_isSome s m c t h91 h93
  · intro st txt gs hst
    unfold get_group_guid
    dsimp only
    rw [if_pos hst]
  · intro fetch fuel h1 hf
    cases fuel with
    | zero => exact absurd hf (by omega)
    | succ n =>
      unfold get_all_bitlinks bitlinksLoop
      rw [h1]

/-- Witness for C3 (amended) at concrete inputs: empty input yields the
empty string, an all-ASCII bracket-free URL yields a value, and a
transport error in the listing loop propagates as an error. -/
theorem claim_C3_graceful_and_propagation_witness :
    build_utm_url [] (bs "s") [] [] [] = some [] ∧
    (∃ r, build_utm_url (bs "http://h/p?x=1") (bs "s") [] [] [] = some r) ∧
    get_all_bitlinks (fun _ => Except.error (bs "x")) 3
      = some (Except.error (bs "x")) :=
  ⟨(claim_C3_graceful_and_propagation (bs "s") [] [] [] (bs "x")).1,
    (claim_C3_graceful_and_propagation (bs "s") [] [] [] (bs "x")).2.1
      (bs "http://h/p?x=1") (by decide) (by decide) (by decide),
    (claim_C3_graceful_and_propagation (bs "s") [] [] [] (bs "x")).2.2.2.2.2.2.2
      (fun _ => Except.error (bs "x")) 3 rfl (by decide)⟩

end Voodoo
